import Mathlib

/-!
# dailygo: task-line parser and notification scheduler

A shallow embedding of `main.go`.

Conventions of the embedding.

* A Go `string` is a Lean `String`, i.e. a sequence of Unicode code points (the
  planning file is UTF-8 text); the regular-expression engine and the string
  helpers work on its `List Char`.
* Go's `regexp` package is embedded as a backtracking matcher over a small
  regular-expression syntax tree.  The package documents its result as the
  leftmost match and, among those, "the one that a backtracking search would
  have found first"; the matcher below is that search.
* An instant is an integer number of nanoseconds on the local wall clock, every
  calendar day being 24 hours long (a fixed UTC offset); the calendar date of an
  instant is its day number.
* A `time.Duration` is an integer number of nanoseconds kept in the `int64`
  range.
-/

set_option autoImplicit false

namespace DailyGo

/-! ## Regular expressions -/

/-- Syntax trees of the regular expressions used by the program.  A repetition
`x*` / `x*?` is always over a single character class here. -/
inductive Regex where
  | empty : Regex
  | char (p : Char → Bool) : Regex
  | seq (a b : Regex) : Regex
  | alt (a b : Regex) : Regex
  | star (greedy : Bool) (p : Char → Bool) : Regex
  | group (n : Nat) (r : Regex) : Regex
  | eot : Regex

/-- Capture registers: the text captured by each group, if the group took part
in the match. -/
abbrev Caps := Nat → Option (List Char)

/-- No group has captured anything. -/
def noCaps : Caps := fun _ => none

/-- Record the text captured by group `n`. -/
def setCap (c : Caps) (n : Nat) (t : List Char) : Caps :=
  fun m => if m = n then some t else c m

/-- Prioritised choice of a backtracking search: the first alternative wins when
it succeeds. -/
def firstOf {α : Type} : Option α → Option α → Option α
  | some a, _ => some a
  | none, b => b

/-- Greedy repetition `p*`: consume as many characters as possible, giving
characters back one at a time until the continuation succeeds. -/
def starGreedy {α : Type} (p : Char → Bool) (k : List Char → Option α) :
    List Char → Option α
  | [] => k []
  | x :: xs => if p x then firstOf (starGreedy p k xs) (k (x :: xs)) else k (x :: xs)

/-- Lazy repetition `p*?`: consume as few characters as possible, taking one
more each time the continuation fails. -/
def starLazy {α : Type} (p : Char → Bool) (k : List Char → Option α) :
    List Char → Option α
  | [] => k []
  | x :: xs => firstOf (k (x :: xs)) (if p x then starLazy p k xs else none)

/-- Backtracking matcher in continuation-passing style: `matchRe r s c k` matches
`r` at the front of `s` and hands the remaining input and the capture registers
to `k`; when `k` fails the next alternative in priority order is tried. -/
def matchRe {α : Type} : Regex → List Char → Caps → (List Char → Caps → Option α) → Option α
  | .empty, s, c, k => k s c
  | .char p, s, c, k =>
    match s with
    | [] => none
    | x :: xs => if p x then k xs c else none
  | .seq a b, s, c, k => matchRe a s c (fun s' c' => matchRe b s' c' k)
  | .alt a b, s, c, k => firstOf (matchRe a s c k) (matchRe b s c k)
  | .star true p, s, c, k => starGreedy p (fun s' => k s' c) s
  | .star false p, s, c, k => starLazy p (fun s' => k s' c) s
  | .group n r, s, c, k =>
    matchRe r s c (fun s' c' => k s' (setCap c' n (s.take (s.length - s'.length))))
  | .eot, s, c, k => if s.isEmpty then k s c else none

/-- One match of a regular expression inside a text. -/
structure Match where
  /-- the text before the match -/
  before : List Char
  /-- the capture registers; register 0 is the whole match -/
  caps : Caps
  /-- the text after the match -/
  after : List Char

/-- Match `re` starting exactly at the front of `s`. -/
def matchHere (re : Regex) (s : List Char) : Option (Caps × List Char) :=
  matchRe (.group 0 re) s noCaps (fun s' c => some (c, s'))

/-- Leftmost match: try every start position from left to right. -/
def search (re : Regex) : List Char → Option Match
  | [] =>
    match matchHere re [] with
    | some (c, r) => some ⟨[], c, r⟩
    | none => none
  | x :: xs =>
    match matchHere re (x :: xs) with
    | some (c, r) => some ⟨[], c, r⟩
    | none =>
      match search re xs with
      | some m => some ⟨x :: m.before, m.caps, m.after⟩
      | none => none

/-- Go's `(*Regexp).FindStringSubmatch` for a pattern with `numSubexp` groups: nil
(the empty slice) when there is no match, otherwise the whole match followed by
the text of each group, a group that did not take part being the empty string. -/
def findStringSubmatch (re : Regex) (numSubexp : Nat) (s : String) : List String :=
  match search re s.data with
  | none => []
  | some m => (List.range (numSubexp + 1)).map fun i => String.mk ((m.caps i).getD [])

/-- Go's `(*Regexp).ReplaceAllString(src, "$1")` for a pattern that never matches
the empty string: every leftmost non-overlapping match is replaced by the text of
its group 1.  `fuel` bounds the number of replacements. -/
def replaceAllGroup1 (re : Regex) : Nat → List Char → List Char
  | 0, s => s
  | fuel + 1, s =>
    match search re s with
    | none => s
    | some m => m.before ++ (m.caps 1).getD [] ++ replaceAllGroup1 re fuel m.after

/-! ## Character classes and string helpers of the Go library -/

/-- An ASCII digit: the class `\d`, and `isDigit` of the `time` package. -/
def isDigit (c : Char) : Bool := 48 ≤ c.toNat && c.toNat ≤ 57

/-- The class `\d`: ASCII digits. -/
def reDigit (c : Char) : Bool := isDigit c

/-- The class `\s` of Go regular expressions: `[\t\n\f\r ]`. -/
def reSpace (c : Char) : Bool :=
  c.toNat = 9 || c.toNat = 10 || c.toNat = 12 || c.toNat = 13 || c.toNat = 32

/-- The class `.` without the `s` flag: any character but a line feed. -/
def reAny (c : Char) : Bool := c.toNat != 10

/-- A single literal character. -/
def lit (a : Char) : Regex := .char (fun c => c == a)

/-- Greedy `r?`. -/
def opt (r : Regex) : Regex := .alt r .empty

/-- Go's `unicode.IsSpace`. -/
def unicodeIsSpace (c : Char) : Bool :=
  let n := c.toNat
  (9 ≤ n && n ≤ 13) || n = 32 || n = 0x85 || n = 0xA0 || n = 0x1680 ||
  (0x2000 ≤ n && n ≤ 0x200a) || n = 0x2028 || n = 0x2029 || n = 0x202f ||
  n = 0x205f || n = 0x3000

/-- Go's `strings.TrimSpace` on the characters of a string. -/
def trimSpaceChars (s : List Char) : List Char :=
  ((s.dropWhile unicodeIsSpace).reverse.dropWhile unicodeIsSpace).reverse

/-- Go's `strings.TrimSpace`. -/
def trimSpace (s : String) : String := String.mk (trimSpaceChars s.data)

/-- The verb `%02s` of `fmt.Sprintf`: the string left-padded with `0` to a width
of two characters. -/
def pad2 (s : List Char) : List Char := List.replicate (2 - s.length) '0' ++ s

/-! ## The program -/

/-- The record `Task` of `main.go`. -/
structure Task where
  Start : String
  Stop : String
  Description : String
  Notes : String
  deriving DecidableEq, Repr, Inhabited

/-- The sub-pattern `\d{1,2}`. -/
def hourRe : Regex := .seq (.char reDigit) (opt (.char reDigit))

/-- The sub-pattern `(?::(\d{2}))?` with its group numbered `n`. -/
def minuteRe (n : Nat) : Regex :=
  opt (.seq (lit ':') (.group n (.seq (.char reDigit) (.char reDigit))))

/-- The sub-pattern `(?:-\s*(\d{1,2})(?::(\d{2}))?)?`. -/
def stopRe : Regex :=
  opt (.seq (lit '-') (.seq (.star true reSpace) (.seq (.group 3 hourRe) (minuteRe 4))))

/-- The sub-pattern `(?:\s*;\s*(.*))?`. -/
def notesRe : Regex :=
  opt (.seq (.star true reSpace) (.seq (lit ';') (.seq (.star true reSpace)
    (.group 6 (.star true reAny)))))

/-- The sub-pattern `\s*(.*?)(?:\s*;\s*(.*))?$`, what follows the first semicolon. -/
def tailRe : Regex :=
  .seq (.star true reSpace) (.seq (.group 5 (.star false reAny)) (.seq notesRe .eot))

/-- The pattern of `parseTaskLine`:
`(\d{1,2})(?::(\d{2}))?\s*(?:-\s*(\d{1,2})(?::(\d{2}))?)?\s*;\s*(.*?)(?:\s*;\s*(.*))?$`. -/
def taskRe : Regex :=
  .seq (.group 1 hourRe) (.seq (minuteRe 2) (.seq (.star true reSpace) (.seq stopRe
    (.seq (.star true reSpace) (.seq (lit ';') tailRe)))))

/-- The pattern of `parseWikiLink`: `\[\[(.*?)\]\]`. -/
def wikiRe : Regex :=
  .seq (lit '[') (.seq (lit '[') (.seq (.group 1 (.star false reAny))
    (.seq (lit ']') (lit ']'))))

/-- The pattern of `extractNotificationDuration`: `!(-\d+)`. -/
def durationRe : Regex :=
  .seq (lit '!') (.group 1 (.seq (lit '-') (.seq (.char reDigit) (.star true reDigit))))

/-- `formatTime` of `main.go`. -/
def formatTime (hour min : String) : String :=
  let min := if min = "" then "00" else min
  String.mk (pad2 hour.data ++ ':' :: pad2 min.data)

/-- `parseWikiLink` of `main.go`. -/
def parseWikiLink (description : String) : String :=
  String.mk (replaceAllGroup1 wikiRe (description.data.length + 1) description.data)

/-- `parseTaskLine` of `main.go`. -/
def parseTaskLine (line : String) : Except String Task :=
  let «matches» := findStringSubmatch taskRe 6 line
  if «matches».length < 6 then
    .error ("invalid task format: " ++ line)
  else
    let startHour := «matches».getD 1 ""
    let startMin := «matches».getD 2 ""
    let stopHour := «matches».getD 3 ""
    let stopMin := «matches».getD 4 ""
    .ok {
      Start := formatTime startHour startMin
      Stop := formatTime stopHour stopMin
      Description := parseWikiLink (trimSpace («matches».getD 5 ""))
      Notes := if «matches».length = 7 then trimSpace («matches».getD 6 "") else "" }

/-- The outcome of reading the planning file that `parsePlanningFile` sees: the
error of `os.Open`, if any, the lines handed out by the scanner, and the error
the scanner reports after the last line, if any. -/
structure PlanningFile where
  openErr : Option String
  lines : List String
  scanErr : Option String

/-- The scanning loop of `parsePlanningFile`: tasks are appended in file order
and the first line that fails stops the loop with its error. -/
def parseLines : List String → List Task → Except String (List Task)
  | [], tasks => .ok tasks
  | line :: rest, tasks =>
    match parseTaskLine line with
    | .error err => .error err
    | .ok task => parseLines rest (tasks ++ [task])

/-- `parsePlanningFile` of `main.go`. -/
def parsePlanningFile (file : PlanningFile) : Except String (List Task) :=
  match file.openErr with
  | some err => .error err
  | none =>
    match parseLines file.lines [] with
    | .error err => .error err
    | .ok tasks =>
      match file.scanErr with
      | some err => .error err
      | none => .ok tasks

/-- `extractNotificationDuration` of `main.go`. -/
def extractNotificationDuration (notes : String) : String :=
  let «matches» := findStringSubmatch durationRe 1 notes
  if «matches».length = 2 then
    let durationStr := «matches».getD 1 ""
    String.mk (durationStr.data ++ ['m'])
  else ""

/-! ## The Go `time` package -/

/-- Numeric value of an ASCII digit. -/
def digitVal (c : Char) : Nat := c.toNat - 48

/-- `getnum` of the `time` package: one or two leading digits (exactly two when
`fixed`), with the rest of the text. -/
def getnum (s : List Char) (isFixed : Bool) : Option (Nat × List Char) :=
  match s with
  | [] => none
  | a :: rest =>
    if !isDigit a then none
    else
      match rest with
      | b :: rest2 =>
        if isDigit b then some (digitVal a * 10 + digitVal b, rest2)
        else if isFixed then none else some (digitVal a, rest)
      | [] => if isFixed then none else some (digitVal a, rest)

/-- `time.Parse("15:04", value)`: the hour and the minute, or nothing when the
text is not a clock time (hour of one or two digits below 24, a colon, minute of
exactly two digits below 60, nothing after). -/
def timeParse (value : String) : Option (Nat × Nat) :=
  match getnum value.data false with
  | none => none
  | some (hour, rest) =>
    if 24 ≤ hour then none
    else
      match rest with
      | ':' :: rest2 =>
        match getnum rest2 true with
        | none => none
        | some (minute, rest3) =>
          if 60 ≤ minute then none
          else if rest3.isEmpty then some (hour, minute) else none
      | _ => none

/-- Nanoseconds in a calendar day. -/
def nsPerDay : Int := 86400 * 1000000000

/-- Nanoseconds in a minute. -/
def nsPerMinute : Int := 60 * 1000000000

/-- The calendar date (`Year`, `Month`, `Day`) of an instant, as a day number. -/
def dateOf (t : Int) : Int := t / nsPerDay

/-- `time.Date(y, m, d, hour, min, 0, 0, time.Local)` for the date with day number
`day`. -/
def dateClock (day : Int) (hour minute : Nat) : Int :=
  day * nsPerDay + ((hour : Int) * 3600 + (minute : Int) * 60) * 1000000000

/-- `t.AddDate(0, 0, 1)`: the same clock time on the next calendar day. -/
def addDay (t : Int) : Int := t + nsPerDay

/-- Reduce an integer to the `int64` range. -/
def toInt64 (x : Int) : Int := (x + 2 ^ 63) % 2 ^ 64 - 2 ^ 63

/-- `leadingInt` of the `time` package: the value of the leading digits and the
rest of the text, or nothing on overflow. -/
def leadingInt : Nat → List Char → Option (Nat × List Char)
  | x, [] => some (x, [])
  | x, c :: rest =>
    if isDigit c then
      if x > 2 ^ 63 / 10 then none
      else
        let x1 := x * 10 + digitVal c
        if x1 > 2 ^ 63 then none else leadingInt x1 rest
    else some (x, c :: rest)

/-- The table `unitMap` of the `time` package, in nanoseconds. -/
def unitMap (u : List Char) : Option Nat :=
  if u = ['n', 's'] then some 1
  else if u = ['u', 's'] then some 1000
  else if u = [Char.ofNat 0xB5, 's'] then some 1000
  else if u = [Char.ofNat 0x3BC, 's'] then some 1000
  else if u = ['m', 's'] then some 1000000
  else if u = ['s'] then some 1000000000
  else if u = ['m'] then some 60000000000
  else if u = ['h'] then some 3600000000000
  else none

/-- One character of a unit name: anything but a digit or a dot. -/
def unitChar (c : Char) : Bool := !(c == '.' || isDigit c)

/-- The loop of `time.ParseDuration` over the groups `[0-9]+[a-zµ]+`, adding each
to the magnitude `d`.  Values with a fractional part (a `.`) are outside this
model and rejected; the program only ever passes `-`, digits, `m`. -/
def parseDurationLoop : Nat → List Char → Nat → Option Nat
  | 0, _, _ => none
  | fuel + 1, s, d =>
    match s with
    | [] => some d
    | c :: _ =>
      if !isDigit c then none
      else
        match leadingInt 0 s with
        | none => none
        | some (v, rest) =>
          let u := rest.takeWhile unitChar
          let rest2 := rest.dropWhile unitChar
          if u.isEmpty then none
          else
            match unitMap u with
            | none => none
            | some unit =>
              if v > 2 ^ 63 / unit then none
              else
                let d1 := d + v * unit
                if d1 > 2 ^ 63 then none else parseDurationLoop fuel rest2 d1

/-- `time.ParseDuration`: the duration in nanoseconds, or nothing when the text
is rejected. -/
def parseDuration (s : String) : Option Int :=
  let neg := s.data.head? = some '-'
  let body := if s.data.head? = some '-' ∨ s.data.head? = some '+' then s.data.tail else s.data
  if body = ['0'] then some 0
  else if body.isEmpty then none
  else
    match parseDurationLoop (body.length + 1) body 0 with
    | none => none
    | some d =>
      if neg then some (toInt64 (-(d : Int)))
      else if d > 2 ^ 63 - 1 then none else some d

/-- The smallest `time.Duration`. -/
def minDuration : Int := -(2 ^ 63)

/-- The largest `time.Duration`. -/
def maxDuration : Int := 2 ^ 63 - 1

/-- `t.Sub(u)`: the difference of two instants, saturated to the range of
`time.Duration`. -/
def timeSub (t u : Int) : Int :=
  if t - u < minDuration then minDuration
  else if maxDuration < t - u then maxDuration else t - u

/-! ## The scheduler -/

/-- Entries written to the log by `scheduleNotification`. -/
inductive LogEntry where
  | startParseFailed
  | durationParseFailed
  | sinkFailed
  deriving DecidableEq, Repr

/-- Everything `scheduleNotification` computes and emits for one task. -/
structure Firing where
  /-- `notificationTime` after the roll-over to the next day -/
  resolved : Int
  /-- `duration`, the parsed lead time -/
  duration : Int
  /-- `notificationTime` after the lead-time adjustment -/
  notificationTime : Int
  /-- the argument of `time.Sleep` -/
  sleepDuration : Int
  /-- the log entries written -/
  log : List LogEntry
  /-- the lines printed on the console after the wait -/
  console : List String
  deriving DecidableEq, Repr

/-- What a scheduler unit does: it gives up on a start time it cannot parse, or
waits and fires. -/
inductive Outcome where
  | aborted (log : List LogEntry)
  | fired (f : Firing)
  deriving DecidableEq, Repr

/-- The instant `notificationTime` of `scheduleNotification` after the roll-over:
the clock time on the date of `now`, moved to the next calendar day when it is
before `now`. -/
def resolveStart (now : Int) (hour minute : Nat) : Int :=
  let notificationTime := dateClock (dateOf now) hour minute
  if notificationTime < now then addDay notificationTime else notificationTime

/-- The lead time `duration` of `scheduleNotification` with the log entries of
its computation. -/
def leadDuration (notes : String) : Int × List LogEntry :=
  if notes ≠ "" then
    let durationStr := extractNotificationDuration notes
    if durationStr ≠ "" then
      match parseDuration durationStr with
      | some d => (d, [])
      | none => (0, [LogEntry.durationParseFailed])
    else (0, [])
  else (0, [])

/-- `scheduleNotification` of `main.go`, run at the instant `now`; `sinkErr` tells
whether the `notify-send` command fails. -/
def scheduleNotification (t : Task) (now : Int) (sinkErr : Bool) : Outcome :=
  match timeParse t.Start with
  | none => .aborted [LogEntry.startParseFailed]
  | some (hour, minute) =>
    let resolved := resolveStart now hour minute
    let (duration, durLog) := leadDuration t.Notes
    let notificationTime := resolved + toInt64 (-duration)
    let sleepDuration := timeSub notificationTime now
    .fired {
      resolved := resolved
      duration := duration
      notificationTime := notificationTime
      sleepDuration := sleepDuration
      log := durLog ++ (if sinkErr then [LogEntry.sinkFailed] else [])
      console := ["\n--- Task Starting ---\n", "Time: " ++ t.Start ++ "\n",
        "Description: " ++ t.Description ++ "\n", "---------------------\n"] }

/-! ## Vocabulary of the statements -/

/-- The numbers of the capture groups of a regular expression. -/
def Regex.groups : Regex → List Nat
  | .empty => []
  | .char _ => []
  | .seq a b => a.groups ++ b.groups
  | .alt a b => a.groups ++ b.groups
  | .star _ _ => []
  | .group n r => n :: r.groups
  | .eot => []

/-- Declarative reading of a regular expression: `Matches r u v` says that `r` can
match the text `u` when `v` is what follows it in the input (the context is
needed for `$`). -/
inductive Matches : Regex → List Char → List Char → Prop
  | empty (v : List Char) : Matches .empty [] v
  | char (p : Char → Bool) (x : Char) (v : List Char) : p x = true → Matches (.char p) [x] v
  | seq {a b : Regex} {u w v : List Char} :
      Matches a u (w ++ v) → Matches b w v → Matches (.seq a b) (u ++ w) v
  | altL {a : Regex} (b : Regex) {u v : List Char} : Matches a u v → Matches (.alt a b) u v
  | altR (a : Regex) {b : Regex} {u v : List Char} : Matches b u v → Matches (.alt a b) u v
  | star (g : Bool) (p : Char → Bool) (u v : List Char) :
      (∀ x ∈ u, p x = true) → Matches (.star g p) u v
  | group (n : Nat) {r : Regex} {u v : List Char} : Matches r u v → Matches (.group n r) u v
  | eot : Matches .eot [] []

/-- A text made of ASCII digits only. -/
def IsDigits (s : List Char) : Prop := ∀ c ∈ s, isDigit c = true

/-- An hour as the grammar writes it: one or two digits. -/
def IsHourText (h : List Char) : Prop := (h.length = 1 ∨ h.length = 2) ∧ IsDigits h

/-- A minute as the grammar writes it: exactly two digits. -/
def IsMinuteText (m : List Char) : Prop := m.length = 2 ∧ IsDigits m

/-- White space of the grammar: characters of the class `\s` only. -/
def IsBlank (w : List Char) : Prop := ∀ c ∈ w, reSpace c = true

/-- A clock time `H[:MM]` as written in a task line: the digits of the hour and,
when given, the digits of the minute. -/
structure ClockText where
  hour : List Char
  minute : Option (List Char)

/-- The hour has one or two digits and the minute, when given, exactly two. -/
def ClockText.Valid (t : ClockText) : Prop :=
  IsHourText t.hour ∧ ∀ m ∈ t.minute, IsMinuteText m

/-- The text `H` or `H:MM`. -/
def ClockText.text (t : ClockText) : List Char :=
  t.hour ++ (match t.minute with
    | none => []
    | some m => ':' :: m)

/-- The rendering the specification expects: the hour left-padded with `0` to two
digits, a colon, and the minute, or `00` when no minute was written. -/
def ClockText.canonical (t : ClockText) : String :=
  String.mk (pad2 t.hour ++ ':' :: t.minute.getD ['0', '0'])

/-- The time range `H[:MM][-H[:MM]]` of a task line, with the optional white space
the pattern allows after the start time (`w1`), after the hyphen (`w2`) and
before the semicolon (`w3`). -/
def rangeText (start : ClockText) (stop : Option ClockText) (w1 w2 w3 : List Char) :
    List Char :=
  start.text ++ (w1 ++ ((match stop with
    | none => []
    | some st => '-' :: (w2 ++ st.text)) ++ w3))

/-- A text without line feed, as every line handed out by the scanner is. -/
def NoLineFeed (s : List Char) : Prop := ∀ c ∈ s, reAny c = true

/-- The registers after a clock time `H[:MM]` was taken by the hour group `n` and
the minute group `m`. -/
def capClock (c : Caps) (n m : Nat) (t : ClockText) : Caps :=
  match t.minute with
  | none => setCap c n t.hour
  | some mm => setCap (setCap c n t.hour) m mm

/-- The registers after the time range of a task line was taken. -/
def capRange (c : Caps) (start : ClockText) (stop : Option ClockText) : Caps :=
  match stop with
  | none => capClock c 1 2 start
  | some st => capClock (capClock c 1 2 start) 3 4 st

/-- The description segment of what follows the first semicolon: the text up to
the next semicolon, or all of it. -/
def descriptionPart (rest : List Char) : List Char := rest.takeWhile (fun c => c != ';')

/-- The notes segment of what follows the first semicolon: the text after the
next semicolon, empty when there is none. -/
def notesPart (rest : List Char) : List Char := (rest.dropWhile (fun c => c != ';')).tail

/-- The Stop the program produces for a written stop time, or for none. -/
def stopCanonical (stop : Option ClockText) : String :=
  match stop with
  | none => "00:00"
  | some st => st.canonical

/-- A valid time range `H[:MM][-H[:MM]]`, white space allowed after the start
time, after the hyphen and at the end. -/
def IsTimeRange (t : List Char) : Prop :=
  ∃ (start : ClockText) (stop : Option ClockText) (w1 w2 w3 : List Char),
    start.Valid ∧ (∀ st ∈ stop, st.Valid) ∧ IsBlank w1 ∧ IsBlank w2 ∧ IsBlank w3 ∧
    t = rangeText start stop w1 w2 w3

/-- The form a line must have for the task pattern to match somewhere in it: any
text, then a valid time range, a semicolon and the rest of the line. -/
def HasTaskForm (line : List Char) : Prop :=
  ∃ (front t rest : List Char), IsTimeRange t ∧ line = front ++ (t ++ ';' :: rest)

/-- A piece of a description: a stretch of plain text, or a link `[[X]]` given by
its inner text `X`. -/
inductive Piece where
  | text (s : List Char) : Piece
  | link (x : List Char) : Piece

/-- A character that is not a square bracket. -/
def noBracket (c : Char) : Bool := c != '[' && c != ']'

/-- The piece as it is written in the description. -/
def Piece.source : Piece → List Char
  | .text s => s
  | .link x => '[' :: '[' :: (x ++ [']', ']'])

/-- The piece with the link markup removed. -/
def Piece.unwrapped : Piece → List Char
  | .text s => s
  | .link x => x

/-- A text piece is free of square brackets; the inner text of a link is free of
square brackets and line feeds. -/
def Piece.Plain : Piece → Prop
  | .text s => ∀ c ∈ s, noBracket c = true
  | .link x => ∀ c ∈ x, noBracket c = true ∧ reAny c = true

/-- A description written as a sequence of pieces. -/
def sourceText : List Piece → List Char
  | [] => []
  | p :: ps => p.source ++ sourceText ps

/-- The same description with every link replaced by its inner text. -/
def unwrappedText : List Piece → List Char
  | [] => []
  | p :: ps => p.unwrapped ++ unwrappedText ps

/-- The number of links among the pieces. -/
def linkCount : List Piece → Nat
  | [] => 0
  | .text _ :: ps => linkCount ps
  | .link _ :: ps => linkCount ps + 1

/-- The text contains the character `a` twice in a row: with `[` the opening
delimiter `[[`, with `]` the closing delimiter `]]`. -/
def hasDelim (a : Char) : List Char → Bool
  | [] => false
  | x :: rest =>
    (x == a && (match rest with
      | [] => false
      | y :: _ => y == a)) || hasDelim a rest

/-- The shape `digit digit ':' digit digit` of a canonical clock time. -/
def IsClockShape (s : String) : Prop :=
  ∃ p q r t : Char, isDigit p = true ∧ isDigit q = true ∧ isDigit r = true ∧
    isDigit t = true ∧ s = String.mk [p, q, ':', r, t]

/-- The text contains a lead-time marker: `!-` immediately followed by a digit. -/
def hasMarker : List Char → Bool
  | [] => false
  | x :: rest =>
    (x == '!' && (match rest with
      | y :: z :: _ => y == '-' && isDigit z
      | _ => false)) || hasMarker rest

/-- The number written by a run of digits, continuing from the value `x` of
the digits read before. -/
def digitsValue : Nat → List Char → Nat
  | x, [] => x
  | x, c :: rest => digitsValue (x * 10 + digitVal c) rest

/-- The largest number of minutes that `time.ParseDuration` accepts: the
nanoseconds of more minutes do not fit in an `int64`. -/
def maxMinutes : Nat := 153722867

/-- The time of day of an instant, in nanoseconds since midnight. -/
def timeOfDay (t : Int) : Int := t % nsPerDay

/-- The clock value `hour:minute`, in nanoseconds since midnight. -/
def clockNanos (hour minute : Nat) : Int :=
  ((hour : Int) * 3600 + (minute : Int) * 60) * 1000000000

/-! ## The backtracking matcher and the declarative reading -/

theorem firstOf_some {α : Type} (a : α) (b : Option α) : firstOf (some a) b = some a := rfl

theorem firstOf_none {α : Type} (b : Option α) : firstOf none b = b := rfl

theorem firstOf_eq_some {α : Type} {a b : Option α} {r : α} (h : firstOf a b = some r) :
    a = some r ∨ (a = none ∧ b = some r) := by
  cases a with
  | none => exact Or.inr ⟨rfl, h⟩
  | some x => exact Or.inl h

theorem firstOf_of_left {α : Type} {a : Option α} {r : α} (b : Option α) (h : a = some r) :
    firstOf a b = some r := by
  subst h; rfl

theorem firstOf_isSome_right {α : Type} (a : Option α) {b : Option α} (h : b.isSome = true) :
    (firstOf a b).isSome = true := by
  cases a with
  | none => exact h
  | some x => rfl

theorem firstOf_isSome_left {α : Type} {a : Option α} (b : Option α) (h : a.isSome = true) :
    (firstOf a b).isSome = true := by
  cases a with
  | none => simp at h
  | some x => rfl

theorem starGreedy_sound {α : Type} (p : Char → Bool) (k : List Char → Option α) (res : α) :
    ∀ s : List Char, starGreedy p k s = some res →
      ∃ u v, s = u ++ v ∧ (∀ x ∈ u, p x = true) ∧ k v = some res := by
  intro s
  induction s with
  | nil =>
    intro h
    exact ⟨[], [], rfl, by simp, h⟩
  | cons x xs ih =>
    intro h
    unfold starGreedy at h
    by_cases hp : p x = true
    · rw [if_pos hp] at h
      rcases firstOf_eq_some h with h1 | ⟨_, h2⟩
      · obtain ⟨u, v, hs, hu, hk⟩ := ih h1
        refine ⟨x :: u, v, by simp [hs], ?_, hk⟩
        intro y hy
        rcases List.mem_cons.mp hy with rfl | hy
        · exact hp
        · exact hu y hy
      · exact ⟨[], x :: xs, rfl, by simp, h2⟩
    · rw [if_neg hp] at h
      exact ⟨[], x :: xs, rfl, by simp, h⟩

theorem starLazy_sound {α : Type} (p : Char → Bool) (k : List Char → Option α) (res : α) :
    ∀ s : List Char, starLazy p k s = some res →
      ∃ u v, s = u ++ v ∧ (∀ x ∈ u, p x = true) ∧ k v = some res := by
  intro s
  induction s with
  | nil =>
    intro h
    exact ⟨[], [], rfl, by simp, h⟩
  | cons x xs ih =>
    intro h
    unfold starLazy at h
    rcases firstOf_eq_some h with h1 | ⟨_, h2⟩
    · exact ⟨[], x :: xs, rfl, by simp, h1⟩
    · by_cases hp : p x = true
      · rw [if_pos hp] at h2
        obtain ⟨u, v, hs, hu, hk⟩ := ih h2
        refine ⟨x :: u, v, by simp [hs], ?_, hk⟩
        intro y hy
        rcases List.mem_cons.mp hy with rfl | hy
        · exact hp
        · exact hu y hy
      · rw [if_neg hp] at h2
        cases h2

theorem take_length_sub_append (u v : List Char) :
    (u ++ v).take ((u ++ v).length - v.length) = u := by
  simp

/-- Soundness of the matcher: a successful run consumed a text that the
expression matches declaratively, and it handed the rest to the continuation
with registers that differ from the initial ones only at the groups of the
expression. -/
theorem matchRe_sound {α : Type} (r : Regex) :
    ∀ (s : List Char) (c : Caps) (k : List Char → Caps → Option α) (res : α),
      matchRe r s c k = some res →
      ∃ u v c', s = u ++ v ∧ Matches r u v ∧ k v c' = some res ∧
        ∀ n, n ∉ r.groups → c' n = c n := by
  induction r with
  | empty =>
    intro s c k res h
    exact ⟨[], s, c, rfl, Matches.empty s, h, fun _ _ => rfl⟩
  | char p =>
    intro s c k res h
    cases s with
    | nil => simp [matchRe] at h
    | cons x xs =>
      simp only [matchRe] at h
      by_cases hp : p x = true
      · rw [if_pos hp] at h
        exact ⟨[x], xs, c, rfl, Matches.char p x xs hp, h, fun _ _ => rfl⟩
      · rw [if_neg hp] at h
        cases h
  | seq a b iha ihb =>
    intro s c k res h
    simp only [matchRe] at h
    obtain ⟨u1, v1, c1, hs1, hm1, hk1, hc1⟩ := iha s c _ res h
    obtain ⟨u2, v2, c2, hs2, hm2, hk2, hc2⟩ := ihb v1 c1 k res hk1
    subst hs2
    refine ⟨u1 ++ u2, v2, c2, by simp [hs1], Matches.seq hm1 hm2, hk2, ?_⟩
    intro n hn
    simp only [Regex.groups, List.mem_append, not_or] at hn
    rw [hc2 n hn.2, hc1 n hn.1]
  | alt a b iha ihb =>
    intro s c k res h
    simp only [matchRe] at h
    rcases firstOf_eq_some h with h1 | ⟨_, h2⟩
    · obtain ⟨u, v, c1, hs, hm, hk, hc⟩ := iha s c k res h1
      refine ⟨u, v, c1, hs, Matches.altL b hm, hk, ?_⟩
      intro n hn
      simp only [Regex.groups, List.mem_append, not_or] at hn
      exact hc n hn.1
    · obtain ⟨u, v, c1, hs, hm, hk, hc⟩ := ihb s c k res h2
      refine ⟨u, v, c1, hs, Matches.altR a hm, hk, ?_⟩
      intro n hn
      simp only [Regex.groups, List.mem_append, not_or] at hn
      exact hc n hn.2
  | star g p =>
    intro s c k res h
    cases g with
    | true =>
      simp only [matchRe] at h
      obtain ⟨u, v, hs, hu, hk⟩ := starGreedy_sound p _ res s h
      exact ⟨u, v, c, hs, Matches.star true p u v hu, hk, fun _ _ => rfl⟩
    | false =>
      simp only [matchRe] at h
      obtain ⟨u, v, hs, hu, hk⟩ := starLazy_sound p _ res s h
      exact ⟨u, v, c, hs, Matches.star false p u v hu, hk, fun _ _ => rfl⟩
  | group n r ih =>
    intro s c k res h
    simp only [matchRe] at h
    obtain ⟨u, v, c1, hs, hm, hk, hc⟩ := ih s c _ res h
    refine ⟨u, v, _, hs, Matches.group n hm, hk, ?_⟩
    intro m hm'
    simp only [Regex.groups, List.mem_cons, not_or] at hm'
    simp only [setCap, if_neg hm'.1]
    exact hc m hm'.2
  | eot =>
    intro s c k res h
    cases s with
    | nil =>
      simp only [matchRe, List.isEmpty_nil, if_true] at h
      exact ⟨[], [], c, rfl, Matches.eot, h, fun _ _ => rfl⟩
    | cons x xs => simp [matchRe] at h

/-- Soundness for a capture group: the continuation receives the matched text in
the register of the group. -/
theorem matchRe_group_sound {α : Type} (n : Nat) (r : Regex) (s : List Char) (c : Caps)
    (k : List Char → Caps → Option α) (res : α)
    (h : matchRe (.group n r) s c k = some res) :
    ∃ u v c', s = u ++ v ∧ Matches r u v ∧ k v (setCap c' n u) = some res ∧
      ∀ m, m ∉ r.groups → c' m = c m := by
  simp only [matchRe] at h
  obtain ⟨u, v, c1, hs, hm, hk, hc⟩ := matchRe_sound r s c _ res h
  subst hs
  rw [take_length_sub_append] at hk
  exact ⟨u, v, c1, rfl, hm, hk, hc⟩

theorem starGreedy_complete {α : Type} (p : Char → Bool) (k : List Char → Option α)
    (v : List Char) (hk : (k v).isSome = true) :
    ∀ u : List Char, (∀ x ∈ u, p x = true) → (starGreedy p k (u ++ v)).isSome = true := by
  intro u
  induction u with
  | nil =>
    intro _
    cases v with
    | nil => exact hk
    | cons y ys =>
      simp only [List.nil_append, starGreedy]
      by_cases hp : p y = true
      · rw [if_pos hp]; exact firstOf_isSome_right _ hk
      · rw [if_neg hp]; exact hk
  | cons x xs ih =>
    intro hu
    rw [List.cons_append, starGreedy]
    rw [if_pos (hu x (List.mem_cons_self x xs))]
    exact firstOf_isSome_left _ (ih fun y hy => hu y (List.mem_cons_of_mem x hy))

theorem starLazy_complete {α : Type} (p : Char → Bool) (k : List Char → Option α)
    (v : List Char) (hk : (k v).isSome = true) :
    ∀ u : List Char, (∀ x ∈ u, p x = true) → (starLazy p k (u ++ v)).isSome = true := by
  intro u
  induction u with
  | nil =>
    intro _
    cases v with
    | nil => exact hk
    | cons y ys =>
      simp only [List.nil_append, starLazy]
      exact firstOf_isSome_left _ hk
  | cons x xs ih =>
    intro hu
    rw [List.cons_append, starLazy]
    rw [if_pos (hu x (List.mem_cons_self x xs))]
    exact firstOf_isSome_right _ (ih fun y hy => hu y (List.mem_cons_of_mem x hy))

/-- Completeness of the matcher: when the expression matches a front part of the
input declaratively and the continuation accepts what follows whatever the
registers, the backtracking search succeeds. -/
theorem matchRe_complete {α : Type} {r : Regex} {u v : List Char} (hm : Matches r u v) :
    ∀ (c : Caps) (k : List Char → Caps → Option α),
      (∀ c', (k v c').isSome = true) → (matchRe r (u ++ v) c k).isSome = true := by
  induction hm with
  | empty v =>
    intro c k hk
    exact hk c
  | char p x v hp =>
    intro c k hk
    simp only [List.singleton_append, matchRe, if_pos hp]
    exact hk c
  | @seq a b u w v _ _ iha ihb =>
    intro c k hk
    simp only [matchRe, List.append_assoc]
    exact iha c _ (fun c' => ihb c' k hk)
  | altL b _ ih =>
    intro c k hk
    simp only [matchRe]
    exact firstOf_isSome_left _ (ih c k hk)
  | altR a _ ih =>
    intro c k hk
    simp only [matchRe]
    exact firstOf_isSome_right _ (ih c k hk)
  | star g p u v hu =>
    intro c k hk
    cases g with
    | true =>
      simp only [matchRe]
      exact starGreedy_complete p _ v (hk c) u hu
    | false =>
      simp only [matchRe]
      exact starLazy_complete p _ v (hk c) u hu
  | @group n r u v _ ih =>
    intro c k hk
    simp only [matchRe]
    exact ih c _ (fun c' => hk _)
  | eot =>
    intro c k hk
    simp only [List.append_nil, matchRe, List.isEmpty_nil, if_true]
    exact hk c

/-! ## The leftmost search -/

theorem search_of_matchHere {re : Regex} {s : List Char} {c : Caps} {r : List Char}
    (h : matchHere re s = some (c, r)) : search re s = some ⟨[], c, r⟩ := by
  cases s with
  | nil => simp only [search, h]
  | cons x xs => simp only [search, h]

theorem search_sound (re : Regex) :
    ∀ (s : List Char) (m : Match), search re s = some m →
      ∃ body, s = m.before ++ body ∧ matchHere re body = some (m.caps, m.after) := by
  intro s
  induction s with
  | nil =>
    intro m h
    simp only [search] at h
    split at h
    · rename_i c r hm
      cases h
      exact ⟨[], rfl, hm⟩
    · cases h
  | cons x xs ih =>
    intro m h
    simp only [search] at h
    split at h
    · rename_i c r hm
      cases h
      exact ⟨x :: xs, rfl, hm⟩
    · split at h
      · rename_i m' hm'
        cases h
        obtain ⟨body, hb, hmb⟩ := ih m' hm'
        exact ⟨body, by simp [hb], hmb⟩
      · cases h

theorem search_complete (re : Regex) (body : List Char)
    (h : (matchHere re body).isSome = true) :
    ∀ front : List Char, (search re (front ++ body)).isSome = true := by
  have base : (search re body).isSome = true := by
    cases hm : matchHere re body with
    | none => rw [hm] at h; cases h
    | some cr =>
      obtain ⟨c, r⟩ := cr
      rw [search_of_matchHere hm]; rfl
  intro front
  induction front with
  | nil => exact base
  | cons x xs ih =>
    rw [List.cons_append, search]
    split
    · rfl
    · split
      · rfl
      · rename_i hn
        rw [hn] at ih
        cases ih

/-! ## Runs of the matcher along its first choices -/

theorem starGreedy_of_dropWhile {α : Type} (p : Char → Bool) (k : List Char → Option α)
    (r : α) : ∀ s : List Char, k (s.dropWhile p) = some r → starGreedy p k s = some r := by
  intro s
  induction s with
  | nil => intro h; exact h
  | cons x xs ih =>
    intro h
    unfold starGreedy
    by_cases hp : p x = true
    · rw [if_pos hp]
      rw [List.dropWhile_cons_of_pos hp] at h
      exact firstOf_of_left _ (ih h)
    · rw [if_neg hp]
      rw [List.dropWhile_cons_of_neg hp] at h
      exact h

theorem starLazy_of_first {α : Type} (p : Char → Bool) (k : List Char → Option α) (r : α)
    (rest : List Char) (hk : k rest = some r) :
    ∀ w : List Char, (∀ x ∈ w, p x = true) →
      (∀ u v, w = u ++ v → v ≠ [] → k (v ++ rest) = none) →
      starLazy p k (w ++ rest) = some r := by
  intro w
  induction w with
  | nil =>
    intro _ _
    cases rest with
    | nil => exact hk
    | cons y ys =>
      simp only [List.nil_append, starLazy]
      exact firstOf_of_left _ hk
  | cons x xs ih =>
    intro hw hfail
    rw [List.cons_append, starLazy]
    have h0 : k (x :: (xs ++ rest)) = none := by
      have := hfail [] (x :: xs) rfl (by simp)
      simpa using this
    rw [h0, firstOf_none, if_pos (hw x (List.mem_cons_self x xs))]
    apply ih (fun y hy => hw y (List.mem_cons_of_mem x hy))
    intro u v huv hv
    exact hfail (x :: u) v (by simp [huv]) hv

theorem append_cons_unique {x : Char} :
    ∀ {a a' b b' : List Char}, a ++ x :: b = a' ++ x :: b' → x ∉ a → x ∉ a' → a = a' := by
  intro a
  induction a with
  | nil =>
    intro a' b b' h _ ha'
    cases a' with
    | nil => rfl
    | cons y ys =>
      simp only [List.nil_append, List.cons_append, List.cons.injEq] at h
      exact absurd (List.mem_cons.mpr (Or.inl h.1)) ha'
  | cons z zs ih =>
    intro a' b b' h ha ha'
    cases a' with
    | nil =>
      simp only [List.nil_append, List.cons_append, List.cons.injEq] at h
      exact absurd (List.mem_cons.mpr (Or.inl h.1.symm)) ha
    | cons y ys =>
      simp only [List.cons_append, List.cons.injEq] at h
      have hzs : x ∉ zs := fun hx => ha (List.mem_cons_of_mem z hx)
      have hys : x ∉ ys := fun hx => ha' (List.mem_cons_of_mem y hx)
      rw [h.1, ih h.2 hzs hys]

/-! ## Facts about the character classes -/

theorem isDigit_range {x : Char} (h : isDigit x = true) : 48 ≤ x.toNat ∧ x.toNat ≤ 57 := by
  simpa [isDigit] using h

theorem reSpace_cases {x : Char} (h : reSpace x = true) :
    x.toNat = 9 ∨ x.toNat = 10 ∨ x.toNat = 12 ∨ x.toNat = 13 ∨ x.toNat = 32 := by
  simpa [reSpace, or_assoc] using h

theorem reSpace_of_isDigit {x : Char} (h : isDigit x = true) : reSpace x = false := by
  have := isDigit_range h
  cases hs : reSpace x with
  | false => rfl
  | true => have := reSpace_cases hs; omega

theorem isDigit_of_reSpace {x : Char} (h : reSpace x = true) : isDigit x = false := by
  cases hd : isDigit x with
  | false => rfl
  | true => rw [reSpace_of_isDigit hd] at h; cases h

theorem unicodeIsSpace_of_reSpace {x : Char} (h : reSpace x = true) :
    unicodeIsSpace x = true := by
  have := reSpace_cases h
  simp only [unicodeIsSpace, Bool.or_eq_true, Bool.and_eq_true, decide_eq_true_eq]
  omega

theorem toNat_of_beq {x a : Char} (h : (x == a) = true) : x.toNat = a.toNat := by
  rw [beq_iff_eq] at h; rw [h]

theorem ne_semicolon_of_reSpace {x : Char} (h : reSpace x = true) : (x == ';') = false := by
  cases hb : (x == ';') with
  | false => rfl
  | true =>
    have h1 := toNat_of_beq hb
    have h2 := reSpace_cases h
    have h3 : (';' : Char).toNat = 59 := rfl
    omega

theorem ne_hyphen_of_reSpace {x : Char} (h : reSpace x = true) : (x == '-') = false := by
  cases hb : (x == '-') with
  | false => rfl
  | true =>
    have h1 := toNat_of_beq hb
    have h2 := reSpace_cases h
    have h3 : ('-' : Char).toNat = 45 := rfl
    omega

theorem ne_colon_of_reSpace {x : Char} (h : reSpace x = true) : (x == ':') = false := by
  cases hb : (x == ':') with
  | false => rfl
  | true =>
    have h1 := toNat_of_beq hb
    have h2 := reSpace_cases h
    have h3 : (':' : Char).toNat = 58 := rfl
    omega

theorem ne_colon_of_isDigit {x : Char} (h : isDigit x = true) : (x == ':') = false := by
  cases hb : (x == ':') with
  | false => rfl
  | true =>
    have h1 := toNat_of_beq hb
    have h2 := isDigit_range h
    have h3 : (':' : Char).toNat = 58 := rfl
    omega

/-! ## The pieces of the task pattern on a well-formed time range -/

theorem take_sub_one (a : Char) (rest : List Char) :
    (a :: rest).take ((a :: rest).length - rest.length) = [a] :=
  take_length_sub_append [a] rest

theorem take_sub_two (a b : Char) (rest : List Char) :
    (a :: b :: rest).take ((a :: b :: rest).length - rest.length) = [a, b] :=
  take_length_sub_append [a, b] rest

theorem matchRe_seq {α : Type} (a b : Regex) (s : List Char) (c : Caps)
    (k : List Char → Caps → Option α) :
    matchRe (.seq a b) s c k = matchRe a s c (fun s' c' => matchRe b s' c' k) := rfl

theorem matchRe_alt {α : Type} (a b : Regex) (s : List Char) (c : Caps)
    (k : List Char → Caps → Option α) :
    matchRe (.alt a b) s c k = firstOf (matchRe a s c k) (matchRe b s c k) := rfl

theorem matchRe_group {α : Type} (n : Nat) (r : Regex) (s : List Char) (c : Caps)
    (k : List Char → Caps → Option α) :
    matchRe (.group n r) s c k =
      matchRe r s c (fun s' c' => k s' (setCap c' n (s.take (s.length - s'.length)))) := rfl

theorem matchRe_star_greedy {α : Type} (p : Char → Bool) (s : List Char) (c : Caps)
    (k : List Char → Caps → Option α) :
    matchRe (.star true p) s c k = starGreedy p (fun s' => k s' c) s := rfl

theorem matchRe_star_lazy {α : Type} (p : Char → Bool) (s : List Char) (c : Caps)
    (k : List Char → Caps → Option α) :
    matchRe (.star false p) s c k = starLazy p (fun s' => k s' c) s := rfl

theorem matchRe_lit_cons {α : Type} (a : Char) (s : List Char) (c : Caps)
    (k : List Char → Caps → Option α) : matchRe (lit a) (a :: s) c k = k s c := by
  simp [matchRe, lit]

theorem matchRe_lit_ne {α : Type} (a x : Char) (s : List Char) (c : Caps)
    (k : List Char → Caps → Option α) (h : (x == a) = false) :
    matchRe (lit a) (x :: s) c k = none := by
  simp only [matchRe, lit, h, Bool.false_eq_true, if_false]

theorem matchRe_lit_nil {α : Type} (a : Char) (c : Caps)
    (k : List Char → Caps → Option α) : matchRe (lit a) [] c k = none := rfl

theorem matchRe_empty {α : Type} (s : List Char) (c : Caps)
    (k : List Char → Caps → Option α) : matchRe .empty s c k = k s c := rfl

theorem matchRe_eot_nil {α : Type} (c : Caps) (k : List Char → Caps → Option α) :
    matchRe .eot [] c k = k [] c := rfl

theorem matchRe_char_fail {α : Type} (p : Char → Bool) (s : List Char) (c : Caps)
    (k : List Char → Caps → Option α) (h : ∀ x ∈ s.head?, p x = false) :
    matchRe (.char p) s c k = none := by
  cases s with
  | nil => rfl
  | cons x xs =>
    have hx : p x = false := h x (by simp)
    simp [matchRe, hx]

/-- The hour group takes the one or two digits of a written hour. -/
theorem matchRe_hour {α : Type} (n : Nat) (h rest : List Char) (c : Caps)
    (k : List Char → Caps → Option α) (r : α) (hh : IsHourText h)
    (hrest : ∀ x ∈ rest.head?, isDigit x = false)
    (hk : k rest (setCap c n h) = some r) :
    matchRe (.group n hourRe) (h ++ rest) c k = some r := by
  obtain ⟨hl, hd⟩ := hh
  rcases hl with hl | hl
  · obtain ⟨a, rfl⟩ := List.length_eq_one.mp hl
    have ha : isDigit a = true := hd a (by simp)
    simp only [matchRe, hourRe, opt, List.singleton_append, reDigit, ha, if_true]
    rw [take_sub_one, hk]
    cases rest with
    | nil => rfl
    | cons x xs =>
      have hx : isDigit x = false := hrest x (by simp)
      simp only [hx, Bool.false_eq_true, if_false]
      rfl
  · obtain ⟨a, b, rfl⟩ := List.length_eq_two.mp hl
    have ha : isDigit a = true := hd a (by simp)
    have hb : isDigit b = true := hd b (by simp)
    simp only [matchRe, hourRe, opt, List.cons_append, List.nil_append, reDigit, ha, hb, if_true]
    rw [take_sub_two, hk]
    rfl

/-- The minute group takes a written minute. -/
theorem matchRe_minute_some {α : Type} (n : Nat) (m rest : List Char) (c : Caps)
    (k : List Char → Caps → Option α) (r : α) (hm : IsMinuteText m)
    (hk : k rest (setCap c n m) = some r) :
    matchRe (minuteRe n) (':' :: (m ++ rest)) c k = some r := by
  obtain ⟨hl, hd⟩ := hm
  obtain ⟨a, b, rfl⟩ := List.length_eq_two.mp hl
  have ha : isDigit a = true := hd a (by simp)
  have hb : isDigit b = true := hd b (by simp)
  simp only [matchRe, minuteRe, opt, lit, List.cons_append, List.nil_append, reDigit, ha, hb,
    if_true, beq_self_eq_true]
  rw [take_sub_two, hk]
  rfl

/-- The minute group is skipped when no colon follows. -/
theorem matchRe_minute_none {α : Type} (n : Nat) (rest : List Char) (c : Caps)
    (k : List Char → Caps → Option α) (hrest : ∀ x ∈ rest.head?, (x == ':') = false) :
    matchRe (minuteRe n) rest c k = k rest c := by
  simp only [minuteRe, opt, lit, matchRe]
  cases rest with
  | nil => rfl
  | cons x xs =>
    have hx : (x == ':') = false := hrest x (by simp)
    simp only [hx, Bool.false_eq_true, if_false]
    rfl

/-- A written clock time `H[:MM]` is taken whole by the hour and minute groups. -/
theorem matchRe_clock {α : Type} (n m : Nat) (t : ClockText) (rest : List Char) (c : Caps)
    (k : List Char → Caps → Option α) (r : α) (ht : t.Valid)
    (hrest : ∀ x ∈ rest.head?, isDigit x = false ∧ (x == ':') = false)
    (hk : k rest (match t.minute with
      | none => setCap c n t.hour
      | some mm => setCap (setCap c n t.hour) m mm) = some r) :
    matchRe (.group n hourRe) (t.text ++ rest) c
      (fun s' c' => matchRe (minuteRe m) s' c' k) = some r := by
  obtain ⟨hh, hm⟩ := ht
  unfold ClockText.text
  cases hmin : t.minute with
  | none =>
    rw [hmin] at hk
    simp only [List.append_nil]
    apply matchRe_hour n t.hour rest c _ r hh (fun x hx => (hrest x hx).1)
    rw [matchRe_minute_none m rest _ k (fun x hx => (hrest x hx).2)]
    exact hk
  | some mm =>
    rw [hmin] at hk
    simp only [List.append_assoc, List.cons_append]
    apply matchRe_hour n t.hour _ c _ r hh (by simp [isDigit])
    exact matchRe_minute_some m mm rest _ k r (hm mm (by simp [hmin])) hk

theorem dropWhile_blank_append (p : Char → Bool) (w t : List Char)
    (hw : ∀ x ∈ w, p x = true) (ht : ∀ x ∈ t.head?, p x = false) :
    (w ++ t).dropWhile p = t := by
  rw [List.dropWhile_append_of_pos hw]
  cases t with
  | nil => rfl
  | cons x xs =>
    have hx : p x = false := ht x (by simp)
    rw [List.dropWhile_cons_of_neg (by simp [hx])]

theorem clockText_head (t : ClockText) (ht : t.Valid) (rest : List Char) :
    ∃ a tl, t.text ++ rest = a :: tl ∧ isDigit a = true := by
  obtain ⟨⟨hl, hd⟩, _⟩ := ht
  unfold ClockText.text
  cases hh : t.hour with
  | nil => rw [hh] at hl; simp at hl
  | cons a tl =>
    refine ⟨a, tl ++ ((match t.minute with
      | none => []
      | some m => ':' :: m) ++ rest), by simp, ?_⟩
    apply hd
    rw [hh]
    exact List.mem_cons_self a tl

/-- The task pattern takes a well-formed time range and its semicolon along its
first choices, and goes on with what follows the semicolon. -/
theorem matchRe_range {α : Type} (start : ClockText) (stop : Option ClockText)
    (w1 w2 w3 rest : List Char) (c : Caps) (k : List Char → Caps → Option α) (r : α)
    (hstart : start.Valid) (hstop : ∀ st ∈ stop, st.Valid)
    (h1 : IsBlank w1) (h2 : IsBlank w2) (h3 : IsBlank w3)
    (hk : matchRe tailRe rest (capRange c start stop) k = some r) :
    matchRe taskRe (rangeText start stop w1 w2 w3 ++ ';' :: rest) c k = some r := by
  unfold rangeText
  rw [List.append_assoc]
  show matchRe (.group 1 hourRe) (start.text ++ _) c (fun s' c' => matchRe (minuteRe 2) s' c'
    (fun s2 c2 => matchRe (.seq (.star true reSpace) (.seq stopRe
      (.seq (.star true reSpace) (.seq (lit ';') tailRe)))) s2 c2 k)) = some r
  have semi : reSpace ';' = false := rfl
  have hyph : reSpace '-' = false := rfl
  cases stop with
  | none =>
    apply matchRe_clock 1 2 start _ c _ r hstart
    · intro x hx
      cases w1 with
      | nil =>
        cases w3 with
        | nil =>
          simp only [List.nil_append, List.head?_cons, Option.mem_def, Option.some.injEq] at hx
          subst hx
          exact ⟨rfl, rfl⟩
        | cons y ys =>
          simp only [List.nil_append, List.cons_append, List.head?_cons, Option.mem_def,
            Option.some.injEq] at hx
          subst hx
          have hy := h3 y (List.mem_cons_self y ys)
          exact ⟨isDigit_of_reSpace hy, ne_colon_of_reSpace hy⟩
      | cons y ys =>
        simp only [List.cons_append, List.head?_cons, Option.mem_def, Option.some.injEq] at hx
        subst hx
        have hy := h1 y (List.mem_cons_self y ys)
        exact ⟨isDigit_of_reSpace hy, ne_colon_of_reSpace hy⟩
    · show starGreedy reSpace _ _ = some r
      apply starGreedy_of_dropWhile
      have e : (w1 ++ (([] : List Char) ++ w3) ++ ';' :: rest).dropWhile reSpace = ';' :: rest := by
        rw [List.nil_append, List.append_assoc, List.dropWhile_append_of_pos h1]
        exact dropWhile_blank_append reSpace w3 (';' :: rest) h3 (by simp [semi])
      rw [e]
      simp only [matchRe, stopRe, opt, lit, starGreedy, semi, firstOf, Bool.false_eq_true,
        if_false, beq_self_eq_true, if_true]
      have e2 : ((';' : Char) == '-') = false := rfl
      simp only [e2, Bool.false_eq_true, if_false]
      exact hk
  | some st =>
    have hst : st.Valid := hstop st (by simp)
    apply matchRe_clock 1 2 start _ c _ r hstart
    · intro x hx
      cases w1 with
      | nil =>
        simp only [List.nil_append, List.cons_append, List.head?_cons, Option.mem_def,
          Option.some.injEq] at hx
        subst hx
        exact ⟨rfl, rfl⟩
      | cons y ys =>
        simp only [List.cons_append, List.head?_cons, Option.mem_def, Option.some.injEq] at hx
        subst hx
        have hy := h1 y (List.mem_cons_self y ys)
        exact ⟨isDigit_of_reSpace hy, ne_colon_of_reSpace hy⟩
    · show starGreedy reSpace _ _ = some r
      apply starGreedy_of_dropWhile
      have e : (w1 ++ ('-' :: (w2 ++ st.text) ++ w3) ++ ';' :: rest).dropWhile reSpace =
          '-' :: (w2 ++ (st.text ++ (w3 ++ ';' :: rest))) := by
        rw [List.append_assoc, List.dropWhile_append_of_pos h1]
        simp only [List.cons_append, List.append_assoc]
        rw [List.dropWhile_cons_of_neg (by simp [hyph])]
      rw [e]
      show firstOf (matchRe (.seq (lit '-') (.seq (.star true reSpace)
        (.seq (.group 3 hourRe) (minuteRe 4)))) _ _ _) _ = some r
      apply firstOf_of_left
      rw [matchRe_seq, matchRe_lit_cons, matchRe_seq, matchRe_star_greedy]
      apply starGreedy_of_dropWhile
      obtain ⟨a, tl, hat, ha⟩ := clockText_head st hst (w3 ++ ';' :: rest)
      have e3 : (w2 ++ (st.text ++ (w3 ++ ';' :: rest))).dropWhile reSpace =
          st.text ++ (w3 ++ ';' :: rest) := by
        apply dropWhile_blank_append reSpace w2 _ h2
        rw [hat]
        intro x hx
        simp only [List.head?_cons, Option.mem_def, Option.some.injEq] at hx
        subst hx
        exact reSpace_of_isDigit ha
      rw [e3, matchRe_seq]
      apply matchRe_clock 3 4 st _ _ _ r hst
      · intro x hx
        cases w3 with
        | nil =>
          simp only [List.nil_append, List.head?_cons, Option.mem_def, Option.some.injEq] at hx
          subst hx
          exact ⟨rfl, rfl⟩
        | cons y ys =>
          simp only [List.cons_append, List.head?_cons, Option.mem_def, Option.some.injEq] at hx
          subst hx
          have hy := h3 y (List.mem_cons_self y ys)
          exact ⟨isDigit_of_reSpace hy, ne_colon_of_reSpace hy⟩
      · rw [matchRe_seq, matchRe_star_greedy]
        apply starGreedy_of_dropWhile
        rw [dropWhile_blank_append reSpace w3 (';' :: rest) h3 (by simp [semi])]
        rw [matchRe_seq, matchRe_lit_cons]
        exact hk

/-! ## Reading a declarative match backwards -/

theorem Matches.seq_inv {a b : Regex} {u v : List Char} (h : Matches (.seq a b) u v) :
    ∃ u1 u2, u = u1 ++ u2 ∧ Matches a u1 (u2 ++ v) ∧ Matches b u2 v := by
  cases h with
  | seq h1 h2 => exact ⟨_, _, rfl, h1, h2⟩

theorem Matches.alt_inv {a b : Regex} {u v : List Char} (h : Matches (.alt a b) u v) :
    Matches a u v ∨ Matches b u v := by
  cases h with
  | altL _ h1 => exact Or.inl h1
  | altR _ h2 => exact Or.inr h2

theorem Matches.char_inv {p : Char → Bool} {u v : List Char} (h : Matches (.char p) u v) :
    ∃ x, u = [x] ∧ p x = true := by
  cases h with
  | char _ x _ hp => exact ⟨x, rfl, hp⟩

theorem Matches.star_inv {g : Bool} {p : Char → Bool} {u v : List Char}
    (h : Matches (.star g p) u v) : ∀ x ∈ u, p x = true := by
  cases h with
  | star _ _ _ _ hu => exact hu

theorem Matches.group_inv {n : Nat} {r : Regex} {u v : List Char}
    (h : Matches (.group n r) u v) : Matches r u v := by
  cases h with
  | group _ h1 => exact h1

theorem Matches.empty_inv {u v : List Char} (h : Matches .empty u v) : u = [] := by
  cases h with
  | empty _ => rfl

theorem Matches.eot_inv {u v : List Char} (h : Matches .eot u v) : u = [] ∧ v = [] := by
  cases h with
  | eot => exact ⟨rfl, rfl⟩

theorem Matches.lit_inv {a : Char} {u v : List Char} (h : Matches (lit a) u v) : u = [a] := by
  obtain ⟨x, hx, hp⟩ := Matches.char_inv h
  rw [beq_iff_eq] at hp
  rw [hx, hp]

/-- What the notes pattern followed by `$` can match: nothing at the very end, or
white space, a semicolon and the rest of the input. -/
theorem Matches.notes_inv {u v : List Char} (h : Matches (.seq notesRe .eot) u v) :
    v = [] ∧ (u = [] ∨ ∃ a b, u = a ++ ';' :: b ∧ IsBlank a) := by
  obtain ⟨u1, u2, hu, h1, h2⟩ := Matches.seq_inv h
  obtain ⟨hu2, hv⟩ := Matches.eot_inv h2
  subst hu2
  refine ⟨hv, ?_⟩
  rw [List.append_nil] at hu
  subst hu
  rcases Matches.alt_inv h1 with hl | hr
  · right
    obtain ⟨a, t1, e1, ha, ht1⟩ := Matches.seq_inv hl
    obtain ⟨s1, t2, e2, hs1, _⟩ := Matches.seq_inv ht1
    have := Matches.lit_inv hs1
    subst this
    exact ⟨a, t2, by rw [e1, e2]; rfl, Matches.star_inv ha⟩
  · left
    exact Matches.empty_inv hr

/-- The notes pattern followed by `$` fails on a non-empty input that does not
start with white space and a semicolon. -/
theorem matchRe_notes_none {α : Type} (s : List Char) (c : Caps)
    (k : List Char → Caps → Option α) (hne : s ≠ [])
    (h : ∀ a b, s = a ++ ';' :: b → ¬ IsBlank a) :
    matchRe (.seq notesRe .eot) s c k = none := by
  cases hres : matchRe (.seq notesRe .eot) s c k with
  | none => rfl
  | some res =>
    obtain ⟨u, v, _, hs, hm, _, _⟩ := matchRe_sound _ s c k res hres
    obtain ⟨hv, hu⟩ := Matches.notes_inv hm
    subst hv
    rw [List.append_nil] at hs
    subst hs
    rcases hu with hu | ⟨a, b, hab, hbl⟩
    · exact absurd hu hne
    · exact absurd hbl (h a b hab)

/-- At the end of the input the notes pattern followed by `$` takes nothing. -/
theorem matchRe_notes_nil {α : Type} (c : Caps) (k : List Char → Caps → Option α) :
    matchRe (.seq notesRe .eot) [] c k = k [] c := rfl

/-- Cutting the trailing characters of a class off a text: what remains ends, in
each of its non-empty final parts, with a character outside the class. -/
theorem rdropWhile_decomp (p : Char → Bool) (l : List Char) :
    ∃ w, l = l.rdropWhile p ++ w ∧ (∀ x ∈ w, p x = true) ∧
      ∀ u v, l.rdropWhile p = u ++ v → v ≠ [] → ∃ x ∈ v, p x = false := by
  induction l using List.reverseRecOn with
  | nil =>
    refine ⟨[], by simp, by simp, ?_⟩
    intro u v huv hv
    simp only [List.rdropWhile_nil] at huv
    have : v = [] := (List.append_eq_nil.mp huv.symm).2
    exact absurd this hv
  | append_singleton l x ih =>
    by_cases hp : p x = true
    · obtain ⟨w, hw, hpw, hlast⟩ := ih
      rw [List.rdropWhile_concat_pos p l x hp]
      refine ⟨w ++ [x], ?_, ?_, hlast⟩
      · rw [← List.append_assoc, ← hw]
      · intro y hy
        rcases List.mem_append.mp hy with hy | hy
        · exact hpw y hy
        · rw [List.mem_singleton.mp hy]; exact hp
    · rw [List.rdropWhile_concat_neg p l x hp]
      refine ⟨[], by simp, by simp, ?_⟩
      intro u v huv hv
      refine ⟨x, ?_, by simpa using hp⟩
      have h1 : (u ++ v).getLast (by simp [hv]) = v.getLast hv :=
        List.getLast_append_right hv
      have h2 : (l ++ [x]).getLast (by simp) = x := by simp
      have h3 : v.getLast hv = x := by
        rw [← h1, ← h2]
        congr 1
        exact huv.symm
      rw [← h3]
      exact List.getLast_mem hv

/-! ## What follows the first semicolon -/

theorem not_blank_semicolon {a : List Char} (ha : IsBlank a) : (';' : Char) ∉ a := by
  intro hin
  have := ha _ hin
  cases this

theorem matchRe_group5 {α : Type} (b : Regex) (s : List Char) (c : Caps)
    (k : List Char → Caps → Option α) :
    matchRe (.seq (.group 5 (.star false reAny)) b) s c k =
      starLazy reAny (fun s' => matchRe b s' (setCap c 5 (s.take (s.length - s'.length))) k) s :=
  rfl

/-- A description that is not followed by notes: the description group takes the
whole text after the leading white space, and the notes group takes no part. -/
theorem matchRe_tail_plain {α : Type} (d : List Char) (c : Caps)
    (k : List Char → Caps → Option α) (r : α)
    (hsemi : (';' : Char) ∉ d) (hlf : NoLineFeed d)
    (hk : k [] (setCap c 5 (d.dropWhile reSpace)) = some r) :
    matchRe tailRe d c k = some r := by
  unfold tailRe
  rw [matchRe_seq, matchRe_star_greedy]
  apply starGreedy_of_dropWhile
  show matchRe (.seq (.group 5 (.star false reAny)) (.seq notesRe .eot))
    (d.dropWhile reSpace) c k = some r
  rw [matchRe_group5]
  have hsub : ∀ x ∈ d.dropWhile reSpace, x ∈ d :=
    fun x hx => (List.dropWhile_sublist reSpace).subset hx
  have key := starLazy_of_first reAny
    (fun s' => matchRe (.seq notesRe .eot) s'
      (setCap c 5 ((d.dropWhile reSpace).take ((d.dropWhile reSpace).length - s'.length))) k)
    r [] (by
      show matchRe (.seq notesRe .eot) [] _ k = some r
      rw [matchRe_notes_nil]
      simpa using hk)
    (d.dropWhile reSpace) (fun x hx => hlf x (hsub x hx)) (by
      intro u v huv hv
      apply matchRe_notes_none
      · simpa using hv
      · intro a b hab _
        have hin : (';' : Char) ∈ v := by
          have : (';' : Char) ∈ v ++ ([] : List Char) := by rw [hab]; simp
          simpa using this
        exact hsemi (hsub _ (by rw [huv]; exact List.mem_append_right u hin)))
  rw [List.append_nil] at key
  exact key

/-- A description followed by a semicolon and notes: the description group takes
the description without the white space around it, the notes group the notes
without their leading white space. -/
theorem matchRe_tail_notes {α : Type} (d n : List Char) (c : Caps)
    (k : List Char → Caps → Option α) (r : α)
    (hsemi : (';' : Char) ∉ d) (hlf : NoLineFeed d) (hn : NoLineFeed n)
    (hk : k [] (setCap (setCap c 5 ((d.dropWhile reSpace).rdropWhile reSpace)) 6
      (n.dropWhile reSpace)) = some r) :
    matchRe tailRe (d ++ ';' :: n) c k = some r := by
  have semi : reSpace ';' = false := rfl
  unfold tailRe
  rw [matchRe_seq, matchRe_star_greedy]
  apply starGreedy_of_dropWhile
  have hsub : ∀ x ∈ d.dropWhile reSpace, x ∈ d :=
    fun x hx => (List.dropWhile_sublist reSpace).subset hx
  have e1 : (d ++ ';' :: n).dropWhile reSpace = d.dropWhile reSpace ++ ';' :: n := by
    have hd := List.takeWhile_append_dropWhile reSpace d
    conv_lhs => rw [← hd, List.append_assoc]
    rw [List.dropWhile_append_of_pos (fun a ha => (List.mem_takeWhile_imp ha))]
    cases hdd : d.dropWhile reSpace with
    | nil => simp [semi]
    | cons y ys =>
      have hy : reSpace y = false := by
        have := List.head?_dropWhile_not reSpace d
        rw [hdd] at this
        simpa using this
      simp [hy]
  rw [e1]
  obtain ⟨w, hw, hbl, hlast⟩ := rdropWhile_decomp reSpace (d.dropWhile reSpace)
  generalize hcore : (d.dropWhile reSpace).rdropWhile reSpace = core at hw hlast hk
  show matchRe (.seq (.group 5 (.star false reAny)) (.seq notesRe .eot))
    (d.dropWhile reSpace ++ ';' :: n) c k = some r
  rw [matchRe_group5, hw, List.append_assoc]
  have hcd : ∀ x ∈ core, x ∈ d := fun x hx => hsub x (by rw [hw]; exact List.mem_append_left w hx)
  apply starLazy_of_first reAny _ r (w ++ ';' :: n) _ core (fun x hx => hlf x (hcd x hx))
  · intro u v huv hv
    apply matchRe_notes_none
    · simp [hv]
    · intro a b hab hblank
      have hvw : (';' : Char) ∉ v ++ w := by
        intro hin
        rcases List.mem_append.mp hin with h | h
        · exact hsemi (hcd _ (by rw [huv]; exact List.mem_append_right u h))
        · exact not_blank_semicolon hbl h
      have hab2 : (v ++ w) ++ ';' :: n = a ++ ';' :: b := by rw [← hab, List.append_assoc]
      have heq := append_cons_unique hab2 hvw (not_blank_semicolon hblank)
      obtain ⟨x, hxv, hx⟩ := hlast u v huv hv
      have : reSpace x = true := hblank x (by rw [← heq]; exact List.mem_append_left w hxv)
      rw [hx] at this
      cases this
  · have etake : (core ++ (w ++ ';' :: n)).take
        ((core ++ (w ++ ';' :: n)).length - (w ++ ';' :: n).length) = core :=
      take_length_sub_append core _
    show matchRe (.seq notesRe .eot) (w ++ ';' :: n) (setCap c 5 ((core ++ (w ++ ';' :: n)).take
      ((core ++ (w ++ ';' :: n)).length - (w ++ ';' :: n).length))) k = some r
    rw [etake, matchRe_seq]
    show firstOf (matchRe (.seq (.star true reSpace) (.seq (lit ';') (.seq (.star true reSpace)
      (.group 6 (.star true reAny))))) _ _ _) _ = some r
    apply firstOf_of_left
    rw [matchRe_seq, matchRe_star_greedy]
    apply starGreedy_of_dropWhile
    rw [dropWhile_blank_append reSpace w (';' :: n) hbl (by simp [semi])]
    rw [matchRe_seq, matchRe_lit_cons, matchRe_seq, matchRe_star_greedy]
    apply starGreedy_of_dropWhile
    rw [matchRe_group, matchRe_star_greedy]
    apply starGreedy_of_dropWhile
    have hall : (n.dropWhile reSpace).dropWhile reAny = [] := by
      rw [List.dropWhile_eq_nil_iff]
      intro x hx
      exact hn x ((List.dropWhile_sublist reSpace).subset hx)
    rw [hall, matchRe_eot_nil]
    simpa using hk

/-! ## Trimming -/

theorem trimSpaceChars_eq (s : List Char) :
    trimSpaceChars s = (s.dropWhile unicodeIsSpace).rdropWhile unicodeIsSpace := rfl

theorem rdropWhile_append_of_pos (p : Char → Bool) (l w : List Char)
    (hw : ∀ x ∈ w, p x = true) : (l ++ w).rdropWhile p = l.rdropWhile p := by
  unfold List.rdropWhile
  rw [List.reverse_append, List.dropWhile_append_of_pos]
  intro a ha
  exact hw a (List.mem_reverse.mp ha)

theorem trimSpaceChars_append_left (w x : List Char) (hw : ∀ a ∈ w, unicodeIsSpace a = true) :
    trimSpaceChars (w ++ x) = trimSpaceChars x := by
  rw [trimSpaceChars_eq, trimSpaceChars_eq, List.dropWhile_append_of_pos hw]

theorem trimSpaceChars_append_right (x w : List Char) (hw : ∀ a ∈ w, unicodeIsSpace a = true) :
    trimSpaceChars (x ++ w) = trimSpaceChars x := by
  rw [trimSpaceChars_eq, trimSpaceChars_eq, List.dropWhile_append]
  split
  · rename_i hemp
    have h1 : x.dropWhile unicodeIsSpace = [] := by simpa using hemp
    rw [h1, List.dropWhile_eq_nil_iff.mpr hw]
  · exact rdropWhile_append_of_pos _ _ _ hw

theorem trimSpaceChars_dropWhile (d : List Char) :
    trimSpaceChars (d.dropWhile reSpace) = trimSpaceChars d := by
  conv_rhs => rw [← List.takeWhile_append_dropWhile reSpace d]
  rw [trimSpaceChars_append_left]
  intro a ha
  exact unicodeIsSpace_of_reSpace (List.mem_takeWhile_imp ha)

theorem trimSpaceChars_rdropWhile (d : List Char) :
    trimSpaceChars (d.rdropWhile reSpace) = trimSpaceChars d := by
  obtain ⟨w, hw, hbl, _⟩ := rdropWhile_decomp reSpace d
  conv_rhs => rw [hw]
  rw [trimSpaceChars_append_right]
  intro a ha
  exact unicodeIsSpace_of_reSpace (hbl a ha)

/-! ## From a match to the task -/

theorem parseTaskLine_of_search (line : String) {m : Match}
    (h : search taskRe line.data = some m) :
    parseTaskLine line = .ok {
      Start := formatTime (String.mk ((m.caps 1).getD [])) (String.mk ((m.caps 2).getD []))
      Stop := formatTime (String.mk ((m.caps 3).getD [])) (String.mk ((m.caps 4).getD []))
      Description := parseWikiLink (trimSpace (String.mk ((m.caps 5).getD [])))
      Notes := trimSpace (String.mk ((m.caps 6).getD [])) } := by
  unfold parseTaskLine findStringSubmatch
  rw [h]
  simp [List.range, List.range.loop]

theorem parseTaskLine_of_search_none {line : String}
    (h : search taskRe line.data = none) :
    parseTaskLine line = .error ("invalid task format: " ++ line) := by
  unfold parseTaskLine findStringSubmatch
  rw [h]
  simp

theorem formatTime_clock (t : ClockText) (ht : t.Valid) :
    formatTime (String.mk t.hour) (String.mk (t.minute.getD [])) = t.canonical := by
  unfold formatTime ClockText.canonical
  cases hm : t.minute with
  | none => rfl
  | some mm =>
    obtain ⟨hl, _⟩ := ht.2 mm (by simp [hm])
    obtain ⟨a, b, rfl⟩ := List.length_eq_two.mp hl
    have hne : String.mk [a, b] ≠ "" := by
      intro h
      have := congrArg String.data h
      simp at this
    simp [hne, pad2]

theorem formatTime_empty : formatTime (String.mk []) (String.mk []) = "00:00" := rfl

theorem capRange_values (start : ClockText) (stop : Option ClockText) (g5 l : List Char)
    (g6 : Option (List Char)) (c : Caps)
    (hc : c = setCap (match g6 with
      | none => setCap (capRange noCaps start stop) 5 g5
      | some n => setCap (setCap (capRange noCaps start stop) 5 g5) 6 n) 0 l) :
    c 1 = some start.hour ∧ c 2 = start.minute ∧
    (c 3).getD [] = (stop.map (fun st => st.hour)).getD [] ∧
    (c 4).getD [] = ((stop.bind (fun st => st.minute)).getD []) ∧
    c 5 = some g5 ∧ c 6 = g6 := by
  subst hc
  obtain ⟨sh, sm⟩ := start
  cases stop with
  | none =>
    cases sm <;> cases g6 <;> simp [capRange, capClock, setCap, noCaps]
  | some st =>
    obtain ⟨th, tm⟩ := st
    cases sm <;> cases tm <;> cases g6 <;> simp [capRange, capClock, setCap, noCaps]

theorem mem_descriptionPart {rest : List Char} {x : Char} (hx : x ∈ descriptionPart rest) :
    x ∈ rest ∧ x ≠ ';' := by
  refine ⟨(List.takeWhile_sublist _).subset hx, ?_⟩
  have := List.mem_takeWhile_imp hx
  simpa using this

theorem rest_split (rest : List Char) :
    rest = descriptionPart rest ∨
      rest = descriptionPart rest ++ ';' :: notesPart rest ∧ (';' : Char) ∈ rest := by
  have hsplit := List.takeWhile_append_dropWhile (fun c => c != ';') rest
  unfold descriptionPart notesPart
  cases hdw : rest.dropWhile (fun c => c != ';') with
  | nil =>
    left
    rw [hdw, List.append_nil] at hsplit
    exact hsplit.symm
  | cons y n =>
    right
    have hy : y = ';' := by
      have := List.head?_dropWhile_not (fun c => c != ';') rest
      rw [hdw] at this
      simpa using this
    subst hy
    rw [hdw] at hsplit
    refine ⟨by simpa using hsplit.symm, ?_⟩
    rw [← hsplit]
    simp

theorem matchHere_plain (start : ClockText) (stop : Option ClockText)
    (w1 w2 w3 d : List Char)
    (hstart : start.Valid) (hstop : ∀ st ∈ stop, st.Valid)
    (h1 : IsBlank w1) (h2 : IsBlank w2) (h3 : IsBlank w3)
    (hsemi : (';' : Char) ∉ d) (hlf : NoLineFeed d) :
    matchHere taskRe (rangeText start stop w1 w2 w3 ++ ';' :: d) =
      some (setCap (setCap (capRange noCaps start stop) 5 (d.dropWhile reSpace)) 0
        (rangeText start stop w1 w2 w3 ++ ';' :: d), []) := by
  unfold matchHere
  rw [matchRe_group]
  apply matchRe_range start stop w1 w2 w3 d _ _ _ hstart hstop h1 h2 h3
  apply matchRe_tail_plain _ _ _ _ hsemi hlf
  simp only [List.length_nil, Nat.sub_zero, List.take_length]

theorem matchHere_notes (start : ClockText) (stop : Option ClockText)
    (w1 w2 w3 d n : List Char)
    (hstart : start.Valid) (hstop : ∀ st ∈ stop, st.Valid)
    (h1 : IsBlank w1) (h2 : IsBlank w2) (h3 : IsBlank w3)
    (hsemi : (';' : Char) ∉ d) (hlf : NoLineFeed d) (hn : NoLineFeed n) :
    matchHere taskRe (rangeText start stop w1 w2 w3 ++ ';' :: (d ++ ';' :: n)) =
      some (setCap (setCap (setCap (capRange noCaps start stop) 5
        ((d.dropWhile reSpace).rdropWhile reSpace)) 6 (n.dropWhile reSpace)) 0
          (rangeText start stop w1 w2 w3 ++ ';' :: (d ++ ';' :: n)), []) := by
  unfold matchHere
  rw [matchRe_group]
  apply matchRe_range start stop w1 w2 w3 _ _ _ _ hstart hstop h1 h2 h3
  apply matchRe_tail_notes _ _ _ _ _ hsemi hlf hn
  simp only [List.length_nil, Nat.sub_zero, List.take_length]

/-- The leftmost match of the task pattern on a line that begins with a
well-formed time range: it starts at the first character and its groups hold the
written hours and minutes, the description and the notes. -/
theorem search_range (start : ClockText) (stop : Option ClockText)
    (w1 w2 w3 rest : List Char)
    (hstart : start.Valid) (hstop : ∀ st ∈ stop, st.Valid)
    (h1 : IsBlank w1) (h2 : IsBlank w2) (h3 : IsBlank w3) (hlf : NoLineFeed rest) :
    ∃ m, search taskRe (rangeText start stop w1 w2 w3 ++ ';' :: rest) = some m ∧
      m.before = [] ∧
      m.caps 1 = some start.hour ∧ m.caps 2 = start.minute ∧
      (m.caps 3).getD [] = (stop.map (fun st => st.hour)).getD [] ∧
      (m.caps 4).getD [] = (stop.bind (fun st => st.minute)).getD [] ∧
      trimSpaceChars ((m.caps 5).getD []) = trimSpaceChars (descriptionPart rest) ∧
      trimSpaceChars ((m.caps 6).getD []) = trimSpaceChars (notesPart rest) := by
  have hdsemi : (';' : Char) ∉ descriptionPart rest := fun h => (mem_descriptionPart h).2 rfl
  have hdlf : NoLineFeed (descriptionPart rest) := fun x hx => hlf x (mem_descriptionPart hx).1
  rcases rest_split rest with hr | ⟨hr, _⟩
  · have hrsemi : (';' : Char) ∉ rest := by rw [hr]; exact hdsemi
    have hm := matchHere_plain start stop w1 w2 w3 rest hstart hstop h1 h2 h3 hrsemi hlf
    refine ⟨_, search_of_matchHere hm, rfl, ?_⟩
    obtain ⟨c1, c2, c3, c4, c5, c6⟩ := capRange_values start stop
      (rest.dropWhile reSpace)
      (rangeText start stop w1 w2 w3 ++ ';' :: rest) none _ rfl
    refine ⟨c1, c2, c3, c4, ?_, ?_⟩
    · refine (congrArg (fun o => trimSpaceChars (Option.getD o [])) c5).trans ?_
      exact (trimSpaceChars_dropWhile rest).trans (congrArg trimSpaceChars hr)
    · refine (congrArg (fun o => trimSpaceChars (Option.getD o [])) c6).trans ?_
      have : notesPart rest = [] := by
        unfold notesPart
        have hz : rest.dropWhile (fun c => c != ';') = [] := by
          rw [List.dropWhile_eq_nil_iff]
          intro x hx
          rw [hr] at hx
          have := (mem_descriptionPart hx).2
          simpa using this
        rw [hz]
        rfl
      rw [this]
      rfl
  · have hnlf : NoLineFeed (notesPart rest) := by
      intro x hx
      apply hlf x
      rw [hr]
      exact List.mem_append_right _ (List.mem_cons_of_mem _ hx)
    have hm := matchHere_notes start stop w1 w2 w3 (descriptionPart rest) (notesPart rest)
      hstart hstop h1 h2 h3 hdsemi hdlf hnlf
    rw [← hr] at hm
    refine ⟨_, search_of_matchHere hm, rfl, ?_⟩
    obtain ⟨c1, c2, c3, c4, c5, c6⟩ := capRange_values start stop
      (((descriptionPart rest).dropWhile reSpace).rdropWhile reSpace)
      (rangeText start stop w1 w2 w3 ++ ';' :: rest)
      (some ((notesPart rest).dropWhile reSpace)) _ rfl
    refine ⟨c1, c2, c3, c4, ?_, ?_⟩
    · refine (congrArg (fun o => trimSpaceChars (Option.getD o [])) c5).trans ?_
      show trimSpaceChars (((descriptionPart rest).dropWhile reSpace).rdropWhile reSpace) = _
      rw [trimSpaceChars_rdropWhile, trimSpaceChars_dropWhile]
    · refine (congrArg (fun o => trimSpaceChars (Option.getD o [])) c6).trans ?_
      exact trimSpaceChars_dropWhile _

/-- What `parseTaskLine` returns on a line that begins with a well-formed time
range followed by a semicolon. -/
theorem parseTaskLine_range (start : ClockText) (stop : Option ClockText)
    (w1 w2 w3 rest : List Char)
    (hstart : start.Valid) (hstop : ∀ st ∈ stop, st.Valid)
    (h1 : IsBlank w1) (h2 : IsBlank w2) (h3 : IsBlank w3) (hlf : NoLineFeed rest) :
    parseTaskLine (String.mk (rangeText start stop w1 w2 w3 ++ ';' :: rest)) = .ok {
      Start := start.canonical
      Stop := stopCanonical stop
      Description := parseWikiLink (trimSpace (String.mk (descriptionPart rest)))
      Notes := trimSpace (String.mk (notesPart rest)) } := by
  obtain ⟨m, hm, _, c1, c2, c3, c4, c5, c6⟩ :=
    search_range start stop w1 w2 w3 rest hstart hstop h1 h2 h3 hlf
  rw [parseTaskLine_of_search (String.mk _) hm]
  have e1 : formatTime (String.mk ((m.caps 1).getD [])) (String.mk ((m.caps 2).getD [])) =
      start.canonical := by
    rw [c1, c2]
    exact formatTime_clock start hstart
  have e2 : formatTime (String.mk ((m.caps 3).getD [])) (String.mk ((m.caps 4).getD [])) =
      stopCanonical stop := by
    rw [c3, c4]
    cases stop with
    | none => rfl
    | some st => exact formatTime_clock st (hstop st (by simp))
  have e5 : trimSpace (String.mk ((m.caps 5).getD [])) =
      trimSpace (String.mk (descriptionPart rest)) := by
    unfold trimSpace
    rw [c5]
  have e6 : trimSpace (String.mk ((m.caps 6).getD [])) =
      trimSpace (String.mk (notesPart rest)) := by
    unfold trimSpace
    rw [c6]
  rw [e1, e2, e5, e6]

/-! ## The scanning loop -/

theorem parseLines_ok_iff (lines : List String) :
    ∀ (acc tasks : List Task), parseLines lines acc = .ok tasks ↔
      ∃ new, lines.map parseTaskLine = new.map Except.ok ∧ tasks = acc ++ new := by
  induction lines with
  | nil =>
    intro acc tasks
    simp only [parseLines, List.map_nil]
    constructor
    · intro h
      cases h
      exact ⟨[], rfl, by simp⟩
    · rintro ⟨new, h1, h2⟩
      cases new with
      | nil => simp [h2]
      | cons a as => simp at h1
  | cons l ls ih =>
    intro acc tasks
    simp only [parseLines, List.map_cons]
    cases hl : parseTaskLine l with
    | error e =>
      simp only
      constructor
      · intro h; cases h
      · rintro ⟨new, h1, _⟩
        cases new with
        | nil => simp at h1
        | cons a as =>
          simp only [List.map_cons, List.cons.injEq] at h1
          cases h1.1
    | ok t =>
      simp only
      rw [ih]
      constructor
      · rintro ⟨new, h1, h2⟩
        exact ⟨t :: new, by simp [h1], by simp [h2]⟩
      · rintro ⟨new, h1, h2⟩
        cases new with
        | nil => simp at h1
        | cons a as =>
          simp only [List.map_cons, List.cons.injEq] at h1
          have hta : t = a := by
            have := h1.1
            cases this
            rfl
          subst hta
          exact ⟨as, h1.2, by simp [h2]⟩

theorem parseLines_error_iff (lines : List String) :
    ∀ acc : List Task, (∃ e, parseLines lines acc = .error e) ↔
      ∃ l ∈ lines, ∃ e, parseTaskLine l = .error e := by
  induction lines with
  | nil =>
    intro acc
    simp [parseLines]
  | cons l ls ih =>
    intro acc
    simp only [parseLines, List.mem_cons]
    cases hl : parseTaskLine l with
    | error e =>
      simp only
      constructor
      · intro _
        exact ⟨l, Or.inl rfl, e, hl⟩
      · intro _
        exact ⟨e, rfl⟩
    | ok t =>
      simp only
      rw [ih]
      constructor
      · rintro ⟨l', hl', e, he⟩
        exact ⟨l', Or.inr hl', e, he⟩
      · rintro ⟨l', hl', e, he⟩
        rcases hl' with rfl | hl'
        · rw [hl] at he; cases he
        · exact ⟨l', hl', e, he⟩

theorem parsePlanningFile_eq (file : PlanningFile) (hopen : file.openErr = none)
    (hscan : file.scanErr = none) : parsePlanningFile file = parseLines file.lines [] := by
  unfold parsePlanningFile
  rw [hopen, hscan]
  cases parseLines file.lines [] <;> rfl

/-! ## What the task pattern can match -/

theorem Matches.hour_inv {u v : List Char} (h : Matches hourRe u v) : IsHourText u := by
  obtain ⟨u1, u2, hu, h1, h2⟩ := Matches.seq_inv h
  obtain ⟨a, ha, hda⟩ := Matches.char_inv h1
  subst hu ha
  rcases Matches.alt_inv h2 with hl | hr
  · obtain ⟨b, hb, hdb⟩ := Matches.char_inv hl
    subst hb
    refine ⟨Or.inr rfl, ?_⟩
    intro c hc
    simp only [List.singleton_append, List.mem_cons, List.mem_singleton, List.not_mem_nil,
      or_false] at hc
    rcases hc with rfl | rfl
    · exact hda
    · exact hdb
  · have := Matches.empty_inv hr
    subst this
    refine ⟨Or.inl rfl, ?_⟩
    intro c hc
    simp only [List.append_nil, List.mem_singleton] at hc
    subst hc
    exact hda

theorem Matches.two_digits_inv {u v : List Char}
    (h : Matches (.seq (.char reDigit) (.char reDigit)) u v) : IsMinuteText u := by
  obtain ⟨u1, u2, hu, h1, h2⟩ := Matches.seq_inv h
  obtain ⟨a, ha, hda⟩ := Matches.char_inv h1
  obtain ⟨b, hb, hdb⟩ := Matches.char_inv h2
  subst hu ha hb
  refine ⟨rfl, ?_⟩
  intro c hc
  simp only [List.singleton_append, List.mem_cons, List.mem_singleton, List.not_mem_nil,
    or_false] at hc
  rcases hc with rfl | rfl
  · exact hda
  · exact hdb

theorem Matches.minute_inv {n : Nat} {u v : List Char} (h : Matches (minuteRe n) u v) :
    ∃ m : Option (List Char), (∀ mm ∈ m, IsMinuteText mm) ∧
      u = (match m with
        | none => []
        | some mm => ':' :: mm) := by
  rcases Matches.alt_inv h with hl | hr
  · obtain ⟨u1, u2, hu, h1, h2⟩ := Matches.seq_inv hl
    have e1 := Matches.lit_inv h1
    have hm := Matches.two_digits_inv (Matches.group_inv h2)
    subst hu e1
    refine ⟨some u2, ?_, rfl⟩
    intro mm hmm
    simp only [Option.mem_def, Option.some.injEq] at hmm
    subst hmm
    exact hm
  · exact ⟨none, by simp, Matches.empty_inv hr⟩

theorem Matches.clock_inv {n m : Nat} {u1 u2 v1 v2 : List Char}
    (h1 : Matches (.group n hourRe) u1 v1) (h2 : Matches (minuteRe m) u2 v2) :
    ∃ t : ClockText, t.Valid ∧ u1 ++ u2 = t.text := by
  obtain ⟨mm, hmm, hu2⟩ := Matches.minute_inv h2
  exact ⟨⟨u1, mm⟩, ⟨Matches.hour_inv (Matches.group_inv h1), hmm⟩, by rw [hu2]; rfl⟩

theorem Matches.stop_inv {u v : List Char} (h : Matches stopRe u v) :
    ∃ (stop : Option ClockText) (w2 : List Char), (∀ st ∈ stop, st.Valid) ∧ IsBlank w2 ∧
      u = (match stop with
        | none => []
        | some st => '-' :: (w2 ++ st.text)) := by
  rcases Matches.alt_inv h with hl | hr
  · obtain ⟨u1, x1, hu, h1, hx1⟩ := Matches.seq_inv hl
    obtain ⟨w2, x2, hx, hw2, hx2⟩ := Matches.seq_inv hx1
    obtain ⟨uh, um, hx', hh, hm⟩ := Matches.seq_inv hx2
    have e1 := Matches.lit_inv h1
    obtain ⟨t, ht, htext⟩ := Matches.clock_inv hh hm
    subst hu hx hx' e1
    refine ⟨some t, w2, ?_, Matches.star_inv hw2, ?_⟩
    · intro st hst
      simp only [Option.mem_def, Option.some.injEq] at hst
      subst hst
      exact ht
    · simp only [List.singleton_append, htext]
  · exact ⟨none, [], by simp, by simp [IsBlank], Matches.empty_inv hr⟩

/-- What the task pattern matches begins with a valid time range and a
semicolon. -/
theorem Matches.task_inv {u v : List Char} (h : Matches taskRe u v) :
    ∃ t rest, IsTimeRange t ∧ u ++ v = t ++ ';' :: rest := by
  obtain ⟨uh, x1, e1, hh, hx1⟩ := Matches.seq_inv h
  obtain ⟨um, x2, e2, hm, hx2⟩ := Matches.seq_inv hx1
  obtain ⟨w1, x3, e3, hw1, hx3⟩ := Matches.seq_inv hx2
  obtain ⟨us, x4, e4, hs, hx4⟩ := Matches.seq_inv hx3
  obtain ⟨w3, x5, e5, hw3, hx5⟩ := Matches.seq_inv hx4
  obtain ⟨sc, ut, e6, hsc, _⟩ := Matches.seq_inv hx5
  have e7 := Matches.lit_inv hsc
  obtain ⟨start, hstart, hstext⟩ := Matches.clock_inv hh hm
  obtain ⟨stop, w2, hstop, hw2, hus⟩ := Matches.stop_inv hs
  subst e1 e2 e3 e4 e5 e6 e7
  refine ⟨rangeText start stop w1 w2 w3, ut ++ v,
    ⟨start, stop, w1, w2, w3, hstart, hstop, Matches.star_inv hw1, hw2,
      Matches.star_inv hw3, rfl⟩, ?_⟩
  unfold rangeText
  rw [← hstext, hus]
  simp only [List.append_assoc, List.singleton_append, List.cons_append, List.nil_append]

/-- On a line without line feed, the leftmost search of the task pattern
succeeds exactly when the line has the task form. -/
theorem search_task_isSome_iff (line : List Char) (hlf : NoLineFeed line) :
    (search taskRe line).isSome = true ↔ HasTaskForm line := by
  constructor
  · intro h
    cases hs : search taskRe line with
    | none => rw [hs] at h; cases h
    | some m =>
      obtain ⟨body, hbody, hm⟩ := search_sound taskRe line m hs
      unfold matchHere at hm
      obtain ⟨u, v, _, huv, hmat, _, _⟩ := matchRe_sound _ body noCaps _ _ hm
      obtain ⟨t, rest, ht, hform⟩ := Matches.task_inv (Matches.group_inv hmat)
      exact ⟨m.before, t, rest, ht, by rw [hbody, huv, hform]⟩
  · rintro ⟨front, t, rest, ⟨start, stop, w1, w2, w3, hstart, hstop, h1, h2, h3, ht⟩, hline⟩
    subst ht hline
    have hrest : NoLineFeed rest := by
      intro x hx
      apply hlf x
      exact List.mem_append_right _ (List.mem_append_right _ (List.mem_cons_of_mem _ hx))
    obtain ⟨m, hm, hbefore, _⟩ :=
      search_range start stop w1 w2 w3 rest hstart hstop h1 h2 h3 hrest
    obtain ⟨body, hbody, hhere⟩ := search_sound taskRe _ m hm
    rw [hbefore, List.nil_append] at hbody
    apply search_complete taskRe _ _ front
    rw [hbody, hhere]
    rfl

/-! ## The start groups of a successful match -/

/-- After a successful match of a pattern that begins like the task pattern,
group 1 holds one or two digits and group 2, when it took part, exactly two. -/
theorem matchRe_start_caps {α : Type} (R : Regex) (h1 : 1 ∉ R.groups) (h2 : 2 ∉ R.groups)
    (body : List Char) (c0 : Caps) (k : List Char → Caps → Option α) (res : α)
    (hc0 : c0 2 = none)
    (hm : matchRe (.seq (.group 1 hourRe) (.seq (minuteRe 2) R)) body c0 k = some res) :
    ∃ (hh : List Char) (mm : Option (List Char)) (v : List Char) (cf : Caps),
      IsHourText hh ∧ (∀ x ∈ mm, IsMinuteText x) ∧ k v cf = some res ∧
      cf 1 = some hh ∧ cf 2 = mm := by
  rw [matchRe_seq] at hm
  obtain ⟨u1, v1, c1, _, hhour, hk1, hc1⟩ := matchRe_group_sound 1 hourRe body c0 _ res hm
  have hc1' : ∀ n, c1 n = c0 n := fun n => hc1 n (by simp [Regex.groups, hourRe, opt])
  rw [matchRe_seq] at hk1
  unfold minuteRe opt at hk1
  rw [matchRe_alt] at hk1
  rcases firstOf_eq_some hk1 with hA | ⟨_, hB⟩
  · rw [matchRe_seq] at hA
    obtain ⟨_, v2, c2, _, _, hk2, hc2⟩ := matchRe_sound (lit ':') v1 _ _ res hA
    have hc2' : ∀ n, c2 n = setCap c1 1 u1 n := fun n => hc2 n (by simp [Regex.groups, lit])
    obtain ⟨u3, v3, c3, _, hmin, hk3, hc3⟩ := matchRe_group_sound 2 _ v2 c2 _ res hk2
    have hc3' : ∀ n, c3 n = c2 n := fun n => hc3 n (by simp [Regex.groups])
    obtain ⟨_, vf, cf, _, _, hkf, hcf⟩ := matchRe_sound R v3 _ k res hk3
    refine ⟨u1, some u3, vf, cf, Matches.hour_inv hhour, ?_, hkf, ?_, ?_⟩
    · intro x hx
      simp only [Option.mem_def, Option.some.injEq] at hx
      subst hx
      exact Matches.two_digits_inv hmin
    · rw [hcf 1 h1]
      show (if 1 = 2 then some u3 else c3 1) = some u1
      rw [if_neg (by decide), hc3', hc2']
      simp [setCap]
    · rw [hcf 2 h2]
      simp [setCap]
  · rw [matchRe_empty] at hB
    obtain ⟨_, vf, cf, _, _, hkf, hcf⟩ := matchRe_sound R v1 _ k res hB
    refine ⟨u1, none, vf, cf, Matches.hour_inv hhour, by simp, hkf, ?_, ?_⟩
    · rw [hcf 1 h1]
      simp [setCap]
    · rw [hcf 2 h2]
      simp only [setCap]
      rw [if_neg (by decide), hc1', hc0]

/-- The start groups of the leftmost match of the task pattern. -/
theorem search_task_start {line : List Char} {m : Match} (h : search taskRe line = some m) :
    ∃ (hh : List Char) (mm : Option (List Char)),
      IsHourText hh ∧ (∀ x ∈ mm, IsMinuteText x) ∧ m.caps 1 = some hh ∧ m.caps 2 = mm := by
  obtain ⟨body, _, hm⟩ := search_sound taskRe line m h
  unfold matchHere at hm
  rw [matchRe_group] at hm
  unfold taskRe at hm
  obtain ⟨hh, mm, v, cf, hhh, hmm, hk, hc1, hc2⟩ :=
    matchRe_start_caps _ (by decide) (by decide) body noCaps _ _ rfl hm
  simp only [Option.some.injEq, Prod.mk.injEq] at hk
  refine ⟨hh, mm, hhh, hmm, ?_, ?_⟩
  · rw [← hk.1]
    simpa [setCap] using hc1
  · rw [← hk.1]
    simpa [setCap] using hc2

/-- The Start of a parsed task is the rendering of a valid written clock time. -/
theorem parseTaskLine_start {line : String} {t : Task} (h : parseTaskLine line = .ok t) :
    ∃ c : ClockText, c.Valid ∧ t.Start = c.canonical := by
  cases hs : search taskRe line.data with
  | none =>
    rw [parseTaskLine_of_search_none hs] at h
    cases h
  | some m =>
    rw [parseTaskLine_of_search line hs] at h
    obtain ⟨hh, mm, hhh, hmm, hc1, hc2⟩ := search_task_start hs
    cases h
    refine ⟨⟨hh, mm⟩, ⟨hhh, hmm⟩, ?_⟩
    show formatTime _ _ = _
    rw [hc1, hc2]
    exact formatTime_clock ⟨hh, mm⟩ ⟨hhh, hmm⟩

/-- The rendering of a valid written clock time is two digits, a colon and two
digits. -/
theorem canonical_shape (c : ClockText) (hc : c.Valid) :
    ∃ p q r s : Char, isDigit p = true ∧ isDigit q = true ∧ isDigit r = true ∧
      isDigit s = true ∧ c.canonical = String.mk [p, q, ':', r, s] := by
  obtain ⟨⟨hl, hd⟩, hm⟩ := hc
  have hmin : ∃ r s : Char, isDigit r = true ∧ isDigit s = true ∧
      c.minute.getD ['0', '0'] = [r, s] := by
    cases hmm : c.minute with
    | none => exact ⟨'0', '0', rfl, rfl, rfl⟩
    | some mm =>
      obtain ⟨hl2, hd2⟩ := hm mm (by simp [hmm])
      obtain ⟨r, s, rfl⟩ := List.length_eq_two.mp hl2
      exact ⟨r, s, hd2 r (by simp), hd2 s (by simp), rfl⟩
  obtain ⟨r, s, hr, hs, hrs⟩ := hmin
  unfold ClockText.canonical
  rw [hrs]
  rcases hl with hl | hl
  · obtain ⟨a, ha⟩ := List.length_eq_one.mp hl
    rw [ha] at hd ⊢
    exact ⟨'0', a, r, s, rfl, hd a (by simp), hr, hs, rfl⟩
  · obtain ⟨a, b, hab⟩ := List.length_eq_two.mp hl
    rw [hab] at hd ⊢
    exact ⟨a, b, r, s, hd a (by simp), hd b (by simp), hr, hs, rfl⟩

/-- The clock parse of the scheduler on two digits, a colon and two digits: it
accepts exactly the hours below 24 with the minutes below 60. -/
theorem timeParse_shape (p q r s : Char) (hp : isDigit p = true) (hq : isDigit q = true)
    (hr : isDigit r = true) (hs : isDigit s = true) :
    timeParse (String.mk [p, q, ':', r, s]) =
      if digitVal p * 10 + digitVal q < 24 ∧ digitVal r * 10 + digitVal s < 60 then
        some (digitVal p * 10 + digitVal q, digitVal r * 10 + digitVal s)
      else none := by
  simp only [timeParse, getnum, hp, hq, hr, hs, Bool.not_true, Bool.false_eq_true, if_false,
    if_true, List.isEmpty_nil]
  by_cases h1 : 24 ≤ digitVal p * 10 + digitVal q
  · rw [if_pos h1, if_neg (by omega)]
  · rw [if_neg h1]
    by_cases h2 : 60 ≤ digitVal r * 10 + digitVal s
    · simp only [h2, if_true]
      rw [if_neg (by omega)]
    · simp only [h2, if_false]
      rw [if_pos (by omega)]

/-! ## Unwrapping links -/

theorem noBracket_ne {c : Char} (h : noBracket c = true) : (c == '[') = false ∧ (c == ']') = false := by
  simp only [noBracket, Bool.and_eq_true, bne_iff_ne, ne_eq] at h
  exact ⟨by simpa using h.1, by simpa using h.2⟩

theorem matchHere_wiki_ne (x : Char) (s : List Char) (hx : (x == '[') = false) :
    matchHere wikiRe (x :: s) = none := by
  unfold matchHere wikiRe
  rw [matchRe_group, matchRe_seq, matchRe_lit_ne _ _ _ _ _ hx]

theorem matchHere_wiki_nil : matchHere wikiRe [] = none := rfl

/-- The search for a link skips text without an opening bracket. -/
theorem search_wiki_skip (t s : List Char) (ht : ∀ c ∈ t, (c == '[') = false) :
    search wikiRe (t ++ s) =
      match search wikiRe s with
      | none => none
      | some m => some ⟨t ++ m.before, m.caps, m.after⟩ := by
  induction t with
  | nil =>
    simp only [List.nil_append]
    cases search wikiRe s <;> rfl
  | cons x xs ih =>
    rw [List.cons_append, search, matchHere_wiki_ne x _ (ht x (List.mem_cons_self x xs))]
    simp only
    rw [ih (fun c hc => ht c (List.mem_cons_of_mem x hc))]
    cases search wikiRe s <;> rfl

/-- At a link whose inner text has no closing bracket and no line feed, the
pattern matches exactly the link and captures its inner text. -/
theorem matchHere_wiki_link (x s : List Char)
    (hx : ∀ c ∈ x, (c == ']') = false ∧ reAny c = true) :
    matchHere wikiRe ('[' :: '[' :: (x ++ ']' :: ']' :: s)) =
      some (setCap (setCap noCaps 1 x) 0 ('[' :: '[' :: (x ++ [']', ']'])), s) := by
  unfold matchHere wikiRe
  rw [matchRe_group, matchRe_seq, matchRe_lit_cons, matchRe_seq, matchRe_lit_cons, matchRe_seq,
    matchRe_group, matchRe_star_lazy]
  apply starLazy_of_first reAny _ _ (']' :: ']' :: s) _ x (fun c hc => (hx c hc).2)
  · intro u v huv hv
    cases v with
    | nil => exact absurd rfl hv
    | cons y ys =>
      have hy : (y == ']') = false :=
        (hx y (by rw [huv]; exact List.mem_append_right u (List.mem_cons_self y ys))).1
      rw [List.cons_append, matchRe_seq, matchRe_lit_ne _ _ _ _ _ hy]
  · rw [matchRe_seq, matchRe_lit_cons, matchRe_lit_cons, take_length_sub_append]
    have e : ('[' :: '[' :: (x ++ ']' :: ']' :: s)) = ('[' :: '[' :: (x ++ [']', ']'])) ++ s := by
      simp
    rw [e, take_length_sub_append]

theorem replaceAll_nil (fuel : Nat) : replaceAllGroup1 wikiRe fuel [] = [] := by
  cases fuel <;> rfl

theorem replaceAll_text (fuel : Nat) (t s : List Char) (ht : ∀ c ∈ t, (c == '[') = false) :
    replaceAllGroup1 wikiRe fuel (t ++ s) = t ++ replaceAllGroup1 wikiRe fuel s := by
  cases fuel with
  | zero => rfl
  | succ n =>
    simp only [replaceAllGroup1]
    rw [search_wiki_skip t s ht]
    cases search wikiRe s with
    | none => rfl
    | some m => simp only [List.append_assoc]

theorem replaceAll_link (fuel : Nat) (x s : List Char)
    (hx : ∀ c ∈ x, (c == ']') = false ∧ reAny c = true) :
    replaceAllGroup1 wikiRe (fuel + 1) ('[' :: '[' :: (x ++ ']' :: ']' :: s)) =
      x ++ replaceAllGroup1 wikiRe fuel s := by
  simp only [replaceAllGroup1]
  rw [search_of_matchHere (matchHere_wiki_link x s hx)]
  simp [setCap]

/-- Replacing the links of a description made of plain pieces unwraps every
link, as soon as the fuel covers the number of links. -/
theorem replaceAll_pieces (ps : List Piece) (hps : ∀ p ∈ ps, p.Plain) :
    ∀ fuel, linkCount ps ≤ fuel →
      replaceAllGroup1 wikiRe fuel (sourceText ps) = unwrappedText ps := by
  induction ps with
  | nil =>
    intro fuel _
    exact replaceAll_nil fuel
  | cons p ps ih =>
    intro fuel hfuel
    have hrest : ∀ q ∈ ps, q.Plain := fun q hq => hps q (List.mem_cons_of_mem p hq)
    have hp := hps p (List.mem_cons_self p ps)
    cases p with
    | text t =>
      simp only [sourceText, unwrappedText, Piece.source, Piece.unwrapped]
      rw [replaceAll_text fuel t _ (fun c hc => (noBracket_ne (hp c hc)).1)]
      rw [ih hrest fuel hfuel]
    | link x =>
      simp only [linkCount] at hfuel
      obtain ⟨n, rfl⟩ : ∃ n, fuel = n + 1 := ⟨fuel - 1, by omega⟩
      simp only [sourceText, unwrappedText, Piece.source, Piece.unwrapped, List.cons_append,
        List.append_assoc, List.nil_append]
      rw [replaceAll_link n x _ (fun c hc => ⟨(noBracket_ne (hp c hc).1).2, (hp c hc).2⟩)]
      rw [ih hrest n (by omega)]

theorem linkCount_le_length (ps : List Piece) : linkCount ps ≤ (sourceText ps).length := by
  induction ps with
  | nil => simp [linkCount]
  | cons p ps ih =>
    cases p with
    | text t =>
      simp only [linkCount, sourceText, Piece.source, List.length_append]
      omega
    | link x =>
      simp only [linkCount, sourceText, Piece.source, List.length_append, List.length_cons]
      omega

/-- `parseWikiLink` on a description made of plain pieces. -/
theorem parseWikiLink_pieces (ps : List Piece) (hps : ∀ p ∈ ps, p.Plain) :
    parseWikiLink (String.mk (sourceText ps)) = String.mk (unwrappedText ps) := by
  unfold parseWikiLink
  rw [replaceAll_pieces ps hps _ (by have := linkCount_le_length ps; simp only; omega)]

theorem hasDelim_cons (a x : Char) (rest : List Char) :
    hasDelim a (x :: rest) = ((x == a && (match rest with
      | [] => false
      | y :: _ => y == a)) || hasDelim a rest) := rfl

theorem hasDelim_append (a : Char) (rest : List Char) :
    ∀ front : List Char, hasDelim a (front ++ a :: a :: rest) = true := by
  intro front
  induction front with
  | nil => simp [hasDelim]
  | cons x xs ih =>
    rw [List.cons_append, hasDelim_cons, ih]
    simp

theorem hasDelim_of_none (a : Char) :
    ∀ s : List Char, (∀ c ∈ s, (c == a) = false) → hasDelim a s = false := by
  intro s
  induction s with
  | nil => intro _; rfl
  | cons x xs ih =>
    intro h
    rw [hasDelim_cons, ih (fun c hc => h c (List.mem_cons_of_mem x hc)),
      h x (List.mem_cons_self x xs)]
    rfl

/-- Without an opening delimiter the link pattern matches nowhere. -/
theorem search_wiki_none (s : List Char) (h : hasDelim '[' s = false) :
    search wikiRe s = none := by
  cases hs : search wikiRe s with
  | none => rfl
  | some m =>
    exfalso
    obtain ⟨body, hbody, hm⟩ := search_sound wikiRe s m hs
    unfold matchHere at hm
    obtain ⟨u, v, _, huv, hmat, _, _⟩ := matchRe_sound _ body noCaps _ _ hm
    have hw := Matches.group_inv hmat
    obtain ⟨u1, x1, e1, h1, hx1⟩ := Matches.seq_inv hw
    obtain ⟨u2, x2, e2, h2, _⟩ := Matches.seq_inv hx1
    have l1 := Matches.lit_inv h1
    have l2 := Matches.lit_inv h2
    subst e1 e2 l1 l2
    have hd : hasDelim '[' s = true := by
      rw [hbody, huv]
      have := hasDelim_append '[' (x2 ++ v) m.before
      simpa using this
    rw [h] at hd
    cases hd

theorem descriptionPart_plain (d : List Char) (h : (';' : Char) ∉ d) :
    descriptionPart d = d ∧ notesPart d = [] := by
  have hall : ∀ x ∈ d, (fun c : Char => c != ';') x = true := by
    intro x hx
    have : x ≠ ';' := fun e => h (e ▸ hx)
    simpa using this
  unfold descriptionPart notesPart
  rw [List.takeWhile_eq_self_iff.mpr hall, List.dropWhile_eq_nil_iff.mpr hall]
  exact ⟨rfl, rfl⟩

theorem descriptionPart_notes (d n : List Char) (h : (';' : Char) ∉ d) :
    descriptionPart (d ++ ';' :: n) = d ∧ notesPart (d ++ ';' :: n) = n := by
  have hall : ∀ x ∈ d, (fun c : Char => c != ';') x = true := by
    intro x hx
    have : x ≠ ';' := fun e => h (e ▸ hx)
    simpa using this
  unfold descriptionPart notesPart
  rw [List.takeWhile_append_of_pos hall, List.dropWhile_append_of_pos hall]
  simp

/-- A match of the link pattern leaves strictly less text to search. -/
theorem search_wiki_after_lt {s : List Char} {m : Match} (h : search wikiRe s = some m) :
    m.after.length < s.length := by
  obtain ⟨body, hbody, hm⟩ := search_sound wikiRe s m h
  unfold matchHere at hm
  obtain ⟨u, v, c, huv, hmat, hk, _⟩ := matchRe_sound _ body noCaps _ _ hm
  simp only [Option.some.injEq, Prod.mk.injEq] at hk
  obtain ⟨u1, x1, e1, h1, _⟩ := Matches.seq_inv (Matches.group_inv hmat)
  have l1 := Matches.lit_inv h1
  subst e1 l1
  rw [hbody, huv, ← hk.2]
  simp only [List.length_append, List.length_cons, List.length_nil]
  omega

/-- The replacement of links never runs out of fuel: any two amounts of fuel that
cover the length of the text give the same result. -/
theorem replaceAll_fuel (f1 : Nat) :
    ∀ (f2 : Nat) (s : List Char), s.length ≤ f1 → s.length ≤ f2 →
      replaceAllGroup1 wikiRe f1 s = replaceAllGroup1 wikiRe f2 s := by
  induction f1 with
  | zero =>
    intro f2 s h1 _
    have : s = [] := List.length_eq_zero.mp (by omega)
    subst this
    rw [replaceAll_nil, replaceAll_nil]
  | succ n ih =>
    intro f2 s h1 h2
    cases f2 with
    | zero =>
      have : s = [] := List.length_eq_zero.mp (by omega)
      subst this
      rw [replaceAll_nil, replaceAll_nil]
    | succ k =>
      simp only [replaceAllGroup1]
      cases hs : search wikiRe s with
      | none => rfl
      | some m =>
        have hlt := search_wiki_after_lt hs
        simp only
        rw [ih k m.after (by omega) (by omega)]

/-! ## Trimming a description made of plain pieces -/

theorem sourceText_append (ps qs : List Piece) :
    sourceText (ps ++ qs) = sourceText ps ++ sourceText qs := by
  induction ps with
  | nil => rfl
  | cons p ps ih =>
    show p.source ++ sourceText (ps ++ qs) = (p.source ++ sourceText ps) ++ sourceText qs
    rw [ih, List.append_assoc]

theorem unicodeIsSpace_open : unicodeIsSpace '[' = false := rfl

theorem unicodeIsSpace_close : unicodeIsSpace ']' = false := rfl

theorem dropWhile_pieces (ps : List Piece) (hps : ∀ p ∈ ps, p.Plain) :
    ∃ qs : List Piece, (∀ q ∈ qs, q.Plain) ∧
      (sourceText ps).dropWhile unicodeIsSpace = sourceText qs := by
  induction ps with
  | nil => exact ⟨[], by simp, rfl⟩
  | cons p ps ih =>
    have hrest : ∀ q ∈ ps, q.Plain := fun q hq => hps q (List.mem_cons_of_mem p hq)
    have hp := hps p (List.mem_cons_self p ps)
    cases p with
    | text t =>
      simp only [sourceText, Piece.source]
      rw [List.dropWhile_append]
      split
      · exact ih hrest
      · refine ⟨.text (t.dropWhile unicodeIsSpace) :: ps, ?_, rfl⟩
        intro q hq
        rcases List.mem_cons.mp hq with rfl | hq
        · intro c hc
          exact hp c ((List.dropWhile_sublist _).subset hc)
        · exact hrest q hq
    | link x =>
      refine ⟨.link x :: ps, hps, ?_⟩
      simp only [sourceText, Piece.source, List.cons_append]
      rw [List.dropWhile_cons_of_neg (by simp [unicodeIsSpace_open])]

theorem rdropWhile_append (p : Char → Bool) (a t : List Char) :
    (a ++ t).rdropWhile p =
      if t.rdropWhile p = [] then a.rdropWhile p else a ++ t.rdropWhile p := by
  unfold List.rdropWhile
  rw [List.reverse_append, List.dropWhile_append]
  cases h : List.dropWhile p t.reverse with
  | nil => simp
  | cons y ys => simp

theorem rdropWhile_pieces (ps : List Piece) (hps : ∀ p ∈ ps, p.Plain) :
    ∃ qs : List Piece, (∀ q ∈ qs, q.Plain) ∧
      (sourceText ps).rdropWhile unicodeIsSpace = sourceText qs := by
  induction ps using List.reverseRecOn with
  | nil => exact ⟨[], by simp, by simp [sourceText]⟩
  | append_singleton ps p ih =>
    have hrest : ∀ q ∈ ps, q.Plain := fun q hq => hps q (List.mem_append_left _ hq)
    have hp := hps p (List.mem_append_right _ (List.mem_singleton_self p))
    rw [sourceText_append]
    cases p with
    | text t =>
      simp only [sourceText, Piece.source, List.append_nil]
      rw [rdropWhile_append]
      split
      · exact ih hrest
      · refine ⟨ps ++ [.text (t.rdropWhile unicodeIsSpace)], ?_, ?_⟩
        · intro q hq
          rcases List.mem_append.mp hq with hq | hq
          · exact hrest q hq
          · rw [List.mem_singleton.mp hq]
            intro c hc
            exact hp c ((List.rdropWhile_prefix unicodeIsSpace t).subset hc)
        · rw [sourceText_append]
          simp only [sourceText, Piece.source, List.append_nil]
    | link x =>
      refine ⟨ps ++ [.link x], hps, ?_⟩
      rw [sourceText_append]
      simp only [sourceText, Piece.source, List.append_nil]
      have e : sourceText ps ++ '[' :: '[' :: (x ++ [']', ']']) =
          (sourceText ps ++ '[' :: '[' :: (x ++ [']'])) ++ [']'] := by simp
      rw [e, List.rdropWhile_concat_neg _ _ _ (by simp [unicodeIsSpace_close])]

/-- Trimming a description made of plain pieces leaves a description made of
plain pieces. -/
theorem trimSpaceChars_pieces (ps : List Piece) (hps : ∀ p ∈ ps, p.Plain) :
    ∃ qs : List Piece, (∀ q ∈ qs, q.Plain) ∧ trimSpaceChars (sourceText ps) = sourceText qs := by
  obtain ⟨qs1, h1, e1⟩ := dropWhile_pieces ps hps
  obtain ⟨qs2, h2, e2⟩ := rdropWhile_pieces qs1 h1
  exact ⟨qs2, h2, by rw [trimSpaceChars_eq, e1, e2]⟩

theorem unwrappedText_noBracket (ps : List Piece) (hps : ∀ p ∈ ps, p.Plain) :
    ∀ c ∈ unwrappedText ps, noBracket c = true := by
  induction ps with
  | nil => intro c hc; cases hc
  | cons p ps ih =>
    have hrest : ∀ q ∈ ps, q.Plain := fun q hq => hps q (List.mem_cons_of_mem p hq)
    have hp := hps p (List.mem_cons_self p ps)
    intro c hc
    simp only [unwrappedText, List.mem_append] at hc
    rcases hc with hc | hc
    · cases p with
      | text t => exact hp c hc
      | link x => exact (hp c hc).1
    · exact ih hrest c hc

/-- Unwrapping the trimmed text of a description made of plain pieces leaves no
square bracket. -/
theorem parseWikiLink_trim_pieces (ps : List Piece) (hps : ∀ p ∈ ps, p.Plain) :
    ∀ c ∈ (parseWikiLink (trimSpace (String.mk (sourceText ps)))).data, noBracket c = true := by
  obtain ⟨qs, hqs, e⟩ := trimSpaceChars_pieces ps hps
  have h : parseWikiLink (trimSpace (String.mk (sourceText ps))) =
      String.mk (unwrappedText qs) := by
    unfold trimSpace
    rw [e]
    exact parseWikiLink_pieces qs hqs
  rw [h]
  exact unwrappedText_noBracket qs hqs

/-- The description and the notes of a line `T;D;N` and of a line `T;D`. -/
theorem parseTaskLine_description_notes (T D N : String)
    (hT : IsTimeRange T.data) (hD : NoLineFeed D.data) (hN : NoLineFeed N.data)
    (hsemi : (';' : Char) ∉ D.data) :
    (∃ t, parseTaskLine (T ++ ";" ++ D ++ ";" ++ N) = .ok t ∧
      t.Description = parseWikiLink (trimSpace D) ∧ t.Notes = trimSpace N) ∧
    (∃ t, parseTaskLine (T ++ ";" ++ D) = .ok t ∧
      t.Description = parseWikiLink (trimSpace D) ∧ t.Notes = "") := by
  obtain ⟨start, stop, w1, w2, w3, hstart, hstop, h1, h2, h3, hT⟩ := hT
  constructor
  · have hrest : NoLineFeed (D.data ++ ';' :: N.data) := by
      intro x hx
      rcases List.mem_append.mp hx with h | h
      · exact hD x h
      · rcases List.mem_cons.mp h with rfl | h
        · rfl
        · exact hN x h
    have h := parseTaskLine_range start stop w1 w2 w3 (D.data ++ ';' :: N.data)
      hstart hstop h1 h2 h3 hrest
    obtain ⟨e1, e2⟩ := descriptionPart_notes D.data N.data hsemi
    rw [e1, e2, ← hT] at h
    have hline : T ++ ";" ++ D ++ ";" ++ N =
        String.mk (T.data ++ ';' :: (D.data ++ ';' :: N.data)) := by
      apply String.ext
      simp [String.data_append]
    rw [hline]
    exact ⟨_, h, rfl, rfl⟩
  · have h := parseTaskLine_range start stop w1 w2 w3 D.data hstart hstop h1 h2 h3 hD
    obtain ⟨e1, e2⟩ := descriptionPart_plain D.data hsemi
    rw [e1, e2, ← hT] at h
    have hline : T ++ ";" ++ D = String.mk (T.data ++ ';' :: D.data) := by
      apply String.ext
      simp [String.data_append]
    rw [hline]
    exact ⟨_, h, rfl, rfl⟩

/-! ## Facts about the scheduler -/

theorem resolveStart_ge (now : Int) (hour minute : Nat) : now ≤ resolveStart now hour minute := by
  have hh : (0 : Int) ≤ (hour : Int) := Int.ofNat_nonneg hour
  have hm : (0 : Int) ≤ (minute : Int) := Int.ofNat_nonneg minute
  simp only [resolveStart, dateClock, dateOf, addDay, nsPerDay]
  norm_num
  split_ifs with hlt <;> omega

theorem dateClock_eq (day : Int) (hour minute : Nat) :
    dateClock day hour minute = day * nsPerDay + clockNanos hour minute := rfl

theorem scheduleNotification_fired (t : Task) (now : Int) (sinkErr : Bool) (hour minute : Nat)
    (hparse : timeParse t.Start = some (hour, minute)) :
    scheduleNotification t now sinkErr = .fired {
      resolved := resolveStart now hour minute
      duration := (leadDuration t.Notes).1
      notificationTime := resolveStart now hour minute + toInt64 (-(leadDuration t.Notes).1)
      sleepDuration :=
        timeSub (resolveStart now hour minute + toInt64 (-(leadDuration t.Notes).1)) now
      log := (leadDuration t.Notes).2 ++ (if sinkErr then [LogEntry.sinkFailed] else [])
      console := ["\n--- Task Starting ---\n", "Time: " ++ t.Start ++ "\n",
        "Description: " ++ t.Description ++ "\n", "---------------------\n"] } := by
  simp only [scheduleNotification, hparse]

/-! ## The lead-time marker -/

theorem hasMarker_cons (x : Char) (rest : List Char) :
    hasMarker (x :: rest) = ((x == '!' && (match rest with
      | y :: z :: _ => y == '-' && isDigit z
      | _ => false)) || hasMarker rest) := rfl

theorem hasMarker_append (d : Char) (hd : isDigit d = true) (rest : List Char) :
    ∀ front : List Char, hasMarker (front ++ '!' :: '-' :: d :: rest) = true := by
  intro front
  induction front with
  | nil => simp [hasMarker_cons, hd]
  | cons x xs ih =>
    rw [List.cons_append, hasMarker_cons, ih]
    simp

/-- What the marker pattern matches: `!-`, a digit and more digits. -/
theorem Matches.duration_inv {u v : List Char} (h : Matches durationRe u v) :
    ∃ (d : Char) (ds : List Char), isDigit d = true ∧ IsDigits ds ∧ u = '!' :: '-' :: d :: ds := by
  obtain ⟨u1, x1, e1, h1, hx1⟩ := Matches.seq_inv h
  obtain ⟨u2, x2, e2, h2, hx2⟩ := Matches.seq_inv (Matches.group_inv hx1)
  obtain ⟨u3, x3, e3, h3, hx3⟩ := Matches.seq_inv hx2
  have l1 := Matches.lit_inv h1
  have l2 := Matches.lit_inv h2
  obtain ⟨d, hd, hdd⟩ := Matches.char_inv h3
  subst e1 e2 e3 l1 l2 hd
  exact ⟨d, x3, hdd, Matches.star_inv hx3, rfl⟩

/-- Without a marker the marker pattern matches nowhere. -/
theorem search_duration_none (s : List Char) (h : hasMarker s = false) :
    search durationRe s = none := by
  cases hs : search durationRe s with
  | none => rfl
  | some m =>
    exfalso
    obtain ⟨body, hbody, hm⟩ := search_sound durationRe s m hs
    unfold matchHere at hm
    obtain ⟨u, v, _, huv, hmat, _, _⟩ := matchRe_sound _ body noCaps _ _ hm
    obtain ⟨d, ds, hd, _, hu⟩ := Matches.duration_inv (Matches.group_inv hmat)
    have hmk : hasMarker s = true := by
      rw [hbody, huv, hu]
      have := hasMarker_append d hd (ds ++ v) m.before
      simpa using this
    rw [h] at hmk
    cases hmk

theorem extract_of_search_none {notes : String} (h : search durationRe notes.data = none) :
    extractNotificationDuration notes = "" := by
  unfold extractNotificationDuration findStringSubmatch
  rw [h]
  rfl

theorem extract_of_search {notes : String} {m : Match}
    (h : search durationRe notes.data = some m) :
    extractNotificationDuration notes = String.mk ((m.caps 1).getD [] ++ ['m']) := by
  unfold extractNotificationDuration findStringSubmatch
  rw [h]
  simp [List.range, List.range.loop]

theorem leadDuration_of_empty {notes : String} (h : extractNotificationDuration notes = "") :
    leadDuration notes = (0, []) := by
  unfold leadDuration
  rw [h]
  by_cases hn : notes = ""
  · simp [hn]
  · simp [hn]

/-! ## Lines that cannot match, and the stop groups -/

/-- A line in which the task pattern matches somewhere has the task form. -/
theorem search_task_form {line : List Char} {m : Match} (hs : search taskRe line = some m) :
    HasTaskForm line := by
  obtain ⟨body, hbody, hm⟩ := search_sound taskRe line m hs
  unfold matchHere at hm
  obtain ⟨u, v, _, huv, hmat, _, _⟩ := matchRe_sound _ body noCaps _ _ hm
  obtain ⟨t, rest, ht, hform⟩ := Matches.task_inv (Matches.group_inv hmat)
  exact ⟨m.before, t, rest, ht, by rw [hbody, huv, hform]⟩

theorem rangeText_head (start : ClockText) (stop : Option ClockText) (w1 w2 w3 : List Char)
    (hstart : start.Valid) :
    ∃ a tl, rangeText start stop w1 w2 w3 = a :: tl ∧ isDigit a = true := by
  unfold rangeText
  exact clockText_head start hstart _

/-- A line with the task form contains a semicolon and a digit. -/
theorem taskForm_semicolon_digit {line : List Char} (h : HasTaskForm line) :
    (';' : Char) ∈ line ∧ ∃ c ∈ line, isDigit c = true := by
  obtain ⟨front, t, rest, ⟨start, stop, w1, w2, w3, hstart, _, _, _, _, ht⟩, hline⟩ := h
  subst hline
  refine ⟨by simp, ?_⟩
  obtain ⟨a, tl, hat, ha⟩ := rangeText_head start stop w1 w2 w3 hstart
  refine ⟨a, ?_, ha⟩
  apply List.mem_append_right
  apply List.mem_append_left
  rw [ht, hat]
  exact List.mem_cons_self a tl

theorem parseTaskLine_error_of_no_form {line : String} (h : ¬ HasTaskForm line.data) :
    parseTaskLine line = .error ("invalid task format: " ++ line) := by
  cases hs : search taskRe line.data with
  | none => exact parseTaskLine_of_search_none hs
  | some m => exact absurd (search_task_form hs) h

theorem isDigit_of_unicodeIsSpace {c : Char} (h : unicodeIsSpace c = true) :
    isDigit c = false := by
  cases hd : isDigit c with
  | false => rfl
  | true =>
    have h1 := isDigit_range hd
    simp only [unicodeIsSpace, Bool.or_eq_true, Bool.and_eq_true, decide_eq_true_eq] at h
    omega

theorem parsePlanningFile_error_of_line (file : PlanningFile) (l : String)
    (hl : l ∈ file.lines) (e : String) (he : parseTaskLine l = .error e) :
    ∃ e', parsePlanningFile file = .error e' := by
  unfold parsePlanningFile
  cases file.openErr with
  | some err => exact ⟨err, rfl⟩
  | none =>
    obtain ⟨e', he'⟩ := (parseLines_error_iff file.lines []).mpr ⟨l, hl, e, he⟩
    simp only [he']
    exact ⟨e', rfl⟩

/-- After a successful match of the stop pattern followed by a pattern without
the groups 3 and 4, these groups are both untouched, or group 3 holds one or two
digits and group 4, when it took part, exactly two. -/
theorem matchRe_stop_caps {α : Type} (R : Regex) (h3 : 3 ∉ R.groups) (h4 : 4 ∉ R.groups)
    (body : List Char) (c0 : Caps) (k : List Char → Caps → Option α) (res : α)
    (hc4 : c0 4 = none)
    (hm : matchRe (.seq stopRe R) body c0 k = some res) :
    ∃ (v : List Char) (cf : Caps), k v cf = some res ∧
      ((cf 3 = c0 3 ∧ cf 4 = c0 4) ∨
        ∃ (hh : List Char) (mm : Option (List Char)),
          IsHourText hh ∧ (∀ x ∈ mm, IsMinuteText x) ∧ cf 3 = some hh ∧ cf 4 = mm) := by
  rw [matchRe_seq] at hm
  unfold stopRe opt at hm
  rw [matchRe_alt] at hm
  rcases firstOf_eq_some hm with hA | ⟨_, hB⟩
  · rw [matchRe_seq] at hA
    obtain ⟨_, v1, c1, _, _, hk1, hc1⟩ := matchRe_sound (lit '-') body _ _ res hA
    have hc1' : ∀ n, c1 n = c0 n := fun n => hc1 n (by simp [Regex.groups, lit])
    rw [matchRe_seq] at hk1
    obtain ⟨_, v2, c2, _, _, hk2, hc2⟩ := matchRe_sound (.star true reSpace) v1 _ _ res hk1
    have hc2' : ∀ n, c2 n = c1 n := fun n => hc2 n (by simp [Regex.groups])
    rw [matchRe_seq] at hk2
    obtain ⟨u3, v3, c3, _, hhour, hk3, hc3⟩ := matchRe_group_sound 3 hourRe v2 c2 _ res hk2
    have hc3' : ∀ n, c3 n = c2 n := fun n => hc3 n (by simp [Regex.groups, hourRe, opt])
    unfold minuteRe opt at hk3
    rw [matchRe_alt] at hk3
    rcases firstOf_eq_some hk3 with hM | ⟨_, hN⟩
    · rw [matchRe_seq] at hM
      obtain ⟨_, v4, c4, _, _, hk4, hc4'⟩ := matchRe_sound (lit ':') v3 _ _ res hM
      obtain ⟨u5, v5, c5, _, hmin, hk5, hc5⟩ := matchRe_group_sound 4 _ v4 c4 _ res hk4
      obtain ⟨_, vf, cf, _, _, hkf, hcf⟩ := matchRe_sound R v5 _ k res hk5
      refine ⟨vf, cf, hkf, Or.inr ⟨u3, some u5, Matches.hour_inv hhour, ?_, ?_, ?_⟩⟩
      · intro x hx
        simp only [Option.mem_def, Option.some.injEq] at hx
        subst hx
        exact Matches.two_digits_inv hmin
      · rw [hcf 3 h3]
        show (if 3 = 4 then some u5 else c5 3) = some u3
        rw [if_neg (by decide), hc5 3 (by simp [Regex.groups]),
          hc4' 3 (by simp [Regex.groups, lit])]
        simp [setCap]
      · rw [hcf 4 h4]
        simp [setCap]
    · rw [matchRe_empty] at hN
      obtain ⟨_, vf, cf, _, _, hkf, hcf⟩ := matchRe_sound R v3 _ k res hN
      refine ⟨vf, cf, hkf, Or.inr ⟨u3, none, Matches.hour_inv hhour, by simp, ?_, ?_⟩⟩
      · rw [hcf 3 h3]
        simp [setCap]
      · rw [hcf 4 h4]
        show (if 4 = 3 then some u3 else c3 4) = none
        rw [if_neg (by decide), hc3', hc2', hc1', hc4]
  · rw [matchRe_empty] at hB
    obtain ⟨_, vf, cf, _, _, hkf, hcf⟩ := matchRe_sound R body _ k res hB
    exact ⟨vf, cf, hkf, Or.inl ⟨hcf 3 h3, hcf 4 h4⟩⟩

/-- The stop groups of the leftmost match of the task pattern. -/
theorem search_task_stop {line : List Char} {m : Match} (h : search taskRe line = some m) :
    (m.caps 3 = none ∧ m.caps 4 = none) ∨
      ∃ (hh : List Char) (mm : Option (List Char)),
        IsHourText hh ∧ (∀ x ∈ mm, IsMinuteText x) ∧ m.caps 3 = some hh ∧ m.caps 4 = mm := by
  obtain ⟨body, _, hm⟩ := search_sound taskRe line m h
  unfold matchHere at hm
  rw [matchRe_group] at hm
  unfold taskRe at hm
  have hm' : matchRe (.seq (.seq (.group 1 hourRe) (.seq (minuteRe 2) (.star true reSpace)))
      (.seq stopRe (.seq (.star true reSpace) (.seq (lit ';') tailRe)))) body noCaps
      (fun s' c' => some (setCap c' 0 (body.take (body.length - s'.length)), s')) =
        some (m.caps, m.after) := hm
  rw [matchRe_seq] at hm'
  obtain ⟨_, v1, c1, _, _, hk1, hc1⟩ := matchRe_sound _ body noCaps _ _ hm'
  have h13 : c1 3 = none := hc1 3 (by decide)
  have h14 : c1 4 = none := hc1 4 (by decide)
  obtain ⟨v, cf, hk, hcases⟩ :=
    matchRe_stop_caps _ (by decide) (by decide) v1 c1 _ _ h14 hk1
  simp only [Option.some.injEq, Prod.mk.injEq] at hk
  have e3 : m.caps 3 = cf 3 := by rw [← hk.1]; simp [setCap]
  have e4 : m.caps 4 = cf 4 := by rw [← hk.1]; simp [setCap]
  rcases hcases with ⟨a3, a4⟩ | ⟨hh, mm, hhh, hmm, a3, a4⟩
  · exact Or.inl ⟨by rw [e3, a3, h13], by rw [e4, a4, h14]⟩
  · exact Or.inr ⟨hh, mm, hhh, hmm, by rw [e3, a3], by rw [e4, a4]⟩

/-- The Stop of a parsed task is `00:00` or the rendering of a valid written
clock time. -/
theorem parseTaskLine_stop {line : String} {t : Task} (h : parseTaskLine line = .ok t) :
    t.Stop = "00:00" ∨ ∃ c : ClockText, c.Valid ∧ t.Stop = c.canonical := by
  cases hs : search taskRe line.data with
  | none =>
    rw [parseTaskLine_of_search_none hs] at h
    cases h
  | some m =>
    rw [parseTaskLine_of_search line hs] at h
    cases h
    rcases search_task_stop hs with ⟨a3, a4⟩ | ⟨hh, mm, hhh, hmm, a3, a4⟩
    · left
      show formatTime _ _ = _
      rw [a3, a4]
      rfl
    · right
      refine ⟨⟨hh, mm⟩, ⟨hhh, hmm⟩, ?_⟩
      show formatTime _ _ = _
      rw [a3, a4]
      exact formatTime_clock ⟨hh, mm⟩ ⟨hhh, hmm⟩

/-! ## Reading the lead time -/

theorem digitsValue_ge : ∀ (n : List Char) (x : Nat), x ≤ digitsValue x n := by
  intro n
  induction n with
  | nil => intro x; exact Nat.le_refl x
  | cons c cs ih =>
    intro x
    have h := ih (x * 10 + digitVal c)
    show x ≤ digitsValue (x * 10 + digitVal c) cs
    exact Nat.le_trans (Nat.le_trans (Nat.le_mul_of_pos_right x (by decide))
      (Nat.le_add_right _ _)) h

theorem leadingInt_cons (x : Nat) (c : Char) (rest : List Char) :
    leadingInt x (c :: rest) =
      if isDigit c then
        if x > 2 ^ 63 / 10 then none
        else if x * 10 + digitVal c > 2 ^ 63 then none else leadingInt (x * 10 + digitVal c) rest
      else some (x, c :: rest) := by
  rw [leadingInt]

theorem two_pow_63 : (2 : Nat) ^ 63 = 9223372036854775808 := by norm_num

/-- `leadingInt` on a run of digits followed by another character: the number
written, unless it exceeds `2 ^ 63`. -/
theorem leadingInt_digits (c : Char) (rest : List Char) (hc : isDigit c = false) :
    ∀ (n : List Char) (x : Nat), IsDigits n → x ≤ 2 ^ 63 →
      leadingInt x (n ++ c :: rest) =
        if digitsValue x n ≤ 2 ^ 63 then some (digitsValue x n, c :: rest) else none := by
  intro n
  induction n with
  | nil =>
    intro x _ hx
    rw [List.nil_append, leadingInt_cons, hc]
    show some (x, c :: rest) = if x ≤ 2 ^ 63 then some (x, c :: rest) else none
    rw [if_pos hx]
  | cons d ds ih =>
    intro x hn hx
    have hd : isDigit d = true := hn d (List.mem_cons_self d ds)
    have hds : IsDigits ds := fun y hy => hn y (List.mem_cons_of_mem d hy)
    have hge := digitsValue_ge ds (x * 10 + digitVal d)
    have ih' := ih (x * 10 + digitVal d) hds
    rw [List.cons_append, leadingInt_cons, hd]
    show (if true = true then _ else _) =
      if digitsValue (x * 10 + digitVal d) ds ≤ 2 ^ 63 then
        some (digitsValue (x * 10 + digitVal d) ds, c :: rest) else none
    rw [if_pos rfl]
    generalize digitsValue (x * 10 + digitVal d) ds = w at hge ih' ⊢
    generalize digitVal d = e at hge ih' ⊢
    rw [two_pow_63] at hx ih' ⊢
    by_cases h1 : x > 9223372036854775808 / 10
    · rw [if_pos h1, if_neg]
      omega
    · rw [if_neg h1]
      by_cases h2 : x * 10 + e > 9223372036854775808
      · rw [if_pos h2, if_neg]
        omega
      · rw [if_neg h2]
        exact ih' (by omega)

theorem unitChar_m : unitChar 'm' = true := rfl

theorem isDigit_m : isDigit 'm' = false := rfl

theorem parseDurationLoop_nil (fuel d : Nat) : parseDurationLoop (fuel + 1) [] d = some d := rfl

theorem parseDurationLoop_cons (fuel d : Nat) (c : Char) (rest : List Char)
    (hc : isDigit c = true) :
    parseDurationLoop (fuel + 1) (c :: rest) d =
      match leadingInt 0 (c :: rest) with
      | none => none
      | some (v, rest1) =>
        if (rest1.takeWhile unitChar).isEmpty then none
        else
          match unitMap (rest1.takeWhile unitChar) with
          | none => none
          | some unit =>
            if v > 2 ^ 63 / unit then none
            else if d + v * unit > 2 ^ 63 then none
            else parseDurationLoop fuel (rest1.dropWhile unitChar) (d + v * unit) := by
  rw [parseDurationLoop]
  simp only [hc, Bool.not_true, Bool.false_eq_true, if_false]

/-- The loop of `time.ParseDuration` on digits and `m`: the nanoseconds of the
minutes, unless they exceed the largest number of minutes that fits. -/
theorem parseDurationLoop_minutes (fuel : Nat) (d : Char) (ds : List Char)
    (hd : isDigit d = true) (hds : IsDigits ds) :
    parseDurationLoop (fuel + 2) (d :: (ds ++ ['m'])) 0 =
      if digitsValue 0 (d :: ds) ≤ maxMinutes then
        some (digitsValue 0 (d :: ds) * 60000000000)
      else none := by
  have hn : IsDigits (d :: ds) := by
    intro y hy
    rcases List.mem_cons.mp hy with rfl | hy
    · exact hd
    · exact hds y hy
  have hlead := leadingInt_digits 'm' [] isDigit_m (d :: ds) 0 hn (Nat.zero_le _)
  rw [List.cons_append] at hlead
  rw [parseDurationLoop_cons _ _ _ _ hd, hlead]
  generalize digitsValue 0 (d :: ds) = v
  have hu : unitMap ['m'] = some 60000000000 := by decide
  have htake : List.takeWhile unitChar ['m'] = ['m'] := rfl
  have hdrop : List.dropWhile unitChar ['m'] = [] := rfl
  unfold maxMinutes
  rw [two_pow_63]
  by_cases hv63 : v ≤ 9223372036854775808
  · rw [if_pos hv63]
    simp only [htake, hdrop, hu, List.isEmpty_cons, Bool.false_eq_true, if_false]
    by_cases hmax : v ≤ 153722867
    · rw [if_pos hmax, if_neg (by omega), if_neg (by omega), parseDurationLoop_nil, Nat.zero_add]
    · rw [if_neg hmax, if_pos (by omega)]
  · rw [if_neg hv63, if_neg (by omega)]

/-- `time.ParseDuration` on `-`, digits and `m`: the negated minutes, unless
they exceed the largest number of minutes that fits. -/
theorem parseDuration_minutes (d : Char) (ds : List Char) (hd : isDigit d = true)
    (hds : IsDigits ds) :
    parseDuration (String.mk ('-' :: d :: ds ++ ['m'])) =
      if digitsValue 0 (d :: ds) ≤ maxMinutes then
        some (-(((digitsValue 0 (d :: ds) : Nat) : Int) * nsPerMinute))
      else none := by
  have hloop := parseDurationLoop_minutes (ds ++ ['m']).length d ds hd hds
  have hb : (d :: (ds ++ ['m']) : List Char) ≠ ['0'] := by
    intro h
    have := congrArg List.length h
    simp at this
  unfold parseDuration
  simp only [List.cons_append, List.head?_cons, List.tail_cons, true_or, if_true]
  rw [if_neg hb]
  simp only [List.isEmpty_cons, Bool.false_eq_true, if_false, List.length_cons]
  rw [hloop]
  generalize digitsValue 0 (d :: ds) = v
  by_cases hmax : v ≤ maxMinutes
  · rw [if_pos hmax, if_pos hmax]
    simp only [toInt64, nsPerMinute]
    unfold maxMinutes at hmax
    congr 1
    push_cast
    omega
  · rw [if_neg hmax, if_neg hmax]

/-! ## The first marker of the notes -/

theorem hasMarker_tail {x : Char} {xs : List Char} (h : hasMarker (x :: xs) = false) :
    hasMarker xs = false := by
  rw [hasMarker_cons] at h
  cases hx : hasMarker xs with
  | false => rfl
  | true => rw [hx] at h; simp at h

/-- The marker pattern does not match at a position of a text without marker,
when the text is followed by an exclamation mark. -/
theorem matchHere_duration_front (x : Char) (xs tail : List Char)
    (h : hasMarker (x :: xs) = false) :
    matchHere durationRe (x :: (xs ++ '!' :: tail)) = none := by
  cases hm : matchHere durationRe (x :: (xs ++ '!' :: tail)) with
  | none => rfl
  | some res =>
    exfalso
    unfold matchHere at hm
    obtain ⟨u, v, _, huv, hmat, _, _⟩ := matchRe_sound _ _ noCaps _ _ hm
    obtain ⟨d, ds, hd, _, hu⟩ := Matches.duration_inv (Matches.group_inv hmat)
    rw [hu] at huv
    simp only [List.cons_append, List.cons.injEq] at huv
    obtain ⟨hx, hrest⟩ := huv
    subst hx
    rw [hasMarker_cons] at h
    cases xs with
    | nil =>
      simp only [List.nil_append, List.cons.injEq] at hrest
      have := hrest.1
      cases this
    | cons y ys =>
      cases ys with
      | nil =>
        simp only [List.cons_append, List.nil_append, List.cons.injEq] at hrest
        have h2 := hrest.2.1
        rw [← h2] at hd
        cases hd
      | cons z zs =>
        simp only [List.cons_append, List.cons.injEq] at hrest
        obtain ⟨hy, hz, _⟩ := hrest
        subst hy hz
        simp [hd] at h

/-- At a marker the pattern takes `!-` and the whole run of digits, and captures
the hyphen with the digits. -/
theorem matchHere_duration_marker (d : Char) (ds rest : List Char) (hd : isDigit d = true)
    (hds : IsDigits ds) (hrest : ∀ x ∈ rest.head?, isDigit x = false) :
    matchHere durationRe ('!' :: '-' :: d :: (ds ++ rest)) =
      some (setCap (setCap noCaps 1 ('-' :: d :: ds)) 0 ('!' :: '-' :: d :: ds), rest) := by
  unfold matchHere durationRe
  rw [matchRe_group, matchRe_seq, matchRe_lit_cons, matchRe_group, matchRe_seq, matchRe_lit_cons,
    matchRe_seq]
  simp only [matchRe, reDigit, hd, if_true]
  apply starGreedy_of_dropWhile
  rw [dropWhile_blank_append reDigit ds rest hds hrest]
  have e1 : ('-' :: d :: (ds ++ rest)) = ('-' :: d :: ds) ++ rest := by simp
  have e2 : ('!' :: '-' :: d :: (ds ++ rest)) = ('!' :: '-' :: d :: ds) ++ rest := by simp
  rw [e2, take_length_sub_append, e1, take_length_sub_append]

/-- The leftmost match of the marker pattern is the first marker of the notes. -/
theorem search_duration_first (d : Char) (ds rest : List Char) (hd : isDigit d = true)
    (hds : IsDigits ds) (hrest : ∀ x ∈ rest.head?, isDigit x = false) :
    ∀ front : List Char, hasMarker front = false →
      search durationRe (front ++ '!' :: '-' :: d :: (ds ++ rest)) =
        some ⟨front, setCap (setCap noCaps 1 ('-' :: d :: ds)) 0 ('!' :: '-' :: d :: ds), rest⟩ := by
  intro front
  induction front with
  | nil =>
    intro _
    exact search_of_matchHere (matchHere_duration_marker d ds rest hd hds hrest)
  | cons x xs ih =>
    intro h
    rw [List.cons_append, search, matchHere_duration_front x xs _ h]
    simp only
    rw [ih (hasMarker_tail h)]

/-- Group 1 of a match of the marker pattern holds a hyphen and digits. -/
theorem search_duration_caps {s : List Char} {m : Match} (h : search durationRe s = some m) :
    ∃ (d : Char) (ds : List Char), isDigit d = true ∧ IsDigits ds ∧
      m.caps 1 = some ('-' :: d :: ds) := by
  obtain ⟨body, _, hm⟩ := search_sound durationRe s m h
  unfold matchHere durationRe at hm
  rw [matchRe_group, matchRe_seq] at hm
  obtain ⟨_, v1, c1, _, _, hk1, _⟩ := matchRe_sound (lit '!') body noCaps _ _ hm
  obtain ⟨u2, v2, c2, _, hmat, hk2, _⟩ := matchRe_group_sound 1 _ v1 c1 _ _ hk1
  simp only [Option.some.injEq, Prod.mk.injEq] at hk2
  obtain ⟨x1, x2, e1, h1, hx2⟩ := Matches.seq_inv hmat
  obtain ⟨x3, x4, e2, h3, h4⟩ := Matches.seq_inv hx2
  have l1 := Matches.lit_inv h1
  obtain ⟨d, hdx, hd⟩ := Matches.char_inv h3
  subst e1 e2 l1 hdx
  refine ⟨d, x4, hd, Matches.star_inv h4, ?_⟩
  rw [← hk2.1]
  simp [setCap]

/-- What `extractNotificationDuration` can return: nothing, or a hyphen, digits
and `m`. -/
theorem extract_cases (notes : String) :
    extractNotificationDuration notes = "" ∨
      ∃ (d : Char) (ds : List Char), isDigit d = true ∧ IsDigits ds ∧
        extractNotificationDuration notes = String.mk ('-' :: d :: ds ++ ['m']) := by
  cases hs : search durationRe notes.data with
  | none => exact Or.inl (extract_of_search_none hs)
  | some m =>
    obtain ⟨d, ds, hd, hds, hc⟩ := search_duration_caps hs
    refine Or.inr ⟨d, ds, hd, hds, ?_⟩
    rw [extract_of_search hs, hc]
    rfl

theorem leadDuration_eq (notes : String) :
    leadDuration notes =
      if notes ≠ "" then
        if extractNotificationDuration notes ≠ "" then
          match parseDuration (extractNotificationDuration notes) with
          | some d => (d, [])
          | none => (0, [LogEntry.durationParseFailed])
        else (0, [])
      else (0, []) := rfl

theorem minutes_string_ne (d : Char) (ds : List Char) :
    String.mk ('-' :: d :: ds ++ ['m']) ≠ "" := by
  intro h
  have := congrArg String.data h
  simp at this

/-- The lead time of `scheduleNotification` is never positive, and its negation
fits in a `time.Duration`. -/
theorem leadDuration_range (notes : String) :
    -(9223372036854775808 : Int) < (leadDuration notes).1 ∧ (leadDuration notes).1 ≤ 0 := by
  rcases extract_cases notes with he | ⟨d, ds, hd, hds, he⟩
  · rw [leadDuration_of_empty he]
    exact ⟨by decide, by decide⟩
  · rw [leadDuration_eq, he, parseDuration_minutes d ds hd hds]
    generalize digitsValue 0 (d :: ds) = v
    by_cases hn : notes = ""
    · rw [if_neg (by simp [hn])]
      exact ⟨by decide, by decide⟩
    · rw [if_pos hn, if_pos (minutes_string_ne d ds)]
      by_cases hmax : v ≤ maxMinutes
      · rw [if_pos hmax]
        show -(9223372036854775808 : Int) < -((v : Int) * nsPerMinute) ∧
          -((v : Int) * nsPerMinute) ≤ 0
        unfold maxMinutes at hmax
        unfold nsPerMinute
        constructor <;> omega
      · rw [if_neg hmax]
        exact ⟨by decide, by decide⟩

theorem toInt64_of_range (x : Int) (h0 : 0 ≤ x) (h1 : x < 9223372036854775808) :
    toInt64 x = x := by
  unfold toInt64
  norm_num
  omega

theorem timeSub_nonneg (t u : Int) (h : u ≤ t) : 0 ≤ timeSub t u := by
  unfold timeSub minDuration maxDuration
  norm_num
  split_ifs <;> omega

/-- The lead time read from notes whose first marker is `!-N`. -/
theorem leadDuration_marker (front rest : List Char) (d : Char) (ds : List Char)
    (hfront : hasMarker front = false) (hd : isDigit d = true) (hds : IsDigits ds)
    (hrest : ∀ x ∈ rest.head?, isDigit x = false) :
    extractNotificationDuration (String.mk (front ++ '!' :: '-' :: d :: (ds ++ rest))) =
      String.mk ('-' :: d :: ds ++ ['m']) ∧
    leadDuration (String.mk (front ++ '!' :: '-' :: d :: (ds ++ rest))) =
      if digitsValue 0 (d :: ds) ≤ maxMinutes then
        (-(((digitsValue 0 (d :: ds) : Nat) : Int) * nsPerMinute), [])
      else (0, [LogEntry.durationParseFailed]) := by
  have hs := search_duration_first d ds rest hd hds hrest front hfront
  have hex : extractNotificationDuration (String.mk (front ++ '!' :: '-' :: d :: (ds ++ rest))) =
      String.mk ('-' :: d :: ds ++ ['m']) := by
    rw [extract_of_search hs]
    simp [setCap]
  refine ⟨hex, ?_⟩
  have hne : String.mk (front ++ '!' :: '-' :: d :: (ds ++ rest)) ≠ "" := by
    intro h
    have := congrArg String.data h
    simp at this
  rw [leadDuration_eq, if_pos hne, hex, if_pos (minutes_string_ne d ds),
    parseDuration_minutes d ds hd hds]
  by_cases hmax : digitsValue 0 (d :: ds) ≤ maxMinutes
  · rw [if_pos hmax, if_pos hmax]
  · rw [if_neg hmax, if_neg hmax]

/-! ## The claims -/

/-- C1 (the code departs from the claim).  For the line `14:30-15:00;Review;!-10`
the parser yields the task the specification names, and the scheduler, run at any
instant, computes a notification instant 10 minutes after the resolved start
(14:40), not 10 minutes before it (14:20): the negative duration `-10m` is
subtracted. -/
theorem C1_notification_ten_minutes_late (now : Int) (sinkErr : Bool) :
    parseTaskLine "14:30-15:00;Review;!-10" = .ok ⟨"14:30", "15:00", "Review", "!-10"⟩ ∧
    ∃ f, scheduleNotification ⟨"14:30", "15:00", "Review", "!-10"⟩ now sinkErr = .fired f ∧
      f.resolved = resolveStart now 14 30 ∧
      f.duration = -(10 * nsPerMinute) ∧
      f.notificationTime = f.resolved + 10 * nsPerMinute ∧
      f.notificationTime ≠ f.resolved - 10 * nsPerMinute := by
  refine ⟨rfl, ?_⟩
  have h1 : timeParse "14:30" = some (14, 30) := rfl
  have h2 : leadDuration "!-10" = (-600000000000, []) := rfl
  refine ⟨_, by simp only [scheduleNotification, h1, h2]; rfl, rfl, rfl, rfl, ?_⟩
  simp only [nsPerMinute]
  have h3 : toInt64 (- -600000000000) = 600000000000 := rfl
  rw [h3]
  omega

/-- C2 (counterexample to the claim as stated).  The line `9;Standup [[team]]` has
no stop time, yet the Stop of the task is `00:00`, not the empty string. -/
theorem C2_stop_not_empty :
    parseTaskLine "9;Standup [[team]]" = .ok ⟨"09:00", "00:00", "Standup team", ""⟩ ∧
    ¬ ∃ t, parseTaskLine "9;Standup [[team]]" = .ok t ∧ t.Stop = "" := by
  refine ⟨rfl, ?_⟩
  rintro ⟨t, ht, hs⟩
  have h : parseTaskLine "9;Standup [[team]]" =
      .ok ⟨"09:00", "00:00", "Standup team", ""⟩ := rfl
  rw [h] at ht
  cases ht
  revert hs
  decide

/-- C2 (amended).  For every line that has a start time and no stop time, `H;…` or
`H:MM;…` (the hour of one or two digits, the minute of two, no line feed in what
follows the semicolon), `parseTaskLine` returns a task whose Start is the
zero-padded `HH:MM` and whose Stop is `00:00`: `formatTime` pads the absent stop
hour and minute like any other. -/
theorem C2_stop_is_midnight_without_stop_time (start : ClockText) (rest : List Char)
    (hstart : start.Valid) (hlf : NoLineFeed rest) :
    ∃ t, parseTaskLine (String.mk (start.text ++ ';' :: rest)) = .ok t ∧
      t.Start = start.canonical ∧ t.Stop = "00:00" ∧
      t.Description = parseWikiLink (trimSpace (String.mk (descriptionPart rest))) ∧
      t.Notes = trimSpace (String.mk (notesPart rest)) := by
  have h := parseTaskLine_range start none [] [] [] rest hstart (by simp)
    (by simp [IsBlank]) (by simp [IsBlank]) (by simp [IsBlank]) hlf
  have e : rangeText start none [] [] [] = start.text := by simp [rangeText]
  rw [e] at h
  exact ⟨_, h, rfl, rfl, rfl, rfl⟩

/-- C2 (amended), at the line `9;Standup [[team]]` of the specification. -/
theorem C2_stop_is_midnight_witness :
    ClockText.Valid ⟨['9'], none⟩ ∧ NoLineFeed "Standup [[team]]".data ∧
    ∃ t, parseTaskLine "9;Standup [[team]]" = .ok t ∧
      t.Start = "09:00" ∧ t.Stop = "00:00" ∧ t.Description = "Standup team" ∧ t.Notes = "" := by
  have hv : ClockText.Valid ⟨['9'], none⟩ := by
    refine ⟨⟨Or.inl rfl, ?_⟩, by simp⟩
    intro c hc
    simp only [List.mem_singleton] at hc
    subst hc
    rfl
  have hl : NoLineFeed "Standup [[team]]".data := by
    unfold NoLineFeed
    decide
  obtain ⟨t, ht, h1, h2, h3, h4⟩ :=
    C2_stop_is_midnight_without_stop_time ⟨['9'], none⟩ "Standup [[team]]".data hv hl
  exact ⟨hv, hl, t, ht, h1, h2, h3, h4⟩

/-- C4.  For every valid time range `T` and all texts `D` and `N` without line
feed, `D` without semicolon: on `T;D;N` the Description is the unwrapped, trimmed
`D` and the Notes are the trimmed `N` (which may contain semicolons), and on `T;D`
the Description is the unwrapped, trimmed `D` and the Notes are empty. -/
theorem C4_description_notes_split (T D N : String)
    (hT : IsTimeRange T.data) (hD : NoLineFeed D.data) (hN : NoLineFeed N.data)
    (hsemi : (';' : Char) ∉ D.data) :
    (∃ t, parseTaskLine (T ++ ";" ++ D ++ ";" ++ N) = .ok t ∧
      t.Description = parseWikiLink (trimSpace D) ∧ t.Notes = trimSpace N) ∧
    (∃ t, parseTaskLine (T ++ ";" ++ D) = .ok t ∧
      t.Description = parseWikiLink (trimSpace D) ∧ t.Notes = "") := by
  obtain ⟨⟨t1, ht1, hd1, hn1⟩, ⟨t2, ht2, hd2, hn2⟩⟩ :=
    parseTaskLine_description_notes T D N hT hD hN hsemi
  exact ⟨⟨t1, ht1, hd1, hn1⟩, ⟨t2, ht2, hd2, hn2⟩⟩

/-- C4, at the time range `14:30-15:00` with a description padded with white
space and notes that contain a semicolon. -/
theorem C4_description_notes_split_witness :
    (∃ t, parseTaskLine "14:30-15:00; Review [[plan]] ; !-10; bring notes " = .ok t ∧
      t.Description = "Review plan" ∧ t.Notes = "!-10; bring notes") ∧
    (∃ t, parseTaskLine "14:30-15:00; Review [[plan]] " = .ok t ∧
      t.Description = "Review plan" ∧ t.Notes = "") := by
  have hT : IsTimeRange "14:30-15:00".data := by
    refine ⟨⟨['1', '4'], some ['3', '0']⟩, some ⟨['1', '5'], some ['0', '0']⟩, [], [], [],
      ?_, ?_, by simp [IsBlank], by simp [IsBlank], by simp [IsBlank], rfl⟩
    · refine ⟨⟨Or.inr rfl, by unfold IsDigits; decide⟩, ?_⟩
      intro m hm
      simp only [Option.mem_def, Option.some.injEq] at hm
      subst hm
      exact ⟨rfl, by unfold IsDigits; decide⟩
    · intro st hst
      simp only [Option.mem_def, Option.some.injEq] at hst
      subst hst
      refine ⟨⟨Or.inr rfl, by unfold IsDigits; decide⟩, ?_⟩
      intro m hm
      simp only [Option.mem_def, Option.some.injEq] at hm
      subst hm
      exact ⟨rfl, by unfold IsDigits; decide⟩
  exact C4_description_notes_split "14:30-15:00" " Review [[plan]] " " !-10; bring notes " hT
    (by unfold NoLineFeed; decide) (by unfold NoLineFeed; decide) (by decide)

/-- C5.  For every line that begins with a time range `h1[:m1]-h2[:m2]` (hours of
one or two digits, minutes of two) followed by `;` and a description without line
feed, `parseTaskLine` returns a task whose Start is `h1` left-padded with `0` to
two digits, a colon and `m1`, or `00` when `m1` is absent, and whose Stop is the
same rendering of `h2` and `m2`. -/
theorem C5_start_stop_rendering (start stop : ClockText) (rest : List Char)
    (hstart : start.Valid) (hstop : stop.Valid) (hlf : NoLineFeed rest) :
    ∃ t, parseTaskLine (String.mk (start.text ++ '-' :: (stop.text ++ ';' :: rest))) = .ok t ∧
      t.Start = start.canonical ∧ t.Stop = stop.canonical := by
  have h := parseTaskLine_range start (some stop) [] [] [] rest hstart
    (by intro st hst; simp only [Option.mem_def, Option.some.injEq] at hst; subst hst; exact hstop)
    (by simp [IsBlank]) (by simp [IsBlank]) (by simp [IsBlank]) hlf
  have e : rangeText start (some stop) [] [] [] ++ ';' :: rest =
      start.text ++ '-' :: (stop.text ++ ';' :: rest) := by simp [rangeText]
  rw [e] at h
  exact ⟨_, h, rfl, rfl⟩

/-- C5, at the two lines of the specification: `14:30-15:00;Review;!-10` and
`9-10;x`. -/
theorem C5_start_stop_rendering_witness :
    (∃ t, parseTaskLine "14:30-15:00;Review;!-10" = .ok t ∧
      t.Start = "14:30" ∧ t.Stop = "15:00") ∧
    (∃ t, parseTaskLine "9-10;x" = .ok t ∧ t.Start = "09:00" ∧ t.Stop = "10:00") := by
  have v1 : ClockText.Valid ⟨['1', '4'], some ['3', '0']⟩ := by
    refine ⟨⟨Or.inr rfl, by unfold IsDigits; decide⟩, ?_⟩
    intro m hm
    simp only [Option.mem_def, Option.some.injEq] at hm
    subst hm
    exact ⟨rfl, by unfold IsDigits; decide⟩
  have v2 : ClockText.Valid ⟨['1', '5'], some ['0', '0']⟩ := by
    refine ⟨⟨Or.inr rfl, by unfold IsDigits; decide⟩, ?_⟩
    intro m hm
    simp only [Option.mem_def, Option.some.injEq] at hm
    subst hm
    exact ⟨rfl, by unfold IsDigits; decide⟩
  have v3 : ClockText.Valid ⟨['9'], none⟩ :=
    ⟨⟨Or.inl rfl, by unfold IsDigits; decide⟩, by simp⟩
  have v4 : ClockText.Valid ⟨['1', '0'], none⟩ :=
    ⟨⟨Or.inr rfl, by unfold IsDigits; decide⟩, by simp⟩
  exact ⟨C5_start_stop_rendering _ _ "Review;!-10".data v1 v2 (by unfold NoLineFeed; decide),
    C5_start_stop_rendering _ _ "x".data v3 v4 (by unfold NoLineFeed; decide)⟩

/-- C6 (counterexample to the claim as stated).  When `now` is exactly 14:30:00 on
some day, the instant resolved for the start `14:30` is `now` itself: it is not
moved to the next calendar day and it is not strictly after `now`. -/
theorem C6_resolved_equals_now :
    timeParse "14:30" = some (14, 30) ∧
    dateClock 7 14 30 = 657000000000000 ∧ dateOf 657000000000000 = 7 ∧
    ∃ f, scheduleNotification ⟨"14:30", "", "", ""⟩ 657000000000000 false = .fired f ∧
      f.resolved = 657000000000000 ∧ f.resolved ≠ dateClock 8 14 30 ∧
      ¬ (657000000000000 < f.resolved) := by
  refine ⟨rfl, rfl, rfl, _, rfl, rfl, ?_, ?_⟩ <;> decide

/-- C6 (amended).  For every start that the clock parse accepts and every instant
`now`, the instant resolved by `scheduleNotification` is `HH:MM:00` on the date
of `now` when that instant is at or after `now` (equality included), and
`HH:MM:00` on the next calendar day when it is strictly before `now`; hence the
resolved instant is never before `now`, and it is `now` itself only when `now` is
exactly `HH:MM:00`. -/
theorem C6_resolved_next_occurrence (t : Task) (hour minute : Nat) (now : Int)
    (sinkErr : Bool) (hparse : timeParse t.Start = some (hour, minute)) :
    ∃ f, scheduleNotification t now sinkErr = .fired f ∧
      (now ≤ dateClock (dateOf now) hour minute →
        f.resolved = dateClock (dateOf now) hour minute) ∧
      (dateClock (dateOf now) hour minute < now →
        f.resolved = dateClock (dateOf now + 1) hour minute ∧ now < f.resolved) ∧
      now ≤ f.resolved ∧
      (f.resolved = now ↔ dateClock (dateOf now) hour minute = now) := by
  refine ⟨_, by simp only [scheduleNotification, hparse]; rfl, ?_⟩
  show (now ≤ dateClock (dateOf now) hour minute →
        resolveStart now hour minute = dateClock (dateOf now) hour minute) ∧
      (dateClock (dateOf now) hour minute < now →
        resolveStart now hour minute = dateClock (dateOf now + 1) hour minute ∧
          now < resolveStart now hour minute) ∧
      now ≤ resolveStart now hour minute ∧
      (resolveStart now hour minute = now ↔ dateClock (dateOf now) hour minute = now)
  have hh : (0 : Int) ≤ (hour : Int) := Int.ofNat_nonneg hour
  have hm : (0 : Int) ≤ (minute : Int) := Int.ofNat_nonneg minute
  simp only [resolveStart, dateClock, dateOf, addDay, nsPerDay]
  norm_num
  split_ifs with hlt <;> refine ⟨?_, ?_, ?_, ?_⟩ <;> omega

/-- C6 (amended), at the start `14:30` with `now` at 15:00 of day 7: the resolved
instant is 14:30 of day 8. -/
theorem C6_resolved_next_occurrence_witness :
    timeParse (Task.Start ⟨"14:30", "", "", ""⟩) = some (14, 30) ∧
    ∃ f, scheduleNotification ⟨"14:30", "", "", ""⟩ (dateClock 7 15 0) false = .fired f ∧
      (dateClock 7 15 0 ≤ dateClock (dateOf (dateClock 7 15 0)) 14 30 →
        f.resolved = dateClock (dateOf (dateClock 7 15 0)) 14 30) ∧
      (dateClock (dateOf (dateClock 7 15 0)) 14 30 < dateClock 7 15 0 →
        f.resolved = dateClock (dateOf (dateClock 7 15 0) + 1) 14 30 ∧
          dateClock 7 15 0 < f.resolved) ∧
      dateClock 7 15 0 ≤ f.resolved ∧
      (f.resolved = dateClock 7 15 0 ↔
        dateClock (dateOf (dateClock 7 15 0)) 14 30 = dateClock 7 15 0) :=
  ⟨rfl, C6_resolved_next_occurrence ⟨"14:30", "", "", ""⟩ 14 30 (dateClock 7 15 0) false rfl⟩

/-- C7 (counterexample to the claim as stated).  A planning file whose only line
parses, but on which the scanner reports an error (such as a later line longer
than its buffer), makes `parsePlanningFile` return an error although no line
fails `parseTaskLine`; so does a file that cannot be opened. -/
theorem C7_error_without_bad_line :
    parseTaskLine "9;Standup" = .ok ⟨"09:00", "00:00", "Standup", ""⟩ ∧
    parsePlanningFile ⟨none, ["9;Standup"], some "bufio.Scanner: token too long"⟩ =
      .error "bufio.Scanner: token too long" ∧
    parsePlanningFile ⟨some "open plan.md: no such file or directory", ["9;Standup"], none⟩ =
      .error "open plan.md: no such file or directory" ∧
    ¬ ((∃ e, parsePlanningFile ⟨none, ["9;Standup"], some "bufio.Scanner: token too long"⟩ =
        .error e) ↔
      ∃ l ∈ ["9;Standup"], ∃ e, parseTaskLine l = .error e) := by
  refine ⟨rfl, rfl, rfl, ?_⟩
  intro h
  obtain ⟨l, hl, e, he⟩ := h.mp ⟨_, rfl⟩
  simp only [List.mem_singleton] at hl
  subst hl
  have h1 : parseTaskLine "9;Standup" = .ok ⟨"09:00", "00:00", "Standup", ""⟩ := rfl
  rw [h1] at he
  cases he

/-- C7 (amended).  Viewing the planning file as the list of its lines:
`parsePlanningFile` returns an error, and so no task, whenever at least one line
fails `parseTaskLine`, wherever that line sits and however many other lines are
well-formed; it returns an error exactly when the file cannot be opened, or a
line fails, or the scanner reports an error; and it returns tasks exactly when
the file opens, the scanner reports no error and every line parses, and then it
returns one task per line, in file order, each the task `parseTaskLine` returns
for that line. -/
theorem C7_error_iff_bad_line_or_read_error (file : PlanningFile) :
    ((∃ l ∈ file.lines, ∃ e, parseTaskLine l = .error e) →
      ∃ e, parsePlanningFile file = .error e) ∧
    ((∃ e, parsePlanningFile file = .error e) ↔
      file.openErr ≠ none ∨ (∃ l ∈ file.lines, ∃ e, parseTaskLine l = .error e) ∨
        file.scanErr ≠ none) ∧
    (∀ tasks, parsePlanningFile file = .ok tasks ↔
      file.openErr = none ∧ file.scanErr = none ∧
        file.lines.map parseTaskLine = tasks.map Except.ok) ∧
    (file.openErr = none → file.scanErr = none →
      (∀ l ∈ file.lines, ∃ t, parseTaskLine l = .ok t) →
      ∃ tasks, parsePlanningFile file = .ok tasks ∧ tasks.length = file.lines.length ∧
        file.lines.map parseTaskLine = tasks.map Except.ok) := by
  have hok : ∀ tasks, parseLines file.lines [] = .ok tasks ↔
      file.lines.map parseTaskLine = tasks.map Except.ok := by
    intro tasks
    rw [parseLines_ok_iff]
    constructor
    · rintro ⟨new, h1, h2⟩
      rw [h2, List.nil_append]
      exact h1
    · intro h
      exact ⟨tasks, h, by simp⟩
  have hbad : (∃ l ∈ file.lines, ∃ e, parseTaskLine l = .error e) →
      ∃ e, parsePlanningFile file = .error e := by
    rintro ⟨l, hl, e, he⟩
    exact parsePlanningFile_error_of_line file l hl e he
  have hgood : ∀ tasks, parsePlanningFile file = .ok tasks ↔
      file.openErr = none ∧ file.scanErr = none ∧
        file.lines.map parseTaskLine = tasks.map Except.ok := by
    intro tasks
    constructor
    · intro h
      unfold parsePlanningFile at h
      cases ho : file.openErr with
      | some err => rw [ho] at h; cases h
      | none =>
        rw [ho] at h
        cases hres : parseLines file.lines [] with
        | error e => rw [hres] at h; cases h
        | ok ts =>
          rw [hres] at h
          cases hs : file.scanErr with
          | some err => rw [hs] at h; cases h
          | none =>
            rw [hs] at h
            have hts : ts = tasks := Except.ok.inj h
            rw [← hts]
            exact ⟨rfl, rfl, (hok ts).mp hres⟩
    · rintro ⟨ho, hs, hmap⟩
      rw [parsePlanningFile_eq file ho hs]
      exact (hok tasks).mpr hmap
  refine ⟨hbad, ?_, hgood, ?_⟩
  · constructor
    · rintro ⟨e, he⟩
      by_cases ho : file.openErr = none
      · by_cases hs : file.scanErr = none
        · right
          left
          rw [parsePlanningFile_eq file ho hs] at he
          exact (parseLines_error_iff file.lines []).mp ⟨e, he⟩
        · exact Or.inr (Or.inr hs)
      · exact Or.inl ho
    · rintro (ho | hl | hs)
      · cases hres : parsePlanningFile file with
        | error e => exact ⟨e, rfl⟩
        | ok tasks => exact absurd ((hgood tasks).mp hres).1 ho
      · exact hbad hl
      · cases hres : parsePlanningFile file with
        | error e => exact ⟨e, rfl⟩
        | ok tasks => exact absurd ((hgood tasks).mp hres).2.1 hs
  · intro ho hs hall
    rw [parsePlanningFile_eq file ho hs]
    cases hres : parseLines file.lines [] with
    | error e =>
      obtain ⟨l, hl, e', he'⟩ := (parseLines_error_iff file.lines []).mp ⟨e, hres⟩
      obtain ⟨t, ht⟩ := hall l hl
      rw [ht] at he'
      cases he'
    | ok tasks =>
      have h := (hok tasks).mp hres
      refine ⟨tasks, rfl, ?_, h⟩
      have := congrArg List.length h
      simpa using this.symm

/-- C7 (amended), at a file of three lines whose second line is blank, with and
without an error of the scanner, and at the same file without the blank line. -/
theorem C7_error_iff_witness :
    (∃ e, parsePlanningFile ⟨none, ["9;Standup", "", "14:30-15:00;Review;!-10"], none⟩ =
      .error e) ∧
    (∃ e, parsePlanningFile ⟨none, ["9;Standup", "", "14:30-15:00;Review;!-10"],
      some "bufio.Scanner: token too long"⟩ = .error e) ∧
    parsePlanningFile ⟨none, ["9;Standup", "", "14:30-15:00;Review;!-10"], none⟩ =
      .error "invalid task format: " ∧
    parsePlanningFile ⟨none, ["9;Standup", "14:30-15:00;Review;!-10"], none⟩ =
      .ok [⟨"09:00", "00:00", "Standup", ""⟩, ⟨"14:30", "15:00", "Review", "!-10"⟩] :=
  ⟨(C7_error_iff_bad_line_or_read_error
      ⟨none, ["9;Standup", "", "14:30-15:00;Review;!-10"], none⟩).1
      ⟨"", by simp, "invalid task format: ", rfl⟩,
    (C7_error_iff_bad_line_or_read_error
      ⟨none, ["9;Standup", "", "14:30-15:00;Review;!-10"],
        some "bufio.Scanner: token too long"⟩).1
      ⟨"", by simp, "invalid task format: ", rfl⟩,
    rfl,
    ((C7_error_iff_bad_line_or_read_error
      ⟨none, ["9;Standup", "14:30-15:00;Review;!-10"], none⟩).2.2.1
      [⟨"09:00", "00:00", "Standup", ""⟩, ⟨"14:30", "15:00", "Review", "!-10"⟩]).mpr
      ⟨rfl, rfl, rfl⟩⟩

/-- C3 (counterexample to the claim as stated).  The pattern is not anchored at
the start of the line, so the three lines the claim names as failing are
accepted: with text before the start hour, with a three-digit hour (read as
`23`), with a one-digit minute (the `5` is read as the hour). -/
theorem C3_unanchored_lines_accepted :
    parseTaskLine "note 9;x" = .ok ⟨"09:00", "00:00", "x", ""⟩ ∧
    parseTaskLine "123;x" = .ok ⟨"23:00", "00:00", "x", ""⟩ ∧
    parseTaskLine "10:5;x" = .ok ⟨"05:00", "00:00", "x", ""⟩ :=
  ⟨rfl, rfl, rfl⟩

/-- C3 (amended).  For every line (a text without line feed), `parseTaskLine`
returns a task if and only if the line, from some position on, has the form
`H[:MM][-H[:MM]];rest` with each hour of one or two digits, each minute of
exactly two digits after a colon, and optional white space after the start time,
after the hyphen and before the semicolon; the text before that position is
ignored.  Every other line fails with the error `invalid task format`. -/
theorem C3_task_form_somewhere_in_line (line : String) (hlf : NoLineFeed line.data) :
    ((∃ t, parseTaskLine line = .ok t) ↔ HasTaskForm line.data) ∧
    (¬ HasTaskForm line.data →
      parseTaskLine line = .error ("invalid task format: " ++ line)) := by
  have key := search_task_isSome_iff line.data hlf
  constructor
  · constructor
    · rintro ⟨t, ht⟩
      apply key.mp
      cases hs : search taskRe line.data with
      | none =>
        rw [parseTaskLine_of_search_none hs] at ht
        cases ht
      | some m => rfl
    · intro hform
      have h := key.mpr hform
      cases hs : search taskRe line.data with
      | none => rw [hs] at h; cases h
      | some m => exact ⟨_, parseTaskLine_of_search line hs⟩
  · intro hno
    cases hs : search taskRe line.data with
    | none => exact parseTaskLine_of_search_none hs
    | some m =>
      exfalso
      apply hno
      apply key.mp
      rw [hs]
      rfl

/-- C3 (amended), at the line `10:5;x`, where the form starts at the `5`, and at
the line `10:5 x`, which has no semicolon and fails. -/
theorem C3_task_form_witness :
    ((∃ t, parseTaskLine "10:5;x" = .ok t) ↔ HasTaskForm "10:5;x".data) ∧
    HasTaskForm "10:5;x".data ∧
    parseTaskLine "10:5 x" = .error "invalid task format: 10:5 x" := by
  refine ⟨(C3_task_form_somewhere_in_line "10:5;x" (by unfold NoLineFeed; decide)).1, ?_, rfl⟩
  refine ⟨['1', '0', ':'], ['5'], ['x'], ⟨⟨['5'], none⟩, none, [], [], [], ?_, by simp,
    by simp [IsBlank], by simp [IsBlank], by simp [IsBlank], rfl⟩, rfl⟩
  exact ⟨⟨Or.inl rfl, by unfold IsDigits; decide⟩, by simp⟩

/-- C8 (counterexample to the claim as stated).  The line `25:99;x` parses, its
Start `25:99` is rejected by the clock parse of the scheduler, and the scheduler
unit takes its failure branch. -/
theorem C8_start_out_of_range :
    parseTaskLine "25:99;x" = .ok ⟨"25:99", "00:00", "x", ""⟩ ∧
    timeParse "25:99" = none ∧
    scheduleNotification ⟨"25:99", "00:00", "x", ""⟩ 0 false =
      .aborted [LogEntry.startParseFailed] :=
  ⟨rfl, rfl, rfl⟩

/-- C8 (amended).  For every line on which `parseTaskLine` succeeds, the Start is
two digits, a colon and two digits, and the clock parse of the scheduler accepts
it exactly when the hour is below 24 and the minute below 60 (the pattern checks
digits, not ranges); otherwise the scheduler unit takes its failure branch: it
logs and returns. -/
theorem C8_start_shape_and_clock_parse (line : String) (t : Task)
    (h : parseTaskLine line = .ok t) :
    ∃ p q r s : Char, isDigit p = true ∧ isDigit q = true ∧ isDigit r = true ∧
      isDigit s = true ∧ t.Start = String.mk [p, q, ':', r, s] ∧
      (timeParse t.Start =
        if digitVal p * 10 + digitVal q < 24 ∧ digitVal r * 10 + digitVal s < 60 then
          some (digitVal p * 10 + digitVal q, digitVal r * 10 + digitVal s)
        else none) ∧
      ∀ (now : Int) (sinkErr : Bool),
        scheduleNotification t now sinkErr = .aborted [LogEntry.startParseFailed] ↔
          ¬ (digitVal p * 10 + digitVal q < 24 ∧ digitVal r * 10 + digitVal s < 60) := by
  obtain ⟨c, hc, hstart⟩ := parseTaskLine_start h
  obtain ⟨p, q, r, s, hp, hq, hr, hs, hshape⟩ := canonical_shape c hc
  have hparse := timeParse_shape p q r s hp hq hr hs
  rw [← hshape, ← hstart] at hparse
  refine ⟨p, q, r, s, hp, hq, hr, hs, by rw [hstart, hshape], hparse, ?_⟩
  intro now sinkErr
  unfold scheduleNotification
  rw [hparse]
  by_cases hrange : digitVal p * 10 + digitVal q < 24 ∧ digitVal r * 10 + digitVal s < 60
  · rw [if_pos hrange]
    simp [hrange]
  · rw [if_neg hrange]
    simp [hrange]

/-- C8 (amended), at the lines `9:05;x`, whose Start is accepted, and `9:60;x`,
whose Start is not. -/
theorem C8_start_shape_witness :
    parseTaskLine "9:60;x" = .ok ⟨"09:60", "00:00", "x", ""⟩ ∧
    ∃ p q r s : Char, isDigit p = true ∧ isDigit q = true ∧ isDigit r = true ∧
      isDigit s = true ∧ Task.Start ⟨"09:60", "00:00", "x", ""⟩ = String.mk [p, q, ':', r, s] ∧
      (timeParse (Task.Start ⟨"09:60", "00:00", "x", ""⟩) =
        if digitVal p * 10 + digitVal q < 24 ∧ digitVal r * 10 + digitVal s < 60 then
          some (digitVal p * 10 + digitVal q, digitVal r * 10 + digitVal s)
        else none) ∧
      ∀ (now : Int) (sinkErr : Bool),
        scheduleNotification ⟨"09:60", "00:00", "x", ""⟩ now sinkErr =
            .aborted [LogEntry.startParseFailed] ↔
          ¬ (digitVal p * 10 + digitVal q < 24 ∧ digitVal r * 10 + digitVal s < 60) :=
  ⟨rfl, C8_start_shape_and_clock_parse "9:60;x" ⟨"09:60", "00:00", "x", ""⟩ rfl⟩

/-- C10.  For every description made of text pieces free of `[` and `]` and of
links `[[X]]` whose inner texts are free of `[`, `]` and line feeds, in any number
and order, `parseWikiLink` returns the same text with every `[[X]]` replaced by
`X` and everything else unchanged; and a description that does not contain `[[`
is returned unchanged. -/
theorem C10_links_unwrapped :
    (∀ ps : List Piece, (∀ p ∈ ps, p.Plain) →
      parseWikiLink (String.mk (sourceText ps)) = String.mk (unwrappedText ps)) ∧
    (∀ d : String, hasDelim '[' d.data = false → parseWikiLink d = d) := by
  refine ⟨parseWikiLink_pieces, ?_⟩
  intro d hd
  unfold parseWikiLink
  simp only [replaceAllGroup1, search_wiki_none d.data hd]

/-- C10, at the description `Standup [[team]] and [[Q3 plan]]!` and at the
description `a [b] ]] c`, which has no `[[`. -/
theorem C10_links_unwrapped_witness :
    parseWikiLink "Standup [[team]] and [[Q3 plan]]!" = "Standup team and Q3 plan!" ∧
    parseWikiLink "a [b] ]] c" = "a [b] ]] c" := by
  constructor
  · refine C10_links_unwrapped.1 [.text "Standup ".data, .link "team".data, .text " and ".data,
      .link "Q3 plan".data, .text "!".data] ?_
    intro p hp
    simp only [List.mem_cons, List.mem_singleton, List.not_mem_nil, or_false] at hp
    rcases hp with rfl | rfl | rfl | rfl | rfl <;> (unfold Piece.Plain; decide)
  · exact C10_links_unwrapped.2 "a [b] ]] c" (by decide)

/-- C9 (counterexample to the claim as stated).  The links are unwrapped in one
pass from left to right, so delimiters that are nested or unbalanced survive:
the line `9;[[[[a]]b]]` parses to the Description `[[ab]]`, which contains both
delimiters, and the line `9;x]]` keeps its `]]`.  A semicolon inside a link cuts
the link in two: the line `9;[[a;b]]` parses to the Description `[[a` and the
Notes `b]]`. -/
theorem C9_delimiters_survive :
    parseTaskLine "9;[[[[a]]b]]" = .ok ⟨"09:00", "00:00", "[[ab]]", ""⟩ ∧
    hasDelim '[' "[[ab]]".data = true ∧ hasDelim ']' "[[ab]]".data = true ∧
    parseTaskLine "9;x]]" = .ok ⟨"09:00", "00:00", "x]]", ""⟩ ∧
    hasDelim ']' "x]]".data = true ∧
    parseTaskLine "9;[[a;b]]" = .ok ⟨"09:00", "00:00", "[[a", "b]]"⟩ ∧
    hasDelim '[' "[[a".data = true :=
  ⟨rfl, rfl, rfl, rfl, rfl, rfl, rfl⟩

/-- C9 (amended).  For every line `T;D` or `T;D;N` with a valid time range `T`,
notes `N` without line feed, and a description `D` that contains no semicolon
and no line feed and is made of text free of `[` and `]` and of links `[[X]]`
with inner texts free of `[`, `]` and line feeds, the resulting Description
contains no square bracket at all, hence neither the opening delimiter `[[` nor
the closing delimiter `]]`. -/
theorem C9_no_delimiter_after_plain_links (T N : String) (ps : List Piece)
    (hT : IsTimeRange T.data) (hps : ∀ p ∈ ps, p.Plain)
    (hsemi : (';' : Char) ∉ sourceText ps) (hlf : NoLineFeed (sourceText ps))
    (hN : NoLineFeed N.data) :
    (∃ t, parseTaskLine (T ++ ";" ++ String.mk (sourceText ps)) = .ok t ∧
      (∀ c ∈ t.Description.data, noBracket c = true) ∧
      hasDelim '[' t.Description.data = false ∧ hasDelim ']' t.Description.data = false) ∧
    (∃ t, parseTaskLine (T ++ ";" ++ String.mk (sourceText ps) ++ ";" ++ N) = .ok t ∧
      (∀ c ∈ t.Description.data, noBracket c = true) ∧
      hasDelim '[' t.Description.data = false ∧ hasDelim ']' t.Description.data = false) := by
  obtain ⟨⟨t1, ht1, hd1, _⟩, ⟨t2, ht2, hd2, _⟩⟩ :=
    parseTaskLine_description_notes T (String.mk (sourceText ps)) N hT hlf hN hsemi
  have hnb := parseWikiLink_trim_pieces ps hps
  have hopen : hasDelim '[' (parseWikiLink (trimSpace (String.mk (sourceText ps)))).data =
      false := hasDelim_of_none '[' _ (fun c hc => (noBracket_ne (hnb c hc)).1)
  have hclose : hasDelim ']' (parseWikiLink (trimSpace (String.mk (sourceText ps)))).data =
      false := hasDelim_of_none ']' _ (fun c hc => (noBracket_ne (hnb c hc)).2)
  constructor
  · refine ⟨t2, ht2, ?_, ?_, ?_⟩ <;> rw [hd2]
    · exact hnb
    · exact hopen
    · exact hclose
  · refine ⟨t1, ht1, ?_, ?_, ?_⟩ <;> rw [hd1]
    · exact hnb
    · exact hopen
    · exact hclose

/-- C9 (amended), at the line `9; Standup [[team]] and [[Q3 plan]] ;room 2`. -/
theorem C9_no_delimiter_witness :
    parseTaskLine "9; Standup [[team]] and [[Q3 plan]] ;room 2" =
      .ok ⟨"09:00", "00:00", "Standup team and Q3 plan", "room 2"⟩ ∧
    ∃ t, parseTaskLine ("9" ++ ";" ++ String.mk (sourceText [.text " Standup ".data,
        .link "team".data, .text " and ".data, .link "Q3 plan".data, .text " ".data]) ++ ";" ++
        "room 2") = .ok t ∧
      (∀ c ∈ t.Description.data, noBracket c = true) ∧
      hasDelim '[' t.Description.data = false ∧ hasDelim ']' t.Description.data = false := by
  refine ⟨rfl, ?_⟩
  have hT : IsTimeRange "9".data :=
    ⟨⟨['9'], none⟩, none, [], [], [], ⟨⟨Or.inl rfl, by unfold IsDigits; decide⟩, by simp⟩,
      by simp, by simp [IsBlank], by simp [IsBlank], by simp [IsBlank], rfl⟩
  refine (C9_no_delimiter_after_plain_links "9" "room 2" _ hT ?_ (by decide)
    (by unfold NoLineFeed; decide) (by unfold NoLineFeed; decide)).2
  intro p hp
  simp only [List.mem_cons, List.mem_singleton, List.not_mem_nil, or_false] at hp
  rcases hp with rfl | rfl | rfl | rfl | rfl <;> (unfold Piece.Plain; decide)

/-- C15.  For every hour string, in particular every hour of one or two digits,
`formatTime h ""` equals `formatTime h "00"`. -/
theorem C15_empty_minute_is_double_zero (h : String) :
    formatTime h "" = formatTime h "00" ∧
    formatTime h "" = String.mk (pad2 h.data ++ [':', '0', '0']) := by
  have hne : ("00" : String) ≠ "" := by decide
  unfold formatTime
  rw [if_pos rfl, if_neg hne]
  exact ⟨rfl, rfl⟩

/-- C16.  `formatTime` is a total function, and for every hour `h` of one or two
digits and every minute `m` that is empty or exactly two digits it returns a
string of five characters: `h` left-padded with `0` to width 2, a colon, and `m`,
or `00` when `m` is empty. -/
theorem C16_formatTime_five_characters (h m : String)
    (hh : IsHourText h.data) (hm : m = "" ∨ IsMinuteText m.data) :
    formatTime h m =
      String.mk (List.replicate (2 - h.data.length) '0' ++ h.data ++
        ':' :: (if m = "" then ['0', '0'] else m.data)) ∧
    (formatTime h m).data.length = 5 ∧ IsClockShape (formatTime h m) := by
  have hc : (ClockText.mk h.data (if m = "" then none else some m.data)).Valid := by
    refine ⟨hh, ?_⟩
    intro x hx
    rcases hm with rfl | hm
    · simp at hx
    · by_cases he : m = ""
      · subst he
        simp at hx
      · simp only [he, if_false, Option.mem_def, Option.some.injEq] at hx
        subst hx
        exact hm
  have hfmt : formatTime h m =
      String.mk (List.replicate (2 - h.data.length) '0' ++ h.data ++
        ':' :: (if m = "" then ['0', '0'] else m.data)) := by
    unfold formatTime
    by_cases he : m = ""
    · subst he
      rfl
    · simp only [he, if_false]
      rcases hm with hm | hm
      · exact absurd hm he
      · have : pad2 m.data = m.data := by
          unfold pad2
          rw [hm.1]
          rfl
        rw [this]
        rfl
  have hcanon : formatTime h m = (ClockText.mk h.data (if m = "" then none else some m.data)).canonical := by
    rw [hfmt]
    unfold ClockText.canonical pad2
    by_cases he : m = ""
    · simp [he]
    · simp [he]
  obtain ⟨p, q, r, t, hp, hq, hr, ht, hshape⟩ := canonical_shape _ hc
  refine ⟨hfmt, ?_, ⟨p, q, r, t, hp, hq, hr, ht, by rw [hcanon, hshape]⟩⟩
  rw [hcanon, hshape]
  rfl

/-- C16, at the hour `9` without minute and at the hour `14` with the minute
`30`. -/
theorem C16_formatTime_witness :
    (formatTime "9" "" = "09:00" ∧ (formatTime "9" "").data.length = 5) ∧
    (formatTime "14" "30" = "14:30" ∧ (formatTime "14" "30").data.length = 5) := by
  have h1 := C16_formatTime_five_characters "9" ""
    ⟨Or.inl rfl, by unfold IsDigits; decide⟩ (Or.inl rfl)
  have h2 := C16_formatTime_five_characters "14" "30"
    ⟨Or.inr rfl, by unfold IsDigits; decide⟩ (Or.inr ⟨rfl, by unfold IsDigits; decide⟩)
  exact ⟨⟨h1.1, h1.2.1⟩, ⟨h2.1, h2.2.1⟩⟩

/-- C13.  For every notes string without a lead-time marker (no `!-` immediately
followed by a digit), the empty string included, `extractNotificationDuration`
returns the empty string, the lead time used by `scheduleNotification` is zero
and nothing is logged for it, so the notification instant is the resolved start
instant. -/
theorem C13_no_marker_no_lead_time (t : Task) (now : Int) (sinkErr : Bool) (hour minute : Nat)
    (hmark : hasMarker t.Notes.data = false)
    (hparse : timeParse t.Start = some (hour, minute)) :
    extractNotificationDuration t.Notes = "" ∧
    leadDuration t.Notes = (0, []) ∧
    ∃ f, scheduleNotification t now sinkErr = .fired f ∧
      f.duration = 0 ∧ f.notificationTime = f.resolved := by
  have hex := extract_of_search_none (search_duration_none t.Notes.data hmark)
  have hlead := leadDuration_of_empty hex
  refine ⟨hex, hlead, _, scheduleNotification_fired t now sinkErr hour minute hparse, ?_, ?_⟩
  · show (leadDuration t.Notes).1 = 0
    rw [hlead]
  · show resolveStart now hour minute + toInt64 (-(leadDuration t.Notes).1) =
      resolveStart now hour minute
    rw [hlead]
    show resolveStart now hour minute + 0 = resolveStart now hour minute
    omega

/-- C13, at the notes `bring !- 5 slides` (the `!-` is not followed by a digit)
and at the empty notes. -/
theorem C13_no_marker_witness :
    (extractNotificationDuration "bring !- 5 slides" = "" ∧
      ∃ f, scheduleNotification ⟨"14:30", "00:00", "x", "bring !- 5 slides"⟩ 0 false = .fired f ∧
        f.duration = 0 ∧ f.notificationTime = f.resolved) ∧
    (extractNotificationDuration "" = "" ∧
      ∃ f, scheduleNotification ⟨"14:30", "00:00", "x", ""⟩ 0 false = .fired f ∧
        f.duration = 0 ∧ f.notificationTime = f.resolved) := by
  have h1 := C13_no_marker_no_lead_time ⟨"14:30", "00:00", "x", "bring !- 5 slides"⟩ 0 false
    14 30 (by decide) rfl
  have h2 := C13_no_marker_no_lead_time ⟨"14:30", "00:00", "x", ""⟩ 0 false 14 30 (by decide) rfl
  exact ⟨⟨h1.1, h1.2.2⟩, ⟨h2.1, h2.2.2⟩⟩

/-- C14.  For every clock value and every two instants `now1` and `now2` on the
same calendar date, the time of day of `now1` before the clock value and that of
`now2` after it, the instant resolved against `now2` is exactly 24 hours (one
day of the model) later than the instant resolved against `now1`. -/
theorem C14_rollover_is_one_day (t : Task) (hour minute : Nat) (now1 now2 : Int)
    (sinkErr : Bool) (hparse : timeParse t.Start = some (hour, minute))
    (hdate : dateOf now1 = dateOf now2)
    (h1 : timeOfDay now1 < clockNanos hour minute)
    (h2 : clockNanos hour minute < timeOfDay now2) :
    ∃ f1 f2, scheduleNotification t now1 sinkErr = .fired f1 ∧
      scheduleNotification t now2 sinkErr = .fired f2 ∧
      f2.resolved = f1.resolved + 24 * 3600 * 1000000000 := by
  refine ⟨_, _, scheduleNotification_fired t now1 sinkErr hour minute hparse,
    scheduleNotification_fired t now2 sinkErr hour minute hparse, ?_⟩
  show resolveStart now2 hour minute = resolveStart now1 hour minute + 24 * 3600 * 1000000000
  simp only [resolveStart, dateClock_eq, addDay, ← hdate]
  generalize clockNanos hour minute = c at h1 h2
  simp only [timeOfDay, dateOf, nsPerDay] at *
  norm_num at *
  split_ifs <;> omega

/-- C14, at the clock value 14:30 with `now1` at 12:00 and `now2` at 15:00 of
day 7. -/
theorem C14_rollover_witness :
    dateOf (dateClock 7 12 0) = dateOf (dateClock 7 15 0) ∧
    timeOfDay (dateClock 7 12 0) < clockNanos 14 30 ∧
    clockNanos 14 30 < timeOfDay (dateClock 7 15 0) ∧
    ∃ f1 f2, scheduleNotification ⟨"14:30", "", "", ""⟩ (dateClock 7 12 0) false = .fired f1 ∧
      scheduleNotification ⟨"14:30", "", "", ""⟩ (dateClock 7 15 0) false = .fired f2 ∧
      f2.resolved = f1.resolved + 24 * 3600 * 1000000000 :=
  ⟨by decide, by decide, by decide,
    C14_rollover_is_one_day ⟨"14:30", "", "", ""⟩ 14 30 (dateClock 7 12 0) (dateClock 7 15 0)
      false rfl (by decide) (by decide) (by decide)⟩

/-- C17.  For every task whose start time resolves, the scheduler unit prints the
same console record, the banner, the Start of the task, its Description and the
closing rule, whether the notification command succeeds or fails; a failure adds
one log entry and changes nothing else. -/
theorem C17_console_record_despite_sink_failure (t : Task) (now : Int) (hour minute : Nat)
    (hparse : timeParse t.Start = some (hour, minute)) :
    ∃ f, scheduleNotification t now false = .fired f ∧
      scheduleNotification t now true = .fired { f with log := f.log ++ [LogEntry.sinkFailed] } ∧
      f.console = ["\n--- Task Starting ---\n", "Time: " ++ t.Start ++ "\n",
        "Description: " ++ t.Description ++ "\n", "---------------------\n"] := by
  refine ⟨_, scheduleNotification_fired t now false hour minute hparse, ?_, rfl⟩
  rw [scheduleNotification_fired t now true hour minute hparse]
  simp

/-- C17, at the task of the line `14:30-15:00;Review;!-10`. -/
theorem C17_console_record_witness :
    ∃ f, scheduleNotification ⟨"14:30", "15:00", "Review", "!-10"⟩ 0 false = .fired f ∧
      scheduleNotification ⟨"14:30", "15:00", "Review", "!-10"⟩ 0 true =
        .fired { f with log := f.log ++ [LogEntry.sinkFailed] } ∧
      f.console = ["\n--- Task Starting ---\n", "Time: " ++ "14:30" ++ "\n",
        "Description: " ++ "Review" ++ "\n", "---------------------\n"] :=
  C17_console_record_despite_sink_failure ⟨"14:30", "15:00", "Review", "!-10"⟩ 0 14 30 rfl

/-- C11.  For every line on which `parseTaskLine` succeeds, the Start is exactly
five characters of the shape digit digit `:` digit digit, and so is the Stop
(which is never empty: without a stop time it is `00:00`); in particular the Stop
has that shape whenever it is not empty. -/
theorem C11_start_stop_shape (line : String) (t : Task) (h : parseTaskLine line = .ok t) :
    IsClockShape t.Start ∧ t.Start.data.length = 5 ∧
    (t.Stop ≠ "" → IsClockShape t.Stop ∧ t.Stop.data.length = 5) ∧
    t.Stop ≠ "" := by
  have len5 : ∀ s : String, IsClockShape s → s.data.length = 5 := by
    rintro s ⟨p, q, r, u, _, _, _, _, hs⟩
    rw [hs]
    rfl
  have hstart : IsClockShape t.Start := by
    obtain ⟨c, hc, hst⟩ := parseTaskLine_start h
    obtain ⟨p, q, r, u, hp, hq, hr, hu, hshape⟩ := canonical_shape c hc
    exact ⟨p, q, r, u, hp, hq, hr, hu, by rw [hst, hshape]⟩
  have hstop : IsClockShape t.Stop := by
    rcases parseTaskLine_stop h with h0 | ⟨c, hc, hst⟩
    · exact ⟨'0', '0', '0', '0', rfl, rfl, rfl, rfl, by rw [h0]⟩
    · obtain ⟨p, q, r, u, hp, hq, hr, hu, hshape⟩ := canonical_shape c hc
      exact ⟨p, q, r, u, hp, hq, hr, hu, by rw [hst, hshape]⟩
  refine ⟨hstart, len5 _ hstart, fun _ => ⟨hstop, len5 _ hstop⟩, ?_⟩
  intro he
  have := len5 _ hstop
  rw [he] at this
  cases this

/-- C11, at the line `note 7:05 - 9 ; walk`. -/
theorem C11_start_stop_shape_witness :
    parseTaskLine "note 7:05 - 9 ; walk" = .ok ⟨"07:05", "09:00", "walk", ""⟩ ∧
    IsClockShape "07:05" ∧ IsClockShape "09:00" := by
  have h := C11_start_stop_shape "note 7:05 - 9 ; walk" ⟨"07:05", "09:00", "walk", ""⟩ rfl
  exact ⟨rfl, h.1, (h.2.2.1 h.2.2.2).1⟩

/-- C20.  Every line without a semicolon and every line without a decimal digit
fails `parseTaskLine` with an error; in particular the empty line and every line
of white space only fail, so a planning file with a blank line makes
`parsePlanningFile` fail. -/
theorem C20_lines_without_semicolon_or_digit_fail :
    (∀ line : String, (';' : Char) ∉ line.data →
      parseTaskLine line = .error ("invalid task format: " ++ line)) ∧
    (∀ line : String, (∀ c ∈ line.data, isDigit c = false) →
      parseTaskLine line = .error ("invalid task format: " ++ line)) ∧
    parseTaskLine "" = .error "invalid task format: " ∧
    (∀ line : String, (∀ c ∈ line.data, unicodeIsSpace c = true) →
      parseTaskLine line = .error ("invalid task format: " ++ line)) ∧
    (∀ (file : PlanningFile) (l : String), l ∈ file.lines →
      (∀ c ∈ l.data, unicodeIsSpace c = true) →
      ∃ e, parsePlanningFile file = .error e) := by
  have hsemi : ∀ line : String, (';' : Char) ∉ line.data →
      parseTaskLine line = .error ("invalid task format: " ++ line) := by
    intro line h
    apply parseTaskLine_error_of_no_form
    intro hform
    exact h (taskForm_semicolon_digit hform).1
  have hdigit : ∀ line : String, (∀ c ∈ line.data, isDigit c = false) →
      parseTaskLine line = .error ("invalid task format: " ++ line) := by
    intro line h
    apply parseTaskLine_error_of_no_form
    intro hform
    obtain ⟨c, hc, hd⟩ := (taskForm_semicolon_digit hform).2
    rw [h c hc] at hd
    cases hd
  have hblank : ∀ line : String, (∀ c ∈ line.data, unicodeIsSpace c = true) →
      parseTaskLine line = .error ("invalid task format: " ++ line) :=
    fun line h => hdigit line (fun c hc => isDigit_of_unicodeIsSpace (h c hc))
  refine ⟨hsemi, hdigit, rfl, hblank, ?_⟩
  intro file l hl hb
  exact parsePlanningFile_error_of_line file l hl _ (hblank l hb)

/-- C20, at a line without semicolon, a line without digit, a line of white
space, and a planning file whose second line is blank. -/
theorem C20_lines_fail_witness :
    parseTaskLine "9:30 standup" = .error ("invalid task format: " ++ "9:30 standup") ∧
    parseTaskLine "nine; standup" = .error ("invalid task format: " ++ "nine; standup") ∧
    parseTaskLine "  \t " = .error ("invalid task format: " ++ "  \t ") ∧
    ∃ e, parsePlanningFile ⟨none, ["9;Standup", "", "10;Review"], none⟩ = .error e :=
  ⟨C20_lines_without_semicolon_or_digit_fail.1 "9:30 standup" (by decide),
    C20_lines_without_semicolon_or_digit_fail.2.1 "nine; standup" (by decide),
    C20_lines_without_semicolon_or_digit_fail.2.2.2.1 "  \t " (by decide),
    C20_lines_without_semicolon_or_digit_fail.2.2.2.2
      ⟨none, ["9;Standup", "", "10;Review"], none⟩ "" (by decide) (by decide)⟩

/-- C12 (counterexample to the claim as stated).  For the notes `!-153722868`
the extractor returns `-153722868m`, but this is not read as a duration of
153722868 minutes: their nanoseconds do not fit in an `int64`,
`time.ParseDuration` rejects the string and the scheduler logs the failure and
uses a lead time of zero. -/
theorem C12_minutes_overflow :
    extractNotificationDuration "!-153722868" = "-153722868m" ∧
    parseDuration "-153722868m" = none ∧
    leadDuration "!-153722868" = (0, [LogEntry.durationParseFailed]) ∧
    parseDuration "-153722867m" = some (-(153722867 * nsPerMinute)) :=
  ⟨rfl, rfl, rfl, rfl⟩

/-- C12 (amended).  For every notes string whose first lead-time marker is `!-N`,
`N` the maximal run of digits after `!-`, `extractNotificationDuration` returns
`-`, `N` and `m`, whatever follows the marker (later markers included): only the
first marker is honored.  The scheduler reads this string as a duration of
magnitude `N` minutes when `N` is at most 153722867, and otherwise rejects it,
logs the failure and uses a lead time of zero. -/
theorem C12_first_marker_honored (front n rest rest2 : List Char)
    (hfront : hasMarker front = false) (hn : IsDigits n) (hne : n ≠ [])
    (hrest : ∀ x ∈ rest.head?, isDigit x = false)
    (hrest2 : ∀ x ∈ rest2.head?, isDigit x = false) :
    extractNotificationDuration (String.mk (front ++ '!' :: '-' :: (n ++ rest))) =
      String.mk ('-' :: n ++ ['m']) ∧
    extractNotificationDuration (String.mk (front ++ '!' :: '-' :: (n ++ rest2))) =
      extractNotificationDuration (String.mk (front ++ '!' :: '-' :: (n ++ rest))) ∧
    (digitsValue 0 n ≤ maxMinutes →
      parseDuration (String.mk ('-' :: n ++ ['m'])) =
        some (-(((digitsValue 0 n : Nat) : Int) * nsPerMinute)) ∧
      leadDuration (String.mk (front ++ '!' :: '-' :: (n ++ rest))) =
        (-(((digitsValue 0 n : Nat) : Int) * nsPerMinute), [])) ∧
    (maxMinutes < digitsValue 0 n →
      parseDuration (String.mk ('-' :: n ++ ['m'])) = none ∧
      leadDuration (String.mk (front ++ '!' :: '-' :: (n ++ rest))) =
        (0, [LogEntry.durationParseFailed])) := by
  cases n with
  | nil => exact absurd rfl hne
  | cons d ds =>
    have hd : isDigit d = true := hn d (List.mem_cons_self d ds)
    have hds : IsDigits ds := fun y hy => hn y (List.mem_cons_of_mem d hy)
    obtain ⟨hex, hlead⟩ := leadDuration_marker front rest d ds hfront hd hds hrest
    obtain ⟨hex2, _⟩ := leadDuration_marker front rest2 d ds hfront hd hds hrest2
    have hparse := parseDuration_minutes d ds hd hds
    simp only [List.cons_append] at hex hex2 hlead hparse ⊢
    refine ⟨hex, by rw [hex, hex2], ?_, ?_⟩
    · intro hmax
      rw [hparse, hlead, if_pos hmax, if_pos hmax]
      exact ⟨rfl, rfl⟩
    · intro hmax
      rw [hparse, hlead, if_neg (by omega), if_neg (by omega)]
      exact ⟨rfl, rfl⟩

/-- C12 (amended), at the notes `call !- !-15 then !-20`: the first marker is
`!-15`, and the later `!-20` plays no part. -/
theorem C12_first_marker_witness :
    extractNotificationDuration "call !- !-15 then !-20" = "-15m" ∧
    extractNotificationDuration "call !- !-15" = "-15m" ∧
    parseDuration "-15m" = some (-(15 * nsPerMinute)) ∧
    leadDuration "call !- !-15 then !-20" = (-(15 * nsPerMinute), []) := by
  have h := C12_first_marker_honored "call !- ".data "15".data " then !-20".data [] (by decide)
    (by unfold IsDigits; decide) (by decide) (by decide) (by decide)
  have hmax : digitsValue 0 "15".data ≤ maxMinutes := by decide
  exact ⟨h.1, h.2.1.trans h.1, (h.2.2.1 hmax).1, (h.2.2.1 hmax).2⟩

/-- C19.  For every task with a Start that the clock parse accepts, every notes
string and every instant `now`, the final notification instant is never earlier
than `now`, nor than the resolved start, and the sleep duration computed by
`scheduleNotification` is not negative.  (The lead time read from the notes is
never positive, and the code subtracts it from the resolved instant.) -/
theorem C19_sleep_never_negative (t : Task) (now : Int) (sinkErr : Bool) (hour minute : Nat)
    (hparse : timeParse t.Start = some (hour, minute)) :
    ∃ f, scheduleNotification t now sinkErr = .fired f ∧
      f.duration ≤ 0 ∧ f.resolved ≤ f.notificationTime ∧ now ≤ f.notificationTime ∧
      0 ≤ f.sleepDuration := by
  refine ⟨_, scheduleNotification_fired t now sinkErr hour minute hparse, ?_⟩
  obtain ⟨hlo, hhi⟩ := leadDuration_range t.Notes
  have hres := resolveStart_ge now hour minute
  have hneg : toInt64 (-(leadDuration t.Notes).1) = -(leadDuration t.Notes).1 :=
    toInt64_of_range _ (by omega) (by omega)
  show (leadDuration t.Notes).1 ≤ 0 ∧
    resolveStart now hour minute ≤
      resolveStart now hour minute + toInt64 (-(leadDuration t.Notes).1) ∧
    now ≤ resolveStart now hour minute + toInt64 (-(leadDuration t.Notes).1) ∧
    0 ≤ timeSub (resolveStart now hour minute + toInt64 (-(leadDuration t.Notes).1)) now
  rw [hneg]
  refine ⟨hhi, by omega, by omega, timeSub_nonneg _ _ (by omega)⟩

/-- C19, at the task of the line `14:30-15:00;Review;!-10` run at 14:25 of day 7,
five minutes before the start. -/
theorem C19_sleep_never_negative_witness :
    timeParse (Task.Start ⟨"14:30", "15:00", "Review", "!-10"⟩) = some (14, 30) ∧
    ∃ f, scheduleNotification ⟨"14:30", "15:00", "Review", "!-10"⟩ (dateClock 7 14 25) false =
        .fired f ∧
      f.duration ≤ 0 ∧ f.resolved ≤ f.notificationTime ∧
      dateClock 7 14 25 ≤ f.notificationTime ∧ 0 ≤ f.sleepDuration :=
  ⟨rfl, C19_sleep_never_negative ⟨"14:30", "15:00", "Review", "!-10"⟩ (dateClock 7 14 25) false
    14 30 rfl⟩

end DailyGo
